import Mathlib

/-!
Ear-clipping tessellator of osgEarth (`src/osgEarthUtil/Tessellator.cpp`).

Shallow embedding of `Tessellator::tessellateGeometry`, `Tessellator::isConvex`,
`Tessellator::isEar` and of the two helpers `compute_circumcircle` and
`point_in_circle`, followed by theorems about them.

Conventions of the embedding.

* The definitions come in two versions.  `tessellateGeometry`, `isConvex`, `isEar`,
  `compute_circumcircle` and `point_in_circle` read the expressions of the source over a
  linearly ordered field `K`, without rounding: exact arithmetic.  The versions marked `_fp`
  take a rounding as parameter, applied to the result of every `float` and `double`
  operation of the source; with IEEE 754 rounding over `ℚ` they compute what the machine
  computes as long as no overflow or underflow occurs, and without rounding they are the
  exact versions.  The sample inputs are rational (`K = ℚ`), statements about exact square
  roots take `K = ℝ`.
* `unsigned int` ring positions and vertex indices are natural numbers.  The sentinel
  `UINT_MAX` of `tradCursor` is `none` of an `Option Nat`: a ring position is smaller than
  the ring size, which is at most the number of vertices, so for every vertex array that
  fits `unsigned int` indexing the sentinel is never a position.
* `activeVerts[i]` and `vertices[i]` are `List.getD` with defaults `0` and the zero vector;
  the defaults are only reached by an out-of-range access.
* The `while` loops take a fuel argument and return `none` when it runs out; the fuel handed
  over by the callers is shown to be sufficient (`isEar_eq`, `whileLoop_initState_total`).
* `sqrt` (libm) and `osgEarth::Symbology::Polygon::contains2D` are not part of the two
  source files; they are the fields of `Externals`, a parameter of the embedding.
-/

namespace Tessellator

set_option linter.unusedSectionVars false

variable {K : Type} [LinearOrderedField K]

/-! ## Data model -/

/-- Vector of three coordinates, `osg::Vec3` / `osg::Vec3d` over the field `K`. -/
structure Vec3 (K : Type) where
  x : K
  y : K
  z : K
deriving DecidableEq

instance : Inhabited (Vec3 K) := ⟨⟨0, 0, 0⟩⟩

/-- Routines the tessellator calls and that are defined outside `Tessellator.cpp`:
the square root of `compute_circumcircle` and `Polygon::contains2D`, called on the
polygon made of the three points pushed by `isEar`. -/
structure Externals (K : Type) where
  sqrt : K → K
  contains2D : List (Vec3 K) → K → K → Bool

/-- Index triple `TriIndices` (lines 92-103). -/
structure TriIndices where
  a : Nat
  b : Nat
  c : Nat
deriving DecidableEq

/-- Primitive sets of an `osg::Geometry`: the ones a caller may have installed
(`DrawArrays`) and the `DrawElementsUInt` the tessellator builds. -/
inductive PrimitiveSet where
  | drawArrays (mode : Nat) (first : Nat) (count : Nat)
  | drawElementsUInt (mode : Nat) (indices : List Nat)
deriving DecidableEq

/-- Value of `osg::PrimitiveSet::TRIANGLES` (`GL_TRIANGLES`). -/
def TRIANGLES : Nat := 4

/-- The part of `osg::Geometry` that `tessellateGeometry` reads or writes.
`vertexArray` is `none` when there is no vertex array or when it is not a `Vec3Array`
(the `dynamic_cast` of line 119 yields null).  The `...Indices` flags say whether the
corresponding index array pointer is non-null; `texCoordIndices` has one flag per
texture-coordinate unit. -/
structure Geometry (K : Type) where
  vertexArray : Option (List (Vec3 K))
  primitiveSets : List PrimitiveSet
  vertexIndices : Bool
  normalIndices : Bool
  colorIndices : Bool
  secondaryColorIndices : Bool
  fogCoordIndices : Bool
  texCoordIndices : List Bool
deriving DecidableEq

/-! ## Geometric helpers (lines 34-90) -/

/-- Embedding of `compute_circumcircle` (lines 37-78) over an exact field: returns
`(Cx, Cy, r)`.  The source computes in `float`: see `compute_circumcircle_fp`. -/
def compute_circumcircle (sqrt : K → K) (a b c : Vec3 K) : Vec3 K :=
  let D := (a.x - c.x) * (b.y - c.y) - (b.x - c.x) * (a.y - c.y)
  if D = 0 then
    ⟨(a.x + b.x + c.x) / 3, (a.y + b.y + c.y) / 3, 0⟩
  else
    let cx :=
      (((a.x - c.x) * (a.x + c.x) + (a.y - c.y) * (a.y + c.y)) / 2 * (b.y - c.y) -
       ((b.x - c.x) * (b.x + c.x) + (b.y - c.y) * (b.y + c.y)) / 2 * (a.y - c.y)) / D
    let cy :=
      (((b.x - c.x) * (b.x + c.x) + (b.y - c.y) * (b.y + c.y)) / 2 * (a.x - c.x) -
       ((a.x - c.x) * (a.x + c.x) + (a.y - c.y) * (a.y + c.y)) / 2 * (b.x - c.x)) / D
    let r2 := sqrt ((c.x - cx) * (c.x - cx) + (c.y - cy) * (c.y - cy))
    ⟨cx, cy, r2⟩

/-- Embedding of `point_in_circle` (lines 83-90) over an exact field; the circle is
`(Cx, Cy, r)`.  The source computes in `float`: see `point_in_circle_fp`. -/
def point_in_circle (point circle : Vec3 K) : Bool :=
  let r2 := (point.x - circle.x) * (point.x - circle.x) +
    (point.y - circle.y) * (point.y - circle.y)
  decide (r2 ≤ circle.z * circle.z)

/-! ## The predicates `isConvex` and `isEar` (lines 244-315) -/

/-- Embedding of `Tessellator::isConvex` (lines 244-273) over an exact field.  The source
computes in `double`: see `isConvex_fp`. -/
def isConvex (vertices : List (Vec3 K)) (activeVerts : List Nat) (cursor : Nat) : Bool :=
  let prev := if cursor = 0 then activeVerts.length - 1 else cursor - 1
  let next := if cursor = activeVerts.length - 1 then 0 else cursor + 1
  let a := activeVerts.getD prev 0
  let b := activeVerts.getD cursor 0
  let c := activeVerts.getD next 0
  let dataA := vertices.getD a default
  let dataB := vertices.getD b default
  let dataC := vertices.getD c default
  decide ((dataB.x - dataA.x) * (dataC.y - dataA.y) -
    (dataB.y - dataA.y) * (dataC.x - dataA.x) > 0)

/-- The `while (nextNext != prev)` loop of `isEar` (lines 292-310).  Arguments after the
fuel: the loop variables `nextNext` and `circEar`.  The result is the pair
(returned value, value of the reference parameter `tradEar` on return); `tradEar` is not
written inside the loop, so an early `return false` hands it back unchanged. -/
def isEarScan (ext : Externals K) (vertices : List (Vec3 K)) (activeVerts : List Nat)
    (cc : Vec3 K) (poly : List (Vec3 K)) (prev : Nat) (tradEar : Bool) :
    Nat → Nat → Bool → Option (Bool × Bool)
  | 0, _, _ => none
  | fuel + 1, nextNext, circEar =>
    if nextNext ≠ prev then
      let p := activeVerts.getD nextNext 0
      let hit := circEar && point_in_circle (vertices.getD p default) cc
      if hit && tradEar then some (false, tradEar)
      else if !tradEar &&
          ext.contains2D poly (vertices.getD p default).x (vertices.getD p default).y then
        some (false, tradEar)
      else
        isEarScan ext vertices activeVerts cc poly prev tradEar fuel
          (if nextNext = activeVerts.length - 1 then 0 else nextNext + 1)
          (if hit then false else circEar)
    else some (circEar, true)

/-- Embedding of `Tessellator::isEar` (lines 275-315): the pair (returned value, `tradEar`
on return), for the value of `tradEar` on entry.  The scan gets the ring size as fuel. -/
def isEar (ext : Externals K) (vertices : List (Vec3 K)) (activeVerts : List Nat) (cursor : Nat)
    (tradEar : Bool) : Option (Bool × Bool) :=
  let prev := if cursor = 0 then activeVerts.length - 1 else cursor - 1
  let next := if cursor = activeVerts.length - 1 then 0 else cursor + 1
  let cc := compute_circumcircle ext.sqrt
    (vertices.getD (activeVerts.getD prev 0) default)
    (vertices.getD (activeVerts.getD cursor 0) default)
    (vertices.getD (activeVerts.getD next 0) default)
  let poly := [vertices.getD (activeVerts.getD prev 0) default,
    vertices.getD (activeVerts.getD cursor 0) default,
    vertices.getD (activeVerts.getD next 0) default]
  let nextNext := if next = activeVerts.length - 1 then 0 else next + 1
  isEarScan ext vertices activeVerts cc poly prev tradEar activeVerts.length nextNext true

/-! ## The main loop of `tessellateGeometry` (lines 136-211) -/

/-- Local variables of `tessellateGeometry` that the `while` loop reads and writes. -/
structure LoopState where
  activeVerts : List Nat
  tris : List TriIndices
  cursor : Nat
  cursor_start : Nat
  tradCursor : Option Nat
deriving DecidableEq

/-- The ear removal written twice in the source, at lines 155-165 (with `cursor` the
current cursor) and at lines 191-201 (with `cursor` the recorded `tradCursor`): push the
triangle `(prev, cursor, next)`, erase the ring entry, wrap the cursor, restart the sweep. -/
def clipEar (s : LoopState) (cursor : Nat) : LoopState :=
  let prev := if cursor = 0 then s.activeVerts.length - 1 else cursor - 1
  let next := if cursor = s.activeVerts.length - 1 then 0 else cursor + 1
  let tris := s.tris ++ [⟨s.activeVerts.getD prev 0, s.activeVerts.getD cursor 0,
    s.activeVerts.getD next 0⟩]
  let activeVerts := s.activeVerts.eraseIdx cursor
  let cursor := if cursor ≥ activeVerts.length then 0 else cursor
  { activeVerts := activeVerts, tris := tris, cursor := cursor, cursor_start := cursor,
    tradCursor := none }

/-- Lines 176-210: advance the cursor and, when it is back at `cursor_start`, clip the
recorded traditional ear or give up.  `tradCursor` is the value after lines 170-173.
The flag is `false` exactly when the loop is left through `success = false; break`. -/
def advanceCursor (s : LoopState) (tradCursor : Option Nat) : LoopState × Bool :=
  let cursor := if s.cursor + 1 ≥ s.activeVerts.length then 0 else s.cursor + 1
  if cursor = s.cursor_start then
    match tradCursor with
    | some t => (clipEar s t, true)
    | none => ({ s with cursor := cursor, tradCursor := tradCursor }, false)
  else ({ s with cursor := cursor, tradCursor := tradCursor }, true)

/-- One execution of the body of `while (activeVerts.size() > 3)` (lines 150-210).
The flag is the variable `success`; `none` only if the scan of `isEar` ran out of fuel. -/
def loopBody (ext : Externals K) (vertices : List (Vec3 K)) (s : LoopState) :
    Option (LoopState × Bool) :=
  if isConvex vertices s.activeVerts s.cursor then
    match isEar ext vertices s.activeVerts s.cursor s.tradCursor.isSome with
    | none => none
    | some (true, _) => some (clipEar s s.cursor, true)
    | some (false, tradEar) =>
      some (advanceCursor s
        (if tradEar && s.tradCursor.isNone then some s.cursor else s.tradCursor))
  else some (advanceCursor s s.tradCursor)

/-- The loop `while (activeVerts.size() > 3)` (lines 148-211): final state and `success`. -/
def whileLoop (ext : Externals K) (vertices : List (Vec3 K)) :
    Nat → LoopState → Option (LoopState × Bool)
  | 0, _ => none
  | fuel + 1, s =>
    if s.activeVerts.length > 3 then
      match loopBody ext vertices s with
      | none => none
      | some (s', true) => whileLoop ext vertices fuel s'
      | some (s', false) => some (s', false)
    else some (s, true)

/-- State after exactly `k` executions of the loop body, none of which left the loop;
`none` when the loop stops earlier. -/
def loopIter (ext : Externals K) (vertices : List (Vec3 K)) : Nat → LoopState → Option LoopState
  | 0, s => some s
  | k + 1, s =>
    if s.activeVerts.length > 3 then
      match loopBody ext vertices s with
      | some (s', true) => loopIter ext vertices k s'
      | _ => none
    else none

/-- Loop state on entry (lines 136-147): the identity ring, no triangle, cursors at 0. -/
def initState (n : Nat) : LoopState :=
  { activeVerts := List.range n, tris := [], cursor := 0, cursor_start := 0,
    tradCursor := none }

/-- Fuel `tessellateGeometry` gives the main loop for `n` vertices. -/
def loopFuel (n : Nat) : Nat := n * n + 1

/-! ## `tessellateGeometry` (lines 109-242) -/

/-- The index list pushed into `triElements` (lines 226-231). -/
def triElements (tris : List TriIndices) : List Nat :=
  tris.flatMap (fun t => [t.a, t.b, t.c])

/-- Model of `osg::Geometry::removePrimitiveSet(i, numElementsToRemove)`. -/
def removePrimitiveSet (l : List PrimitiveSet) (i num : Nat) : List PrimitiveSet :=
  l.take i ++ l.drop (i + num)

/-- Triangle list after lines 213-219: the clipped triangles and, when exactly three ring
indices are left, the last triangle. -/
def finalTris (s : LoopState) : List TriIndices :=
  if s.activeVerts.length = 3 then
    s.tris ++ [⟨s.activeVerts.getD 0 0, s.activeVerts.getD 1 0, s.activeVerts.getD 2 0⟩]
  else s.tris

/-- Embedding of `Tessellator::tessellateGeometry` (lines 109-242): the returned flag and
the geometry after the call.  `none` only if the loop fuel ran out. -/
def tessellateGeometry (ext : Externals K) (geom : Geometry K) : Option (Bool × Geometry K) :=
  match geom.vertexArray with
  | none => some (false, geom)
  | some vertices =>
    if vertices.isEmpty || geom.primitiveSets.isEmpty then some (false, geom)
    else if geom.vertexIndices || geom.normalIndices || geom.colorIndices ||
        geom.secondaryColorIndices || geom.fogCoordIndices then some (false, geom)
    else if geom.texCoordIndices.any id then some (false, geom)
    else
      match whileLoop ext vertices (loopFuel vertices.length) (initState vertices.length) with
      | none => none
      | some (s, true) =>
        let nprimsetoriginal := geom.primitiveSets.length
        let prims := if nprimsetoriginal ≠ 0 then
          removePrimitiveSet geom.primitiveSets 0 nprimsetoriginal else geom.primitiveSets
        some (true, { geom with
          primitiveSets := prims ++ [PrimitiveSet.drawElementsUInt TRIANGLES
            (triElements (finalTris s))] })
      | some (_, false) => some (false, geom)

/-! ## Concrete inputs used to exercise the definitions -/

/-- The value `(B - A) x (C - A)` in x/y: twice the signed area of `a b p`. -/
def cross2D (a b p : Vec3 K) : K :=
  (b.x - a.x) * (p.y - a.y) - (b.y - a.y) * (p.x - a.x)

/-- Sample externals: `contains2D` is the closed point-in-triangle test, and the square
root is exact on the squares met by the sample rings. -/
def sampleExt : Externals ℚ where
  sqrt := fun q => if q = 1 then 1 else if q = 4 then 2 else q
  contains2D := fun poly x y =>
    match poly with
    | [a, b, c] =>
      let p : Vec3 ℚ := ⟨x, y, 0⟩
      (decide (0 ≤ cross2D a b p) && decide (0 ≤ cross2D b c p) &&
        decide (0 ≤ cross2D c a p)) ||
      (decide (cross2D a b p ≤ 0) && decide (cross2D b c p ≤ 0) &&
        decide (cross2D c a p ≤ 0))
    | _ => false

/-- Geometry with an unindexed vertex array and one `DrawArrays(POLYGON)` primitive. -/
def polygonGeometry (vertices : List (Vec3 K)) : Geometry K :=
  { vertexArray := some vertices,
    primitiveSets := [PrimitiveSet.drawArrays 9 0 vertices.length],
    vertexIndices := false, normalIndices := false, colorIndices := false,
    secondaryColorIndices := false, fogCoordIndices := false, texCoordIndices := [] }

/-- Counter-clockwise square. -/
def squareCCW : List (Vec3 ℚ) := [⟨0, 0, 0⟩, ⟨2, 0, 0⟩, ⟨2, 2, 0⟩, ⟨0, 2, 0⟩]

/-- Clockwise square with an extra vertex pushed inwards on its left side: the ring has
one ear (at index 1) and, once it is clipped, a clockwise square is left. -/
def dentedCW : List (Vec3 ℚ) := [⟨0, 0, 0⟩, ⟨1, 1, 0⟩, ⟨0, 2, 0⟩, ⟨2, 2, 0⟩, ⟨2, 0, 0⟩]

/-- True when some index array is attached: the tests of lines 124-134. -/
def Geometry.usesIndices (geom : Geometry K) : Bool :=
  geom.vertexIndices || geom.normalIndices || geom.colorIndices ||
    geom.secondaryColorIndices || geom.fogCoordIndices || geom.texCoordIndices.any id

/-- The square of `squareCCW` flagged as using vertex indices. -/
def indexedSquare : Geometry ℚ := { polygonGeometry squareCCW with vertexIndices := true }

/-- Ring of two points. -/
def twoPoints : List (Vec3 ℚ) := [⟨0, 0, 0⟩, ⟨1, 0, 0⟩]

/-- Clockwise triangle. -/
def triangleCW : List (Vec3 ℚ) := [⟨0, 0, 0⟩, ⟨0, 1, 0⟩, ⟨1, 0, 0⟩]

/-! ## Vocabulary of the statements -/

/-- Ring position before `c` (the expression for `prev`, lines 155, 191, 247, 278). -/
def prevPos (len c : Nat) : Nat := if c = 0 then len - 1 else c - 1

/-- Ring position after `c` (the expression for `next`, lines 156, 192, 248, 279). -/
def nextPos (len c : Nat) : Nat := if c = len - 1 then 0 else c + 1

/-- Vertex of the ring entry at position `j`. -/
def ringVertex (vertices : List (Vec3 K)) (ring : List Nat) (j : Nat) : Vec3 K :=
  vertices.getD (ring.getD j 0) default

/-- Triangle pushed when the ear at position `c` of `ring` is clipped. -/
def triAt (ring : List Nat) (c : Nat) : TriIndices :=
  ⟨ring.getD (prevPos ring.length c) 0, ring.getD c 0, ring.getD (nextPos ring.length c) 0⟩

/-- Positions of the ring that are not part of the candidate ear at `c`. -/
def otherPositions (len c : Nat) : List Nat :=
  (List.range len).filter (fun j => j ≠ prevPos len c ∧ j ≠ c ∧ j ≠ nextPos len c)

/-- Positions visited by the scan of `isEar`, in scan order: `m` positions from `nn` on. -/
def scanOrder (len : Nat) : Nat → Nat → List Nat
  | 0, _ => []
  | m + 1, nn => nn :: scanOrder len m (nextPos len nn)

/-- The vertex at position `j` is reported by `contains2D` to be in the triangle of the
candidate ear at position `c`. -/
def inEarTriangle (ext : Externals K) (vertices : List (Vec3 K)) (ring : List Nat) (c j : Nat) :
    Bool :=
  ext.contains2D
    [ringVertex vertices ring (prevPos ring.length c), ringVertex vertices ring c,
      ringVertex vertices ring (nextPos ring.length c)]
    (ringVertex vertices ring j).x (ringVertex vertices ring j).y

/-- The vertex at position `j` is within the circle `compute_circumcircle` returns for the
candidate ear at position `c`, according to `point_in_circle`. -/
def inEarCircle (ext : Externals K) (vertices : List (Vec3 K)) (ring : List Nat) (c j : Nat) :
    Bool :=
  point_in_circle (ringVertex vertices ring j)
    (compute_circumcircle ext.sqrt (ringVertex vertices ring (prevPos ring.length c))
      (ringVertex vertices ring c) (ringVertex vertices ring (nextPos ring.length c)))

/-- No other ring vertex is in the triangle of the candidate at `c`. -/
def triangleFree (ext : Externals K) (vertices : List (Vec3 K)) (ring : List Nat) (c : Nat) : Bool :=
  (otherPositions ring.length c).all (fun j => !inEarTriangle ext vertices ring c j)

/-- No other ring vertex is within the circumcircle of the candidate at `c`. -/
def circleFree (ext : Externals K) (vertices : List (Vec3 K)) (ring : List Nat) (c : Nat) : Bool :=
  (otherPositions ring.length c).all (fun j => !inEarCircle ext vertices ring c j)

/-- Position `c` is a traditional ear of the ring: convex (strictly positive cross product)
and no other ring vertex in its triangle according to `contains2D`. -/
def isTradEar (ext : Externals K) (vertices : List (Vec3 K)) (ring : List Nat) (c : Nat) : Bool :=
  isConvex vertices ring c && triangleFree ext vertices ring c

/-- The ring has a traditional ear at some position. -/
def hasTradEar (ext : Externals K) (vertices : List (Vec3 K)) (ring : List Nat) : Bool :=
  (List.range ring.length).any (isTradEar ext vertices ring)

/-- Result of the scan of `isEar` over the positions `L`, in closed form. -/
def scanSpec (inCirc inTri : Nat → Bool) (tradEar : Bool) (L : List Nat) (circEar : Bool) :
    Bool × Bool :=
  if tradEar then (circEar && L.all (fun j => !inCirc j), true)
  else if L.any inTri then (false, false)
  else (circEar && L.all (fun j => !inCirc j), true)

/-- Position reached from `y` with at most one wrap around a ring of size `len`. -/
def cyc (len y : Nat) : Nat := if y < len then y else y - len

/-- Invariant of a sweep of the main loop after `k` advances of the cursor: the cursor is
`k` positions after `cursor_start`, no position passed so far is a traditional ear while
`tradCursor` is unset, and a recorded `tradCursor` is a ring position that is a
traditional ear. -/
def SweepInv (ext : Externals K) (vertices : List (Vec3 K)) (s : LoopState) (k : Nat) : Prop :=
  k < s.activeVerts.length ∧ s.cursor_start < s.activeVerts.length ∧
  s.cursor = cyc s.activeVerts.length (s.cursor_start + k) ∧
  (s.tradCursor = none → ∀ i, i < k →
    isTradEar ext vertices s.activeVerts (cyc s.activeVerts.length (s.cursor_start + i)) =
      false) ∧
  (∀ t, s.tradCursor = some t →
    t < s.activeVerts.length ∧ isTradEar ext vertices s.activeVerts t = true)

/-- What one execution of the loop body does to a state `s` that is `k` advances into a
sweep, `r` being the new state and the `success` flag: it clips an ear (at a convex
position of a ring that has a traditional ear; the position is a traditional ear itself or
has no other ring vertex within its circumcircle), or it advances the cursor by one position
without touching ring and triangles, or it gives up at the end of a full sweep of a ring
without traditional ear. -/
def StepOutcome (ext : Externals K) (vertices : List (Vec3 K)) (s : LoopState) (k : Nat)
    (r : LoopState × Bool) : Prop :=
  (r.2 = true ∧ ∃ c, c < s.activeVerts.length ∧ r.1 = clipEar s c ∧
    isConvex vertices s.activeVerts c = true ∧
    hasTradEar ext vertices s.activeVerts = true ∧
    (isTradEar ext vertices s.activeVerts c = true ∨
      circleFree ext vertices s.activeVerts c = true)) ∨
  (r.2 = true ∧ r.1.activeVerts = s.activeVerts ∧ r.1.tris = s.tris ∧
    r.1.cursor_start = s.cursor_start ∧
    k + 1 < s.activeVerts.length ∧ SweepInv ext vertices r.1 (k + 1)) ∨
  (r.2 = false ∧ r.1.activeVerts = s.activeVerts ∧ r.1.tris = s.tris ∧
    k + 1 = s.activeVerts.length ∧ hasTradEar ext vertices s.activeVerts = false)

/-- Signed area `((B - A) x (C - A)) / 2` of an index triangle. -/
def triArea (vertices : List (Vec3 K)) (t : TriIndices) : K :=
  cross2D (vertices.getD t.a default) (vertices.getD t.b default)
    (vertices.getD t.c default) / 2

/-- Shoelace term `x_p * y_q - x_q * y_p` of the edge from `p` to `q`. -/
def edgeTerm (p q : Vec3 K) : K := p.x * q.y - q.x * p.y

/-- Sum of the shoelace terms along an open path of points. -/
def pathSum : List (Vec3 K) → K
  | a :: b :: rest => edgeTerm a b + pathSum (b :: rest)
  | _ => 0

/-- Shoelace signed area of the closed ring through `pts`. -/
def shoelace (pts : List (Vec3 K)) : K := pathSum (pts ++ pts.take 1) / 2

/-- Points of a ring of indices. -/
def ringPoints (vertices : List (Vec3 K)) (ring : List Nat) : List (Vec3 K) :=
  ring.map (fun i => vertices.getD i default)

/-- Vertex with index `i`. -/
def vertexAt (vertices : List (Vec3 K)) (i : Nat) : Vec3 K := vertices.getD i default

/-- Strictly convex counter-clockwise ring: every index triple `i < j < k` makes a strict
left turn in x/y. -/
def ConvexCCW (vertices : List (Vec3 K)) : Prop :=
  ∀ k, k < vertices.length → ∀ j, j < k → ∀ i, i < j →
    0 < cross2D (vertexAt vertices i) (vertexAt vertices j) (vertexAt vertices k)

instance (vertices : List (Vec3 K)) : Decidable (ConvexCCW vertices) := by
  unfold ConvexCCW
  infer_instance

/-- The point `(x, y)` is in the closed triangle `a b c` (of either orientation). -/
def inClosedTriangle (a b c : Vec3 K) (x y : K) : Prop :=
  (0 ≤ cross2D a b ⟨x, y, 0⟩ ∧ 0 ≤ cross2D b c ⟨x, y, 0⟩ ∧ 0 ≤ cross2D c a ⟨x, y, 0⟩) ∨
  (cross2D a b ⟨x, y, 0⟩ ≤ 0 ∧ cross2D b c ⟨x, y, 0⟩ ≤ 0 ∧ cross2D c a ⟨x, y, 0⟩ ≤ 0)

/-- Assumption on the external `contains2D`: called on a triangle, it returns false for
every point outside the closed triangle. -/
def ContainsOnlyInside (ext : Externals K) : Prop :=
  ∀ a b c x y, ¬ inClosedTriangle a b c x y → ext.contains2D [a, b, c] x y = false

/-- The three numbers are in cyclic increasing order. -/
def CycLt (a b c : Nat) : Prop := (a < b ∧ b < c) ∨ (b < c ∧ c < a) ∨ (c < a ∧ a < b)

/-- Counter-clockwise convex pentagon. -/
def pentagonCCW : List (Vec3 ℚ) := [⟨0, 0, 0⟩, ⟨2, 0, 0⟩, ⟨3, 2, 0⟩, ⟨1, 3, 0⟩, ⟨-1, 2, 0⟩]

/-- Clockwise dart: position 0 is a strict ear, and once it is clipped the clockwise
triangle `1 2 3` is left. -/
def dartCW : List (Vec3 ℚ) := [⟨0, -1, 0⟩, ⟨1, 0, 0⟩, ⟨0, -5, 0⟩, ⟨-1, 0, 0⟩]

/-- Squared distance in x/y. -/
def sqDist (p o : Vec3 K) : K :=
  (p.x - o.x) * (p.x - o.x) + (p.y - o.y) * (p.y - o.y)

/-- The determinant `D` of `compute_circumcircle` (lines 42-44). -/
def circumDet (a b c : Vec3 K) : K :=
  (a.x - c.x) * (b.y - c.y) - (b.x - c.x) * (a.y - c.y)

/-- Exact arithmetic for the external square root: on non-negative arguments it returns the
non-negative root. -/
def SqrtExact (sqrt : K → K) : Prop := ∀ x, 0 ≤ x → 0 ≤ sqrt x ∧ sqrt x * sqrt x = x

/-- Corners of a right triangle with legs 4 and 3. -/
def cornerA : Vec3 K := ⟨0, 0, 0⟩

/-- Second corner of the sample right triangle. -/
def cornerB : Vec3 K := ⟨4, 0, 0⟩

/-- Third corner of the sample right triangle. -/
def cornerC : Vec3 K := ⟨0, 3, 0⟩

/-- Closed point-in-triangle test by the signs of the three edge cross products. -/
def closedTriangleTest (poly : List (Vec3 K)) (x y : K) : Bool :=
  match poly with
  | [a, b, c] =>
    (decide (0 ≤ cross2D a b ⟨x, y, 0⟩) && decide (0 ≤ cross2D b c ⟨x, y, 0⟩) &&
      decide (0 ≤ cross2D c a ⟨x, y, 0⟩)) ||
    (decide (cross2D a b ⟨x, y, 0⟩ ≤ 0) && decide (cross2D b c ⟨x, y, 0⟩ ≤ 0) &&
      decide (cross2D c a ⟨x, y, 0⟩ ≤ 0))
  | _ => false

/-- Externals made of a given square root and the closed point-in-triangle test. -/
def exactExt (sqrt : K → K) : Externals K :=
  { sqrt := sqrt, contains2D := closedTriangleTest }

/-- The unit square, counter-clockwise. -/
def unitSquare : List (Vec3 K) := [⟨0, 0, 0⟩, ⟨1, 0, 0⟩, ⟨1, 1, 0⟩, ⟨0, 1, 0⟩]

/-- Position `c` is convex and has no other ring vertex within its circumcircle. -/
def isStrictEar (ext : Externals K) (vertices : List (Vec3 K)) (ring : List Nat) (c : Nat) :
    Bool :=
  isConvex vertices ring c && circleFree ext vertices ring c

/-- Ring position visited by a sweep after `i` advances from `cursor_start`. -/
def sweepPos (s : LoopState) (i : Nat) : Nat := cyc s.activeVerts.length (s.cursor_start + i)

/-- The first traditional ear among the first `m` positions of the sweep of `s`, if any. -/
def firstTradEar (ext : Externals K) (vertices : List (Vec3 K)) (s : LoopState) :
    Nat → Option Nat
  | 0 => none
  | m + 1 =>
    match firstTradEar ext vertices s m with
    | some t => some t
    | none =>
      if isTradEar ext vertices s.activeVerts (sweepPos s m) then some (sweepPos s m)
      else none

/-- A state at the start of a sweep: the cursor is at `cursor_start`, a ring position, and
no traditional ear is recorded. -/
def SweepStart (s : LoopState) : Prop :=
  s.cursor = s.cursor_start ∧ s.cursor_start < s.activeVerts.length ∧ s.tradCursor = none

/-- The state of a sweep of `s` after `m` pure advances. -/
def sweepState (ext : Externals K) (vertices : List (Vec3 K)) (s : LoopState) (m : Nat) :
    LoopState :=
  { s with cursor := sweepPos s m, tradCursor := firstTradEar ext vertices s m }

/-- Counter-clockwise dart with the reflex vertex `(0, 0)` at index 2 and the tip `(0, 3)`
at index 0. -/
def dartCCW : List (Vec3 K) := [⟨0, 3, 0⟩, ⟨-2, -1, 0⟩, ⟨0, 0, 0⟩, ⟨2, -1, 0⟩]

/-- The x and y coordinates of a vector. -/
def planar (p : Vec3 K) : K × K := (p.x, p.y)

/-- Assumption on the external `contains2D`: called on a triangle, it reads only the x and
y coordinates of the three points. -/
def Contains2DPlanar (ext : Externals K) : Prop :=
  ∀ a b c a' b' c' x y, planar a = planar a' → planar b = planar b' → planar c = planar c' →
    ext.contains2D [a, b, c] x y = ext.contains2D [a', b', c'] x y

/-- The square `squareCCW` with its four vertices at different heights. -/
def squareLifted : List (Vec3 ℚ) := [⟨0, 0, 5⟩, ⟨2, 0, 7⟩, ⟨2, 2, -1⟩, ⟨0, 2, 3⟩]

/-- The square `squareCCW` listed clockwise. -/
def squareCW : List (Vec3 ℚ) := [⟨0, 0, 0⟩, ⟨0, 2, 0⟩, ⟨2, 2, 0⟩, ⟨2, 0, 0⟩]

/-- Four points on one line. -/
def collinearFour : List (Vec3 ℚ) := [⟨0, 0, 0⟩, ⟨1, 1, 0⟩, ⟨2, 2, 0⟩, ⟨3, 3, 0⟩]

/-- State of the first sweep with the cursor on position `i`: nothing clipped, no traditional
ear recorded. -/
def flatState (n i : Nat) : LoopState := { initState n with cursor := i }

/-- Invariant of ring and triangle list along a run on `n` vertices: the ring is a
subsequence of `0 .. n-1`, has at least three entries when `n ≥ 3`, and every triangle
pushed so far has its indices below `n` and in cyclic increasing order. -/
def RingInv (n : Nat) (ring : List Nat) (tris : List TriIndices) : Prop :=
  ring.Sublist (List.range n) ∧ (3 ≤ n → 3 ≤ ring.length) ∧
  ∀ t ∈ tris, t.a < n ∧ t.b < n ∧ t.c < n ∧ CycLt t.a t.b t.c


/-! ## Machine arithmetic

The source computes `compute_circumcircle` and `point_in_circle` in `float` and `isConvex`
in `double`.  The definitions above read the same expressions over an exact ordered field;
the definitions below, marked `_fp`, round the result of every operation, and are the
definitions above when the rounding is the identity.  Numbers are rationals and the
exponent range is unbounded: overflow, underflow, infinities and NaN are not modelled. -/

/-- The power `2 ^ e` for an integer exponent. -/
def pow2 (e : ℤ) : ℚ :=
  if 0 ≤ e then ((2 ^ e.toNat : ℕ) : ℚ) else 1 / ((2 ^ (-e).toNat : ℕ) : ℚ)

/-- The number `⌊log₂ n⌋` by repeated halving (0 for `n < 2`); `n` halvings are enough. -/
def log2Halving : ℕ → ℕ → ℕ
  | 0, _ => 0
  | fuel + 1, n => if n < 2 then 0 else log2Halving fuel (n / 2) + 1

/-- The integer `⌊log₂ |q|⌋` of a non-zero rational. -/
def binaryExponent (q : ℚ) : ℤ :=
  let l : ℤ := (log2Halving q.num.natAbs q.num.natAbs : ℤ) - (log2Halving q.den q.den : ℤ)
  if pow2 l ≤ |q| then l else l - 1

/-- Rounding to the nearest integer, ties to the even one. -/
def roundHalfEven (s : ℚ) : ℤ :=
  let f := ⌊s⌋
  if s - f < 1 / 2 then f
  else if 1 / 2 < s - f then f + 1
  else if f % 2 = 0 then f else f + 1

/-- Rounding of IEEE 754 binary arithmetic to `p` significant bits (round to nearest, ties
to even), the exponent range taken unbounded: the machine's rounding as long as the result
is a normal number. -/
def roundBits (p : ℕ) (q : ℚ) : ℚ :=
  if q = 0 then 0
  else (roundHalfEven (q / pow2 (binaryExponent q - (p - 1))) : ℚ) *
    pow2 (binaryExponent q - (p - 1))

/-- Rounding to `float` (24 significant bits). -/
def f32 (q : ℚ) : ℚ := roundBits 24 q

/-- Rounding to `double` (53 significant bits). -/
def f64 (q : ℚ) : ℚ := roundBits 53 q


/-- Floor of the square root of `n` by bisection between `lo` and `hi`, with
`lo * lo ≤ n < hi * hi`. -/
def natSqrtAux : ℕ → ℕ → ℕ → ℕ → ℕ
  | 0, _, lo, _ => lo
  | fuel + 1, n, lo, hi =>
    if hi ≤ lo + 1 then lo
    else if ((lo + hi) / 2) * ((lo + hi) / 2) ≤ n then natSqrtAux fuel n ((lo + hi) / 2) hi
    else natSqrtAux fuel n lo ((lo + hi) / 2)

/-- Floor of the square root of a natural number. -/
def natSqrt (n : ℕ) : ℕ := natSqrtAux (n + 1) n 0 (n + 1)

/-- Correctly rounded square root with `p` significant bits, as IEEE 754 requires of
`sqrt`: the root of `x` scaled by `2 ^ k` lies in `[r0, r0 + 1)` for the integer root `r0`,
which has more than `p` bits, so apart from an exact root it rounds like `r0 + 1/2`.
A non-positive argument gives 0. -/
def sqrtNearest (p : ℕ) (x : ℚ) : ℚ :=
  if x ≤ 0 then 0
  else
    let k : ℕ := p + 1 + (-(binaryExponent x)).toNat
    let y : ℚ := x * ((4 ^ k : ℕ) : ℚ)
    let r0 : ℕ := natSqrt ⌊y⌋.toNat
    if (r0 : ℚ) * (r0 : ℚ) = y then roundBits p ((r0 : ℚ) / ((2 ^ k : ℕ) : ℚ))
    else roundBits p (((r0 : ℚ) + 1 / 2) / ((2 ^ k : ℕ) : ℚ))

/-- Roundings of the machine arithmetic: `single` is applied to the result of every
operation on `float`, `double` to the result of every operation on `double`. -/
structure Rounding (K : Type) where
  single : K → K
  double : K → K

/-- No rounding: exact arithmetic. -/
def exactRounding : Rounding K := ⟨id, id⟩

/-- IEEE 754 rounding of `float` and `double` operations. -/
def ieeeRounding : Rounding ℚ := ⟨f32, f64⟩

/-- Difference of two `float`. -/
def Rounding.fsub (R : Rounding K) (x y : K) : K := R.single (x - y)

/-- Sum of two `float`. -/
def Rounding.fadd (R : Rounding K) (x y : K) : K := R.single (x + y)

/-- Product of two `float`. -/
def Rounding.fmul (R : Rounding K) (x y : K) : K := R.single (x * y)

/-- Quotient of two `float`. -/
def Rounding.fdiv (R : Rounding K) (x y : K) : K := R.single (x / y)

/-- Difference of two `double`. -/
def Rounding.dsub (R : Rounding K) (x y : K) : K := R.double (x - y)

/-- Product of two `double`. -/
def Rounding.dmul (R : Rounding K) (x y : K) : K := R.double (x * y)

/-- Embedding of `compute_circumcircle` (lines 37-78) in machine arithmetic: the operands
are `float`, every operation is rounded to `float`; in the branch `D == 0` the sums are
divided by the `double` 3.0 and stored in a `float`; the result of `sqrt` is stored in the
`float` `r2`. -/
def compute_circumcircle_fp (R : Rounding K) (sqrt : K → K) (a b c : Vec3 K) : Vec3 K :=
  let D := R.fsub (R.fmul (R.fsub a.x c.x) (R.fsub b.y c.y))
    (R.fmul (R.fsub b.x c.x) (R.fsub a.y c.y))
  if D = 0 then
    ⟨R.single (R.double (R.fadd (R.fadd a.x b.x) c.x / 3)),
      R.single (R.double (R.fadd (R.fadd a.y b.y) c.y / 3)), 0⟩
  else
    let cx := R.fdiv (R.fsub
      (R.fmul (R.fdiv (R.fadd (R.fmul (R.fsub a.x c.x) (R.fadd a.x c.x))
        (R.fmul (R.fsub a.y c.y) (R.fadd a.y c.y))) 2) (R.fsub b.y c.y))
      (R.fmul (R.fdiv (R.fadd (R.fmul (R.fsub b.x c.x) (R.fadd b.x c.x))
        (R.fmul (R.fsub b.y c.y) (R.fadd b.y c.y))) 2) (R.fsub a.y c.y))) D
    let cy := R.fdiv (R.fsub
      (R.fmul (R.fdiv (R.fadd (R.fmul (R.fsub b.x c.x) (R.fadd b.x c.x))
        (R.fmul (R.fsub b.y c.y) (R.fadd b.y c.y))) 2) (R.fsub a.x c.x))
      (R.fmul (R.fdiv (R.fadd (R.fmul (R.fsub a.x c.x) (R.fadd a.x c.x))
        (R.fmul (R.fsub a.y c.y) (R.fadd a.y c.y))) 2) (R.fsub b.x c.x))) D
    let r2 := R.single (sqrt (R.fadd (R.fmul (R.fsub c.x cx) (R.fsub c.x cx))
      (R.fmul (R.fsub c.y cy) (R.fsub c.y cy))))
    ⟨cx, cy, r2⟩

/-- Embedding of `point_in_circle` (lines 83-90) in machine arithmetic: `r2` and the
product `circle.z() * circle.z()` are `float`. -/
def point_in_circle_fp (R : Rounding K) (point circle : Vec3 K) : Bool :=
  let r2 := R.fadd (R.fmul (R.fsub point.x circle.x) (R.fsub point.x circle.x))
    (R.fmul (R.fsub point.y circle.y) (R.fsub point.y circle.y))
  decide (r2 ≤ R.fmul circle.z circle.z)

/-- Embedding of `Tessellator::isConvex` (lines 244-273) in machine arithmetic: the
coordinates are copied into `osg::Vec3d` and every operation is rounded to `double`. -/
def isConvex_fp (R : Rounding K) (vertices : List (Vec3 K)) (activeVerts : List Nat)
    (cursor : Nat) : Bool :=
  let prev := if cursor = 0 then activeVerts.length - 1 else cursor - 1
  let next := if cursor = activeVerts.length - 1 then 0 else cursor + 1
  let a := activeVerts.getD prev 0
  let b := activeVerts.getD cursor 0
  let c := activeVerts.getD next 0
  let dataA := vertices.getD a default
  let dataB := vertices.getD b default
  let dataC := vertices.getD c default
  decide (R.dsub (R.dmul (R.dsub dataB.x dataA.x) (R.dsub dataC.y dataA.y))
    (R.dmul (R.dsub dataB.y dataA.y) (R.dsub dataC.x dataA.x)) > 0)

/-- The scan loop of `isEar` (lines 292-310) in machine arithmetic; as `isEarScan`, with
the circle test `point_in_circle_fp`. -/
def isEarScan_fp (R : Rounding K) (ext : Externals K) (vertices : List (Vec3 K))
    (activeVerts : List Nat) (cc : Vec3 K) (poly : List (Vec3 K)) (prev : Nat)
    (tradEar : Bool) : Nat → Nat → Bool → Option (Bool × Bool)
  | 0, _, _ => none
  | fuel + 1, nextNext, circEar =>
    if nextNext ≠ prev then
      let p := activeVerts.getD nextNext 0
      let hit := circEar && point_in_circle_fp R (vertices.getD p default) cc
      if hit && tradEar then some (false, tradEar)
      else if !tradEar &&
          ext.contains2D poly (vertices.getD p default).x (vertices.getD p default).y then
        some (false, tradEar)
      else
        isEarScan_fp R ext vertices activeVerts cc poly prev tradEar fuel
          (if nextNext = activeVerts.length - 1 then 0 else nextNext + 1)
          (if hit then false else circEar)
    else some (circEar, true)

/-- Embedding of `Tessellator::isEar` (lines 275-315) in machine arithmetic. -/
def isEar_fp (R : Rounding K) (ext : Externals K) (vertices : List (Vec3 K))
    (activeVerts : List Nat) (cursor : Nat) (tradEar : Bool) : Option (Bool × Bool) :=
  let prev := if cursor = 0 then activeVerts.length - 1 else cursor - 1
  let next := if cursor = activeVerts.length - 1 then 0 else cursor + 1
  let cc := compute_circumcircle_fp R ext.sqrt
    (vertices.getD (activeVerts.getD prev 0) default)
    (vertices.getD (activeVerts.getD cursor 0) default)
    (vertices.getD (activeVerts.getD next 0) default)
  let poly := [vertices.getD (activeVerts.getD prev 0) default,
    vertices.getD (activeVerts.getD cursor 0) default,
    vertices.getD (activeVerts.getD next 0) default]
  let nextNext := if next = activeVerts.length - 1 then 0 else next + 1
  isEarScan_fp R ext vertices activeVerts cc poly prev tradEar activeVerts.length nextNext true

/-- One execution of the loop body (lines 150-210) in machine arithmetic. -/
def loopBody_fp (R : Rounding K) (ext : Externals K) (vertices : List (Vec3 K))
    (s : LoopState) : Option (LoopState × Bool) :=
  if isConvex_fp R vertices s.activeVerts s.cursor then
    match isEar_fp R ext vertices s.activeVerts s.cursor s.tradCursor.isSome with
    | none => none
    | some (true, _) => some (clipEar s s.cursor, true)
    | some (false, tradEar) =>
      some (advanceCursor s
        (if tradEar && s.tradCursor.isNone then some s.cursor else s.tradCursor))
  else some (advanceCursor s s.tradCursor)

/-- The loop `while (activeVerts.size() > 3)` (lines 148-211) in machine arithmetic. -/
def whileLoop_fp (R : Rounding K) (ext : Externals K) (vertices : List (Vec3 K)) :
    Nat → LoopState → Option (LoopState × Bool)
  | 0, _ => none
  | fuel + 1, s =>
    if s.activeVerts.length > 3 then
      match loopBody_fp R ext vertices s with
      | none => none
      | some (s', true) => whileLoop_fp R ext vertices fuel s'
      | some (s', false) => some (s', false)
    else some (s, true)

/-- State after exactly `k` executions of the loop body in machine arithmetic, none of
which left the loop. -/
def loopIter_fp (R : Rounding K) (ext : Externals K) (vertices : List (Vec3 K)) :
    Nat → LoopState → Option LoopState
  | 0, s => some s
  | k + 1, s =>
    if s.activeVerts.length > 3 then
      match loopBody_fp R ext vertices s with
      | some (s', true) => loopIter_fp R ext vertices k s'
      | _ => none
    else none

/-- Embedding of `Tessellator::tessellateGeometry` (lines 109-242) in machine
arithmetic. -/
def tessellateGeometry_fp (R : Rounding K) (ext : Externals K) (geom : Geometry K) :
    Option (Bool × Geometry K) :=
  match geom.vertexArray with
  | none => some (false, geom)
  | some vertices =>
    if vertices.isEmpty || geom.primitiveSets.isEmpty then some (false, geom)
    else if geom.vertexIndices || geom.normalIndices || geom.colorIndices ||
        geom.secondaryColorIndices || geom.fogCoordIndices then some (false, geom)
    else if geom.texCoordIndices.any id then some (false, geom)
    else
      match whileLoop_fp R ext vertices (loopFuel vertices.length)
          (initState vertices.length) with
      | none => none
      | some (s, true) =>
        let nprimsetoriginal := geom.primitiveSets.length
        let prims := if nprimsetoriginal ≠ 0 then
          removePrimitiveSet geom.primitiveSets 0 nprimsetoriginal else geom.primitiveSets
        some (true, { geom with
          primitiveSets := prims ++ [PrimitiveSet.drawElementsUInt TRIANGLES
            (triElements (finalTris s))] })
      | some (_, false) => some (false, geom)

/-- The determinant `D` of `compute_circumcircle` (lines 42-44) in machine arithmetic. -/
def circumDet_fp (R : Rounding K) (a b c : Vec3 K) : K :=
  R.fsub (R.fmul (R.fsub a.x c.x) (R.fsub b.y c.y)) (R.fmul (R.fsub b.x c.x) (R.fsub a.y c.y))

/-- The value `r2` that `point_in_circle` compares with `circle.z() * circle.z()`. -/
def sqDist_fp (R : Rounding K) (p o : Vec3 K) : K :=
  R.fadd (R.fmul (R.fsub p.x o.x) (R.fsub p.x o.x)) (R.fmul (R.fsub p.y o.y) (R.fsub p.y o.y))

/-- The vertex at position `j` is within the circumcircle of the candidate ear at position
`c`, according to the circle test of the machine. -/
def inEarCircle_fp (R : Rounding K) (ext : Externals K) (vertices : List (Vec3 K))
    (ring : List Nat) (c j : Nat) : Bool :=
  point_in_circle_fp R (ringVertex vertices ring j)
    (compute_circumcircle_fp R ext.sqrt (ringVertex vertices ring (prevPos ring.length c))
      (ringVertex vertices ring c) (ringVertex vertices ring (nextPos ring.length c)))

/-- The circle test of the machine finds no other ring vertex within the circumcircle of
the candidate at `c`. -/
def circleFree_fp (R : Rounding K) (ext : Externals K) (vertices : List (Vec3 K))
    (ring : List Nat) (c : Nat) : Bool :=
  (otherPositions ring.length c).all (fun j => !inEarCircle_fp R ext vertices ring c j)

/-- Position `c` is a traditional ear for the machine: `isConvex` returns true and
`contains2D` finds no other ring vertex in the triangle. -/
def isTradEar_fp (R : Rounding K) (ext : Externals K) (vertices : List (Vec3 K))
    (ring : List Nat) (c : Nat) : Bool :=
  isConvex_fp R vertices ring c && triangleFree ext vertices ring c

/-- The first traditional ear, for the machine, among the first `m` positions of the sweep
of `s`, if any. -/
def firstTradEar_fp (R : Rounding K) (ext : Externals K) (vertices : List (Vec3 K))
    (s : LoopState) : Nat → Option Nat
  | 0 => none
  | m + 1 =>
    match firstTradEar_fp R ext vertices s m with
    | some t => some t
    | none =>
      if isTradEar_fp R ext vertices s.activeVerts (sweepPos s m) then some (sweepPos s m)
      else none

/-- The state of a sweep of `s` after `m` pure advances, in machine arithmetic. -/
def sweepState_fp (R : Rounding K) (ext : Externals K) (vertices : List (Vec3 K))
    (s : LoopState) (m : Nat) : LoopState :=
  { s with cursor := sweepPos s m, tradCursor := firstTradEar_fp R ext vertices s m }

/-- The tests that make the loop clip the position reached after `m` advances of a sweep as
a strict ear: `isConvex` returns true, the circle test finds no other ring vertex within
the circumcircle and, unless a traditional ear was met earlier in the sweep, `contains2D`
finds none in the triangle. -/
def strictClip_fp (R : Rounding K) (ext : Externals K) (vertices : List (Vec3 K))
    (s : LoopState) (m : Nat) : Bool :=
  isConvex_fp R vertices s.activeVerts (sweepPos s m) &&
    circleFree_fp R ext vertices s.activeVerts (sweepPos s m) &&
    ((firstTradEar_fp R ext vertices s m).isSome ||
      triangleFree ext vertices s.activeVerts (sweepPos s m))

/-- Externals of the machine: the correctly rounded `double` square root and the closed
point-in-triangle test. -/
def machineExt : Externals ℚ :=
  { sqrt := sqrtNearest 53, contains2D := closedTriangleTest }

/-- The trapezoid `(-2,-2), (3,-2), (2,1), (-1,1)`, whose corners lie on one circle. -/
def trapezoid : List (Vec3 ℚ) := [⟨-2, -2, 0⟩, ⟨3, -2, 0⟩, ⟨2, 1, 0⟩, ⟨-1, 1, 0⟩]

/-- A ring with a thin corner at index 1, where `isConvex` returns true and the determinant
of `compute_circumcircle` rounds to zero. -/
def sliverRing : List (Vec3 ℚ) := [⟨4097, 4098, 0⟩, ⟨4096, 4097, 0⟩, ⟨0, 0, 0⟩, ⟨0, 5000, 0⟩]

/-! ## Entry checks and small inputs -/

theorem usesIndices_false {geom : Geometry K} (h : geom.usesIndices = false) :
    (geom.vertexIndices || geom.normalIndices || geom.colorIndices ||
      geom.secondaryColorIndices || geom.fogCoordIndices) = false ∧
    geom.texCoordIndices.any id = false := by
  unfold Geometry.usesIndices at h
  rw [Bool.or_eq_false_iff] at h
  exact h

theorem tessellateGeometry_unindexed (ext : Externals K) (geom : Geometry K)
    (vertices : List (Vec3 K)) (hv : geom.vertexArray = some vertices)
    (hne : vertices ≠ []) (hp : geom.primitiveSets ≠ [])
    (hidx : geom.usesIndices = false) :
    tessellateGeometry ext geom =
      match whileLoop ext vertices (loopFuel vertices.length) (initState vertices.length) with
      | none => none
      | some (s, true) =>
        some (true, { geom with
          primitiveSets := [PrimitiveSet.drawElementsUInt TRIANGLES
            (triElements (finalTris s))] })
      | some (_, false) => some (false, geom) := by
  obtain ⟨h1, h2⟩ := usesIndices_false hidx
  have hl : geom.primitiveSets.length ≠ 0 := by
    simpa [List.length_eq_zero] using hp
  unfold tessellateGeometry
  simp only [hv]
  have e1 : (vertices.isEmpty || geom.primitiveSets.isEmpty) = false := by
    simp [List.isEmpty_iff, hne, hp]
  simp only [e1, h1, h2, Bool.false_eq_true, if_false, removePrimitiveSet, hl, ne_eq,
    not_false_eq_true, if_true, List.take_zero, Nat.zero_add, List.drop_length, List.nil_append]

/-- While-loop on a ring of at most three indices: the body is not executed. -/
theorem whileLoop_small (ext : Externals K) (vertices : List (Vec3 K)) (fuel : Nat) (s : LoopState)
    (h : s.activeVerts.length ≤ 3) :
    whileLoop ext vertices (fuel + 1) s = some (s, true) := by
  have h3 : ¬ s.activeVerts.length > 3 := by omega
  simp only [whileLoop, h3, if_false]

theorem tessellateGeometry_of_usesIndices (ext : Externals K) (geom : Geometry K)
    (h : geom.usesIndices = true) :
    tessellateGeometry ext geom = some (false, geom) := by
  unfold tessellateGeometry
  cases hv : geom.vertexArray with
  | none => rfl
  | some vertices =>
    simp only []
    split
    · rfl
    · split
      · rfl
      · rename_i h1
        have h2 : geom.texCoordIndices.any id = true := by
          unfold Geometry.usesIndices at h
          rw [Bool.or_eq_true] at h
          rcases h with h | h
          · exact absurd h h1
          · exact h
        rw [if_pos h2]

/-- C7: an input flagged as using indexed arrays (vertex, normal, colour, secondary-colour,
fog-coordinate indices, or texture-coordinate indices on some unit) makes
`tessellateGeometry` return failure with the geometry untouched, for every vertex array
and whatever the external routines compute: the result is fixed before the ring is built,
so no geometric predicate contributes to it. -/
theorem tessellateGeometry_indexed_fails (ext : Externals K) (geom : Geometry K)
    (h : geom.usesIndices = true) :
    tessellateGeometry ext geom = some (false, geom) :=
  tessellateGeometry_of_usesIndices ext geom h

theorem tessellateGeometry_indexed_fails_witness :
    indexedSquare.usesIndices = true ∧
    tessellateGeometry sampleExt indexedSquare = some (false, indexedSquare) :=
  ⟨by decide, tessellateGeometry_indexed_fails sampleExt indexedSquare (by decide)⟩

/-- C8: whenever `tessellateGeometry` returns failure, the geometry after the call is the
geometry before the call (vertex array, primitive sets and index flags alike): triangles
clipped before the failing sweep live in the local list only. -/
theorem tessellateGeometry_failure_unchanged (ext : Externals K) (geom g' : Geometry K)
    (h : tessellateGeometry ext geom = some (false, g')) : g' = geom := by
  unfold tessellateGeometry at h
  split at h
  · simpa using h.symm
  · split at h
    · simpa using h.symm
    · split at h
      · simpa using h.symm
      · split at h
        · simpa using h.symm
        · split at h
          · exact absurd h (by simp)
          · simp at h
          · simpa using h.symm

theorem tessellateGeometry_failure_unchanged_witness :
    tessellateGeometry sampleExt (polygonGeometry dentedCW) =
      some (false, polygonGeometry dentedCW) ∧
    (loopIter sampleExt dentedCW 2 (initState 5)).map LoopState.tris = some [⟨0, 1, 2⟩] ∧
    polygonGeometry dentedCW = polygonGeometry dentedCW :=
  ⟨by decide!, by decide!,
    tessellateGeometry_failure_unchanged sampleExt (polygonGeometry dentedCW)
      (polygonGeometry dentedCW) (by decide!)⟩

/-- C6: an unindexed input with exactly three vertices and at least one primitive set
succeeds with the single triangle `(0, 1, 2)`, whatever the coordinates and the external
routines are, and the loop body (the only caller of `isConvex` and `isEar`, hence of the
circumcircle) is not executed once. -/
theorem tessellateGeometry_three_vertices (ext : Externals K) (geom : Geometry K)
    (vertices : List (Vec3 K)) (hv : geom.vertexArray = some vertices)
    (hlen : vertices.length = 3) (hp : geom.primitiveSets ≠ [])
    (hidx : geom.usesIndices = false) :
    tessellateGeometry ext geom = some (true, { geom with
      primitiveSets := [PrimitiveSet.drawElementsUInt TRIANGLES [0, 1, 2]] }) ∧
    loopIter ext vertices 1 (initState vertices.length) = none := by
  have hne : vertices ≠ [] := by
    intro h0
    rw [h0] at hlen
    simp at hlen
  have hr : List.range 3 = [0, 1, 2] := by decide
  constructor
  · rw [tessellateGeometry_unindexed ext geom vertices hv hne hp hidx, hlen]
    have hw : whileLoop ext vertices (loopFuel 3) (initState 3) = some (initState 3, true) :=
      whileLoop_small ext vertices (3 * 3) (initState 3) (by simp [initState])
    rw [hw]
    simp [finalTris, initState, hr, triElements]
  · rw [hlen]
    simp [loopIter, initState]

theorem tessellateGeometry_three_vertices_witness :
    tessellateGeometry sampleExt (polygonGeometry triangleCW) =
      some (true, { polygonGeometry triangleCW with
        primitiveSets := [PrimitiveSet.drawElementsUInt TRIANGLES [0, 1, 2]] }) ∧
    loopIter sampleExt triangleCW 1 (initState triangleCW.length) = none :=
  tessellateGeometry_three_vertices sampleExt (polygonGeometry triangleCW) triangleCW rfl rfl
    (by decide) (by decide)

/-- C5 fails as stated: a ring of two points with a primitive set is not rejected; the
call returns success and replaces the primitive set by an empty triangle-index list. -/
theorem tessellateGeometry_two_points_succeeds :
    (polygonGeometry twoPoints).vertexArray = some twoPoints ∧ twoPoints.length < 3 ∧
    tessellateGeometry sampleExt (polygonGeometry twoPoints) =
      some (true, { polygonGeometry twoPoints with
        primitiveSets := [PrimitiveSet.drawElementsUInt TRIANGLES []] }) := by
  decide!

/-- C5 (amended): with fewer than three vertices the loop body never runs.  An empty
vertex array is rejected: failure, geometry unchanged.  An unindexed input with one or two
vertices and at least one primitive set is not rejected: the call returns success and the
primitive sets are replaced by one empty triangle-index list (no triangle). -/
theorem tessellateGeometry_fewer_than_three (ext : Externals K) (geom : Geometry K)
    (vertices : List (Vec3 K)) (hv : geom.vertexArray = some vertices)
    (hlen : vertices.length < 3) :
    (vertices.length = 0 → tessellateGeometry ext geom = some (false, geom)) ∧
    (0 < vertices.length → geom.primitiveSets ≠ [] → geom.usesIndices = false →
      tessellateGeometry ext geom = some (true, { geom with
        primitiveSets := [PrimitiveSet.drawElementsUInt TRIANGLES []] })) ∧
    loopIter ext vertices 1 (initState vertices.length) = none := by
  refine ⟨?_, ?_, ?_⟩
  · intro h0
    have hnil : vertices = [] := List.length_eq_zero.mp h0
    unfold tessellateGeometry
    simp [hv, hnil]
  · intro hpos hp hidx
    have hne : vertices ≠ [] := by
      intro h0
      rw [h0] at hpos
      simp at hpos
    rw [tessellateGeometry_unindexed ext geom vertices hv hne hp hidx]
    have hw : whileLoop ext vertices (loopFuel vertices.length) (initState vertices.length) =
        some (initState vertices.length, true) :=
      whileLoop_small ext vertices _ _ (by simp [initState]; omega)
    rw [hw]
    have h3 : ¬ vertices.length = 3 := by omega
    simp [finalTris, initState, h3, triElements]
  · have h3 : ¬ (List.range vertices.length).length > 3 := by
      simp
      omega
    simp only [loopIter, initState, h3, if_false]

theorem tessellateGeometry_fewer_than_three_witness :
    (twoPoints.length = 0 →
      tessellateGeometry sampleExt (polygonGeometry twoPoints) =
        some (false, polygonGeometry twoPoints)) ∧
    (0 < twoPoints.length → (polygonGeometry twoPoints).primitiveSets ≠ [] →
      (polygonGeometry twoPoints).usesIndices = false →
      tessellateGeometry sampleExt (polygonGeometry twoPoints) =
        some (true, { polygonGeometry twoPoints with
          primitiveSets := [PrimitiveSet.drawElementsUInt TRIANGLES []] })) ∧
    loopIter sampleExt twoPoints 1 (initState twoPoints.length) = none :=
  tessellateGeometry_fewer_than_three sampleExt (polygonGeometry twoPoints) twoPoints rfl
    (by decide)

/-! ## The scan of `isEar` -/

theorem nextPos_eq_cyc {len x : Nat} (hx : x < len) : nextPos len x = cyc len (x + 1) := by
  unfold nextPos cyc
  split <;> split <;> omega

theorem mem_scanOrder (len : Nat) : ∀ (m nn j : Nat), nn < len → m ≤ len →
    (j ∈ scanOrder len m nn ↔ ∃ i, i < m ∧ j = cyc len (nn + i))
  | 0, nn, j, _, _ => by simp [scanOrder]
  | m + 1, nn, j, hnn, hm => by
    have hnext : nextPos len nn < len := by
      unfold nextPos
      split <;> omega
    rw [scanOrder, List.mem_cons, mem_scanOrder len m (nextPos len nn) j hnext (by omega)]
    constructor
    · rintro (h | ⟨i, hi, h⟩)
      · exact ⟨0, by omega, by rw [h]; unfold cyc; split <;> omega⟩
      · refine ⟨i + 1, by omega, ?_⟩
        rw [h, nextPos_eq_cyc hnn]
        unfold cyc
        split <;> split <;> split <;> omega
    · rintro ⟨i, hi, h⟩
      rcases Nat.eq_zero_or_pos i with h0 | hpos
      · left
        rw [h, h0]
        unfold cyc
        split <;> omega
      · right
        refine ⟨i - 1, by omega, ?_⟩
        rw [h, nextPos_eq_cyc hnn]
        unfold cyc
        split <;> split <;> split <;> omega

/-- The positions scanned by `isEar` are the positions outside the candidate ear. -/
theorem mem_scanOrder_isEar {len c : Nat} (hlen : 3 ≤ len) (hc : c < len) (j : Nat) :
    j ∈ scanOrder len (len - 3) (nextPos len (nextPos len c)) ↔ j ∈ otherPositions len c := by
  have hn1 : nextPos len c < len := by
    unfold nextPos
    split <;> omega
  have hn2 : nextPos len (nextPos len c) < len := by
    unfold nextPos
    split <;> split <;> omega
  rw [mem_scanOrder len _ _ j hn2 (by omega)]
  unfold otherPositions
  rw [List.mem_filter, List.mem_range]
  simp only [decide_eq_true_eq]
  constructor
  · rintro ⟨i, hi, h⟩
    rw [h]
    unfold cyc nextPos prevPos
    split <;> split <;> split <;> split <;> omega
  · rintro ⟨hj, h1, h2, h3⟩
    unfold nextPos prevPos at *
    by_cases hjc : c < j
    · refine ⟨j - c - 2, ?_, ?_⟩
      · split at h1 <;> split at h3 <;> omega
      · unfold cyc
        split at h1 <;> split at h3 <;> split <;> split <;> split <;> omega
    · refine ⟨j + len - c - 2, ?_, ?_⟩
      · split at h1 <;> split at h3 <;> omega
      · unfold cyc
        split at h1 <;> split at h3 <;> split <;> split <;> split <;> omega

theorem isEarScan_eq (ext : Externals K) (vertices : List (Vec3 K)) (ring : List Nat) (cc : Vec3 K)
    (poly : List (Vec3 K)) (prev : Nat) (tradEar : Bool) :
    ∀ (m fuel nn : Nat) (circEar : Bool), m < fuel → nn < ring.length → m < ring.length →
      cyc ring.length (nn + m) = prev →
      isEarScan ext vertices ring cc poly prev tradEar fuel nn circEar =
        some (scanSpec (fun j => point_in_circle (ringVertex vertices ring j) cc)
          (fun j => ext.contains2D poly (ringVertex vertices ring j).x
            (ringVertex vertices ring j).y)
          tradEar (scanOrder ring.length m nn) circEar) := by
  intro m
  induction m with
  | zero =>
    intro fuel nn circEar hf hnn _ hend
    obtain ⟨f, rfl⟩ : ∃ f, fuel = f + 1 := ⟨fuel - 1, by omega⟩
    have hp : nn = prev := by
      rw [← hend]
      unfold cyc
      split <;> omega
    simp [isEarScan, hp, scanSpec, scanOrder]
  | succ m ih =>
    intro fuel nn circEar hf hnn hm hend
    obtain ⟨f, rfl⟩ : ∃ f, fuel = f + 1 := ⟨fuel - 1, by omega⟩
    have hp : nn ≠ prev := by
      rw [← hend]
      unfold cyc
      split <;> omega
    have hnext : nextPos ring.length nn < ring.length := by
      unfold nextPos
      split <;> omega
    have hend' : cyc ring.length (nextPos ring.length nn + m) = prev := by
      rw [← hend, nextPos_eq_cyc hnn]
      unfold cyc
      split <;> split <;> split <;> omega
    have hstep := ih f (nextPos ring.length nn)
    rw [isEarScan]
    simp only [hp, ne_eq, not_false_eq_true, if_true]
    have hnp : (if nn = ring.length - 1 then 0 else nn + 1) = nextPos ring.length nn := rfl
    rw [hnp]
    have hv : vertices.getD (ring.getD nn 0) default = ringVertex vertices ring nn := rfl
    simp only [hv, hstep _ (by omega) hnext (by omega) hend']
    cases tradEar <;> cases circEar <;>
      cases h1 : point_in_circle (ringVertex vertices ring nn) cc <;>
      cases h2 : ext.contains2D poly (ringVertex vertices ring nn).x
        (ringVertex vertices ring nn).y <;>
      simp [scanSpec, scanOrder, h1, h2]

/-- Closed form of `isEar` at a ring position: it always returns; entered with `tradEar`
false it sets `tradEar` exactly when no other ring vertex is in the triangle and returns
true exactly when, in addition, none is within the circumcircle; entered with `tradEar`
true it leaves it true and returns whether no other ring vertex is within the
circumcircle. -/
theorem isEar_eq (ext : Externals K) (vertices : List (Vec3 K)) (ring : List Nat) (c : Nat)
    (tradEar : Bool) (hlen : 3 ≤ ring.length) (hc : c < ring.length) :
    isEar ext vertices ring c tradEar =
      some (if tradEar then (circleFree ext vertices ring c, true)
        else if triangleFree ext vertices ring c then (circleFree ext vertices ring c, true)
        else (false, false)) := by
  have hn1 : nextPos ring.length c < ring.length := by
    unfold nextPos
    split <;> omega
  have hn2 : nextPos ring.length (nextPos ring.length c) < ring.length := by
    unfold nextPos
    split <;> split <;> omega
  have hend : cyc ring.length (nextPos ring.length (nextPos ring.length c) +
      (ring.length - 3)) = prevPos ring.length c := by
    unfold cyc nextPos prevPos
    split <;> split <;> split <;> split <;> omega
  have hscan := isEarScan_eq ext vertices ring
    (compute_circumcircle ext.sqrt (ringVertex vertices ring (prevPos ring.length c))
      (ringVertex vertices ring c) (ringVertex vertices ring (nextPos ring.length c)))
    [ringVertex vertices ring (prevPos ring.length c), ringVertex vertices ring c,
      ringVertex vertices ring (nextPos ring.length c)]
    (prevPos ring.length c) tradEar (ring.length - 3) ring.length
    (nextPos ring.length (nextPos ring.length c)) true (by omega) hn2 (by omega) hend
  have hany : ∀ f : Nat → Bool,
      (scanOrder ring.length (ring.length - 3)
        (nextPos ring.length (nextPos ring.length c))).any f =
      (otherPositions ring.length c).any f := by
    intro f
    rw [Bool.eq_iff_iff, List.any_eq_true, List.any_eq_true]
    constructor
    · rintro ⟨j, hj, h⟩
      exact ⟨j, (mem_scanOrder_isEar hlen hc j).mp hj, h⟩
    · rintro ⟨j, hj, h⟩
      exact ⟨j, (mem_scanOrder_isEar hlen hc j).mpr hj, h⟩
  have hall : ∀ f : Nat → Bool,
      (scanOrder ring.length (ring.length - 3)
        (nextPos ring.length (nextPos ring.length c))).all f =
      (otherPositions ring.length c).all f := by
    intro f
    rw [Bool.eq_iff_iff, List.all_eq_true, List.all_eq_true]
    constructor
    · intro h j hj
      exact h j ((mem_scanOrder_isEar hlen hc j).mpr hj)
    · intro h j hj
      exact h j ((mem_scanOrder_isEar hlen hc j).mp hj)
  have hunfold : isEar ext vertices ring c tradEar =
      isEarScan ext vertices ring
        (compute_circumcircle ext.sqrt (ringVertex vertices ring (prevPos ring.length c))
          (ringVertex vertices ring c) (ringVertex vertices ring (nextPos ring.length c)))
        [ringVertex vertices ring (prevPos ring.length c), ringVertex vertices ring c,
          ringVertex vertices ring (nextPos ring.length c)]
        (prevPos ring.length c) tradEar ring.length
        (nextPos ring.length (nextPos ring.length c)) true := rfl
  rw [hunfold, hscan]
  unfold scanSpec
  rw [hany, hall]
  have htf : triangleFree ext vertices ring c =
      !(otherPositions ring.length c).any (fun j =>
        ext.contains2D [ringVertex vertices ring (prevPos ring.length c),
          ringVertex vertices ring c, ringVertex vertices ring (nextPos ring.length c)]
          (ringVertex vertices ring j).x (ringVertex vertices ring j).y) := by
    unfold triangleFree inEarTriangle
    rw [List.not_any_eq_all_not]
  have hcf : circleFree ext vertices ring c =
      (otherPositions ring.length c).all (fun j =>
        !point_in_circle (ringVertex vertices ring j)
          (compute_circumcircle ext.sqrt (ringVertex vertices ring (prevPos ring.length c))
            (ringVertex vertices ring c) (ringVertex vertices ring (nextPos ring.length c)))) :=
    rfl
  rw [htf, hcf]
  cases tradEar <;>
    cases (otherPositions ring.length c).any (fun j =>
        ext.contains2D [ringVertex vertices ring (prevPos ring.length c),
          ringVertex vertices ring c, ringVertex vertices ring (nextPos ring.length c)]
          (ringVertex vertices ring j).x (ringVertex vertices ring j).y) <;>
    simp

/-! ## One iteration of the main loop -/

theorem loopBody_eq (ext : Externals K) (vertices : List (Vec3 K)) (s : LoopState)
    (hlen : 3 ≤ s.activeVerts.length) (hc : s.cursor < s.activeVerts.length) :
    loopBody ext vertices s = some (
      if isConvex vertices s.activeVerts s.cursor then
        if s.tradCursor.isSome then
          if circleFree ext vertices s.activeVerts s.cursor then (clipEar s s.cursor, true)
          else advanceCursor s s.tradCursor
        else if triangleFree ext vertices s.activeVerts s.cursor then
          if circleFree ext vertices s.activeVerts s.cursor then (clipEar s s.cursor, true)
          else advanceCursor s (some s.cursor)
        else advanceCursor s s.tradCursor
      else advanceCursor s s.tradCursor) := by
  unfold loopBody
  rw [isEar_eq ext vertices s.activeVerts s.cursor _ hlen hc]
  cases isConvex vertices s.activeVerts s.cursor <;>
    cases hs : s.tradCursor <;>
    cases triangleFree ext vertices s.activeVerts s.cursor <;>
    cases circleFree ext vertices s.activeVerts s.cursor <;>
    simp

theorem clipEar_activeVerts (s : LoopState) (c : Nat) :
    (clipEar s c).activeVerts = s.activeVerts.eraseIdx c := rfl

theorem clipEar_tris (s : LoopState) (c : Nat) :
    (clipEar s c).tris = s.tris ++ [triAt s.activeVerts c] := rfl

theorem clipEar_length (s : LoopState) (c : Nat) (hc : c < s.activeVerts.length) :
    (clipEar s c).activeVerts.length + 1 = s.activeVerts.length := by
  rw [clipEar_activeVerts, List.length_eraseIdx_of_lt hc]
  omega

theorem clipEar_sweepInv (ext : Externals K) (vertices : List (Vec3 K)) (s : LoopState) (c : Nat)
    (hc : c < s.activeVerts.length) (hlen : 1 < s.activeVerts.length) :
    SweepInv ext vertices (clipEar s c) 0 := by
  have hl := clipEar_length s c hc
  have hcur : (clipEar s c).cursor < (clipEar s c).activeVerts.length := by
    show (if c ≥ (s.activeVerts.eraseIdx c).length then 0 else c) <
      (clipEar s c).activeVerts.length
    rw [← clipEar_activeVerts]
    split <;> omega
  refine ⟨by omega, hcur, ?_, ?_, ?_⟩
  · show (clipEar s c).cursor = cyc _ ((clipEar s c).cursor + 0)
    unfold cyc
    split <;> omega
  · intro _ i hi
    omega
  · intro t ht
    exact absurd ht (by simp [clipEar])

theorem hasTradEar_of (ext : Externals K) (vertices : List (Vec3 K)) (ring : List Nat) (c : Nat)
    (hc : c < ring.length) (h : isTradEar ext vertices ring c = true) :
    hasTradEar ext vertices ring = true := by
  unfold hasTradEar
  rw [List.any_eq_true]
  exact ⟨c, List.mem_range.mpr hc, h⟩

theorem hasTradEar_false_of (ext : Externals K) (vertices : List (Vec3 K)) (ring : List Nat)
    (h : ∀ c, c < ring.length → isTradEar ext vertices ring c = false) :
    hasTradEar ext vertices ring = false := by
  unfold hasTradEar
  rw [List.any_eq_false]
  intro c hc
  rw [h c (List.mem_range.mp hc)]
  simp

theorem advanceCursor_cases (ext : Externals K) (vertices : List (Vec3 K)) (s : LoopState)
    (k : Nat) (tc : Option Nat) (hk : k < s.activeVerts.length)
    (hcs : s.cursor_start < s.activeVerts.length)
    (hcur : s.cursor = cyc s.activeVerts.length (s.cursor_start + k))
    (hnone : tc = none → ∀ i, i < k + 1 →
      isTradEar ext vertices s.activeVerts (cyc s.activeVerts.length (s.cursor_start + i)) =
        false)
    (hsome : ∀ t, tc = some t →
      t < s.activeVerts.length ∧ isTradEar ext vertices s.activeVerts t = true) :
    ((advanceCursor s tc).2 = true ∧ k + 1 = s.activeVerts.length ∧
      ∃ c, c < s.activeVerts.length ∧ (advanceCursor s tc).1 = clipEar s c ∧
        isTradEar ext vertices s.activeVerts c = true) ∨
    ((advanceCursor s tc).2 = true ∧ (advanceCursor s tc).1.activeVerts = s.activeVerts ∧
      (advanceCursor s tc).1.tris = s.tris ∧
      (advanceCursor s tc).1.cursor_start = s.cursor_start ∧
      k + 1 < s.activeVerts.length ∧
      SweepInv ext vertices (advanceCursor s tc).1 (k + 1)) ∨
    ((advanceCursor s tc).2 = false ∧ (advanceCursor s tc).1.activeVerts = s.activeVerts ∧
      (advanceCursor s tc).1.tris = s.tris ∧ k + 1 = s.activeVerts.length ∧
      hasTradEar ext vertices s.activeVerts = false) := by
  have hback : (if s.cursor + 1 ≥ s.activeVerts.length then 0 else s.cursor + 1) =
      s.cursor_start ↔ k + 1 = s.activeVerts.length := by
    rw [hcur]
    unfold cyc
    split <;> split <;> omega
  by_cases hend : k + 1 = s.activeVerts.length
  · have hb := hback.mpr hend
    cases htc : tc with
    | none =>
      right; right
      refine ⟨by simp [advanceCursor, hb], by simp [advanceCursor, hb],
        by simp [advanceCursor, hb], hend, ?_⟩
      apply hasTradEar_false_of
      intro c hc
      have hi := hnone htc (if s.cursor_start ≤ c then c - s.cursor_start
        else c + s.activeVerts.length - s.cursor_start) (by split <;> omega)
      have hcc : cyc s.activeVerts.length (s.cursor_start +
          (if s.cursor_start ≤ c then c - s.cursor_start
            else c + s.activeVerts.length - s.cursor_start)) = c := by
        unfold cyc
        split <;> split <;> omega
      rw [hcc] at hi
      exact hi
    | some t =>
      left
      obtain ⟨ht, hear⟩ := hsome t htc
      exact ⟨by simp [advanceCursor, hb], hend, t, ht, by simp [advanceCursor, hb], hear⟩
  · have hb : ¬ (if s.cursor + 1 ≥ s.activeVerts.length then 0 else s.cursor + 1) =
        s.cursor_start := fun h => hend (hback.mp h)
    right; left
    have hadv : advanceCursor s tc =
        ({ s with cursor := (if s.cursor + 1 ≥ s.activeVerts.length then 0 else s.cursor + 1),
                  tradCursor := tc }, true) := by
      simp only [advanceCursor, hb, if_false]
    rw [hadv]
    have hlt : k + 1 < s.activeVerts.length := by omega
    refine ⟨rfl, rfl, rfl, rfl, hlt, hlt, hcs, ?_, hnone, hsome⟩
    show (if s.cursor + 1 ≥ s.activeVerts.length then 0 else s.cursor + 1) =
      cyc s.activeVerts.length (s.cursor_start + (k + 1))
    rw [hcur]
    unfold cyc
    split <;> split <;> split <;> omega

theorem SweepInv.cursor_lt {ext : Externals K} {vertices : List (Vec3 K)} {s : LoopState} {k : Nat}
    (h : SweepInv ext vertices s k) : s.cursor < s.activeVerts.length := by
  obtain ⟨hk, hcs, hcur, _, _⟩ := h
  rw [hcur]
  unfold cyc
  split <;> omega

theorem advanceCursor_outcome (ext : Externals K) (vertices : List (Vec3 K)) (s : LoopState)
    (k : Nat) (tc : Option Nat) (hinv : SweepInv ext vertices s k)
    (hnone : tc = none → s.tradCursor = none ∧
      isTradEar ext vertices s.activeVerts s.cursor = false)
    (hsome : ∀ t, tc = some t →
      t < s.activeVerts.length ∧ isTradEar ext vertices s.activeVerts t = true) :
    StepOutcome ext vertices s k (advanceCursor s tc) := by
  obtain ⟨hk, hcs, hcur, hn, _⟩ := hinv
  have h := advanceCursor_cases ext vertices s k tc hk hcs hcur (by
    intro htc i hi
    obtain ⟨h1, h2⟩ := hnone htc
    rcases Nat.lt_succ_iff_lt_or_eq.mp hi with h' | h'
    · exact hn h1 i h'
    · rw [h', ← hcur]
      exact h2) hsome
  rcases h with ⟨h1, _, c, hc, h2, h3⟩ | h | h
  · left
    refine ⟨h1, c, hc, h2, ?_, hasTradEar_of ext vertices _ c hc h3, Or.inl h3⟩
    unfold isTradEar at h3
    rw [Bool.and_eq_true] at h3
    exact h3.1
  · right; left
    exact h
  · right; right
    exact h

/-- Every execution of the loop body on a state inside a sweep returns, and does one of the
three things listed in `StepOutcome`. -/
theorem loopBody_step (ext : Externals K) (vertices : List (Vec3 K)) (s : LoopState) (k : Nat)
    (hinv : SweepInv ext vertices s k) (hlen : 3 < s.activeVerts.length) :
    ∃ r, loopBody ext vertices s = some r ∧ StepOutcome ext vertices s k r := by
  have hc := hinv.cursor_lt
  rw [loopBody_eq ext vertices s (by omega) hc]
  refine ⟨_, rfl, ?_⟩
  have hsome0 := hinv.2.2.2.2
  cases hconv : isConvex vertices s.activeVerts s.cursor with
  | false =>
    simp only [Bool.false_eq_true, if_false]
    apply advanceCursor_outcome ext vertices s k _ hinv
    · intro h
      exact ⟨h, by simp [isTradEar, hconv]⟩
    · exact hsome0
  | true =>
    simp only [if_true]
    cases htc : s.tradCursor with
    | some t =>
      simp only [Option.isSome_some, if_true]
      obtain ⟨ht, hear⟩ := hsome0 t htc
      cases hcf : circleFree ext vertices s.activeVerts s.cursor with
      | true =>
        simp only [if_true]
        left
        exact ⟨rfl, s.cursor, hc, rfl, hconv, hasTradEar_of ext vertices _ t ht hear,
          Or.inr hcf⟩
      | false =>
        simp only [Bool.false_eq_true, if_false]
        apply advanceCursor_outcome ext vertices s k _ hinv
        · intro h
          exact absurd h (by simp)
        · intro t' ht'
          exact hsome0 t' (by rw [htc]; exact ht')
    | none =>
      simp only [Option.isSome_none, Bool.false_eq_true, if_false]
      cases htf : triangleFree ext vertices s.activeVerts s.cursor with
      | true =>
        simp only [if_true]
        have hear : isTradEar ext vertices s.activeVerts s.cursor = true := by
          simp [isTradEar, hconv, htf]
        cases hcf : circleFree ext vertices s.activeVerts s.cursor with
        | true =>
          simp only [if_true]
          left
          exact ⟨rfl, s.cursor, hc, rfl, hconv, hasTradEar_of ext vertices _ _ hc hear,
            Or.inl hear⟩
        | false =>
          simp only [Bool.false_eq_true, if_false]
          apply advanceCursor_outcome ext vertices s k _ hinv
          · intro h
            exact absurd h (by simp)
          · intro t' ht'
            have : s.cursor = t' := by simpa using ht'
            rw [← this]
            exact ⟨hc, hear⟩
      | false =>
        simp only [Bool.false_eq_true, if_false]
        apply advanceCursor_outcome ext vertices s k _ hinv
        · intro _
          exact ⟨htc, by simp [isTradEar, hconv, htf]⟩
        · intro t' ht'
          exact absurd ht' (by simp)

/-! ## Runs of the main loop -/

theorem whileLoop_mono (ext : Externals K) (vertices : List (Vec3 K)) :
    ∀ (fuel : Nat) (s : LoopState) (r : LoopState × Bool),
      whileLoop ext vertices fuel s = some r →
      ∀ d, whileLoop ext vertices (fuel + d) s = some r
  | 0, s, r, h, _ => by simp [whileLoop] at h
  | fuel + 1, s, r, h, d => by
    have e : fuel + 1 + d = (fuel + d) + 1 := by omega
    rw [e]
    rw [whileLoop] at h ⊢
    split
    · rename_i hlen
      rw [if_pos hlen] at h
      cases hb : loopBody ext vertices s with
      | none => rw [hb] at h; simp at h
      | some r' =>
        obtain ⟨s', ok⟩ := r'
        rw [hb] at h
        cases ok with
        | true => exact whileLoop_mono ext vertices fuel s' r h d
        | false => exact h
    · rename_i hlen
      rw [if_neg hlen] at h
      exact h

theorem loopIter_whileLoop (ext : Externals K) (vertices : List (Vec3 K)) :
    ∀ (j : Nat) (s s' : LoopState), loopIter ext vertices j s = some s' →
      ∀ f, whileLoop ext vertices (j + f) s = whileLoop ext vertices f s'
  | 0, s, s', h, f => by
    simp only [loopIter, Option.some.injEq] at h
    rw [h, Nat.zero_add]
  | j + 1, s, s', h, f => by
    have e : j + 1 + f = (j + f) + 1 := by omega
    rw [e, whileLoop]
    rw [loopIter] at h
    split at h
    · rename_i hlen
      rw [if_pos hlen]
      cases hb : loopBody ext vertices s with
      | none => rw [hb] at h; simp at h
      | some r' =>
        obtain ⟨s1, ok⟩ := r'
        rw [hb] at h
        cases ok with
        | true => exact loopIter_whileLoop ext vertices j s1 s' h f
        | false => simp at h
    · simp at h

theorem loopIter_add (ext : Externals K) (vertices : List (Vec3 K)) :
    ∀ (j : Nat) (s s' : LoopState), loopIter ext vertices j s = some s' →
      ∀ i, loopIter ext vertices (j + i) s = loopIter ext vertices i s'
  | 0, s, s', h, i => by
    simp only [loopIter, Option.some.injEq] at h
    rw [h, Nat.zero_add]
  | j + 1, s, s', h, i => by
    have e : j + 1 + i = (j + i) + 1 := by omega
    rw [e, loopIter]
    rw [loopIter] at h
    split at h
    · rename_i hlen
      rw [if_pos hlen]
      cases hb : loopBody ext vertices s with
      | none => rw [hb] at h; simp at h
      | some r' =>
        obtain ⟨s1, ok⟩ := r'
        rw [hb] at h
        cases ok with
        | true => exact loopIter_add ext vertices j s1 s' h i
        | false => simp at h
    · simp at h

/-- One more iteration after `j` iterations. -/
theorem loopIter_succ_of (ext : Externals K) (vertices : List (Vec3 K)) (j : Nat)
    (s sj s' : LoopState) (h : loopIter ext vertices j s = some sj)
    (hlen : 3 < sj.activeVerts.length) (hb : loopBody ext vertices sj = some (s', true)) :
    loopIter ext vertices (j + 1) s = some s' := by
  rw [loopIter_add ext vertices j s sj h 1]
  simp [loopIter, hlen, hb]

/-- The result of the loop is reached through a run of loop iterations: on success the last
state has at most three ring indices, on failure the last iteration left the loop. -/
theorem whileLoop_result (ext : Externals K) (vertices : List (Vec3 K)) :
    ∀ (fuel : Nat) (s s' : LoopState) (ok : Bool),
      whileLoop ext vertices fuel s = some (s', ok) →
      ∃ j sl, loopIter ext vertices j s = some sl ∧
        ((ok = true ∧ s' = sl ∧ sl.activeVerts.length ≤ 3) ∨
         (ok = false ∧ 3 < sl.activeVerts.length ∧
           loopBody ext vertices sl = some (s', false)))
  | 0, s, s', ok, h => by simp [whileLoop] at h
  | fuel + 1, s, s', ok, h => by
    rw [whileLoop] at h
    split at h
    · rename_i hlen
      cases hb : loopBody ext vertices s with
      | none => rw [hb] at h; simp at h
      | some r' =>
        obtain ⟨s1, ok1⟩ := r'
        rw [hb] at h
        cases ok1 with
        | true =>
          obtain ⟨j, sl, hj, hres⟩ := whileLoop_result ext vertices fuel s1 s' ok h
          refine ⟨j + 1, sl, ?_, hres⟩
          simp [loopIter, hlen, hb, hj]
        | false =>
          simp only [Option.some.injEq, Prod.mk.injEq] at h
          obtain ⟨h1, h2⟩ := h
          refine ⟨0, s, rfl, Or.inr ⟨h2.symm, hlen, ?_⟩⟩
          rw [hb, h1]
    · rename_i hlen
      simp only [Option.some.injEq, Prod.mk.injEq] at h
      obtain ⟨h1, h2⟩ := h
      exact ⟨0, s, rfl, Or.inl ⟨h2.symm, h1.symm, by omega⟩⟩

/-- Invariants along a run: the sweep invariant, and every property of ring and triangle
list that survives the clipping of an ear at a convex position. -/
theorem loopIter_invariant (ext : Externals K) (vertices : List (Vec3 K))
    (P : List Nat → List TriIndices → Prop)
    (hP : ∀ ring tris c, 3 < ring.length → c < ring.length →
      isConvex vertices ring c = true → hasTradEar ext vertices ring = true →
      P ring tris → P (ring.eraseIdx c) (tris ++ [triAt ring c])) :
    ∀ (j : Nat) (s s' : LoopState) (k : Nat), SweepInv ext vertices s k →
      P s.activeVerts s.tris → loopIter ext vertices j s = some s' →
      (∃ k', SweepInv ext vertices s' k') ∧ P s'.activeVerts s'.tris
  | 0, s, s', k, hinv, hp, h => by
    simp only [loopIter, Option.some.injEq] at h
    rw [← h]
    exact ⟨⟨k, hinv⟩, hp⟩
  | j + 1, s, s', k, hinv, hp, h => by
    rw [loopIter] at h
    split at h
    · rename_i hlen
      obtain ⟨r, hb, hout⟩ := loopBody_step ext vertices s k hinv hlen
      obtain ⟨s1, ok⟩ := r
      rw [hb] at h
      rcases hout with ⟨hok, c, hc, hs1, hconv, hear, _⟩ | ⟨hok, hr, ht, _, _, hinv'⟩ |
        ⟨hok, _⟩
      · simp only at hok hs1
        subst hok
        simp only at h
        have hinv1 : SweepInv ext vertices s1 0 := by
          rw [hs1]
          exact clipEar_sweepInv ext vertices s c hc (by omega)
        have hp1 : P s1.activeVerts s1.tris := by
          rw [hs1, clipEar_activeVerts, clipEar_tris]
          exact hP _ _ c hlen hc hconv hear hp
        exact loopIter_invariant ext vertices P hP j s1 s' 0 hinv1 hp1 h
      · simp only at hok hr ht hinv'
        subst hok
        simp only at h
        have hp1 : P s1.activeVerts s1.tris := by
          rw [hr, ht]
          exact hp
        exact loopIter_invariant ext vertices P hP j s1 s' (k + 1) hinv' hp1 h
      · simp only at hok
        subst hok
        simp at h
    · simp at h

/-- From any state inside a sweep the sweep comes to its end: after `j` further pure
advances of the cursor (ring and triangles untouched, the cursor one position further each
time), an iteration clips an ear (then the ring has a traditional ear), or it gives up,
exactly when the cursor has gone once around a ring without traditional ear. -/
theorem sweep_completes (ext : Externals K) (vertices : List (Vec3 K)) :
    ∀ (d : Nat) (s : LoopState) (k : Nat), SweepInv ext vertices s k →
      3 < s.activeVerts.length → s.activeVerts.length - k = d + 1 →
      ∃ j sj r, k + j < s.activeVerts.length ∧ loopIter ext vertices j s = some sj ∧
        sj.activeVerts = s.activeVerts ∧ sj.tris = s.tris ∧
        sj.cursor_start = s.cursor_start ∧ SweepInv ext vertices sj (k + j) ∧
        loopBody ext vertices sj = some r ∧
        ((r.2 = true ∧ ∃ c, c < s.activeVerts.length ∧ r.1 = clipEar sj c ∧
            isConvex vertices s.activeVerts c = true ∧
            hasTradEar ext vertices s.activeVerts = true) ∨
         (r.2 = false ∧ r.1.activeVerts = s.activeVerts ∧ r.1.tris = s.tris ∧
            k + j + 1 = s.activeVerts.length ∧
            hasTradEar ext vertices s.activeVerts = false)) ∧
        (∀ i, i ≤ j → ∃ si, loopIter ext vertices i s = some si ∧
          si.activeVerts = s.activeVerts ∧ si.tris = s.tris ∧
          si.cursor = cyc s.activeVerts.length (s.cursor_start + (k + i))) := by
  intro d
  induction d with
  | zero =>
    intro s k hinv hlen hd
    obtain ⟨r, hb, hout⟩ := loopBody_step ext vertices s k hinv hlen
    have hzero : ∀ i, i ≤ 0 → ∃ si, loopIter ext vertices i s = some si ∧
        si.activeVerts = s.activeVerts ∧ si.tris = s.tris ∧
        si.cursor = cyc s.activeVerts.length (s.cursor_start + (k + i)) := by
      intro i hi
      obtain rfl : i = 0 := by omega
      exact ⟨s, rfl, rfl, rfl, hinv.2.2.1⟩
    rcases hout with ⟨h1, c, h2, h3, h4, h5, _⟩ | ⟨_, _, _, _, hlt, _⟩ | h
    · exact ⟨0, s, r, hinv.1, rfl, rfl, rfl, rfl, hinv, hb, Or.inl ⟨h1, c, h2, h3, h4, h5⟩,
        hzero⟩
    · omega
    · exact ⟨0, s, r, hinv.1, rfl, rfl, rfl, rfl, hinv, hb, Or.inr h, hzero⟩
  | succ d ih =>
    intro s k hinv hlen hd
    obtain ⟨r, hb, hout⟩ := loopBody_step ext vertices s k hinv hlen
    have hzero : ∀ i, i ≤ 0 → ∃ si, loopIter ext vertices i s = some si ∧
        si.activeVerts = s.activeVerts ∧ si.tris = s.tris ∧
        si.cursor = cyc s.activeVerts.length (s.cursor_start + (k + i)) := by
      intro i hi
      obtain rfl : i = 0 := by omega
      exact ⟨s, rfl, rfl, rfl, hinv.2.2.1⟩
    rcases hout with ⟨h1, c, h2, h3, h4, h5, _⟩ | ⟨hok, hr, ht, hcs, hlt, hinv'⟩ | h
    · exact ⟨0, s, r, hinv.1, rfl, rfl, rfl, rfl, hinv, hb, Or.inl ⟨h1, c, h2, h3, h4, h5⟩,
        hzero⟩
    · obtain ⟨s1, ok⟩ := r
      simp only at hok hr ht hcs hinv'
      subst hok
      obtain ⟨j, sj, r', hj, hiter, h1, h2, h3, h4, h5, h6, h7⟩ :=
        ih s1 (k + 1) hinv' (by rw [hr]; exact hlen) (by rw [hr]; omega)
      rw [hr] at hj h6 h7
      rw [ht] at h6 h7
      rw [hcs] at h7
      refine ⟨j + 1, sj, r', by omega, ?_, h1.trans hr, h2.trans ht, h3.trans hcs, ?_, h5,
        ?_, ?_⟩
      · simp [loopIter, hlen, hb, hiter]
      · have e : k + (j + 1) = k + 1 + j := by omega
        rw [e]
        exact h4
      · have e : k + (j + 1) = k + 1 + j := by omega
        rw [e]
        exact h6
      · intro i hi
        rcases Nat.eq_zero_or_pos i with h0 | hpos
        · exact hzero i (by omega)
        · obtain ⟨i', rfl⟩ : ∃ i', i = i' + 1 := ⟨i - 1, by omega⟩
          obtain ⟨si, hsi, ha, hb', hc⟩ := h7 i' (by omega)
          refine ⟨si, ?_, ha, hb', ?_⟩
          · simp [loopIter, hlen, hb, hsi]
          · have e : k + (i' + 1) = k + 1 + i' := by omega
            rw [e]
            exact hc
    · exact ⟨0, s, r, hinv.1, rfl, rfl, rfl, rfl, hinv, hb, Or.inr h, hzero⟩

/-- The loop terminates: inside a sweep, `size * size - k + 1` units of fuel are enough. -/
theorem whileLoop_terminates (ext : Externals K) (vertices : List (Vec3 K)) :
    ∀ (fuel : Nat) (s : LoopState) (k : Nat), SweepInv ext vertices s k →
      s.activeVerts.length * s.activeVerts.length - k < fuel →
      ∃ r, whileLoop ext vertices fuel s = some r := by
  intro fuel
  induction fuel with
  | zero =>
    intro s k _ h
    omega
  | succ fuel ih =>
    intro s k hinv hfuel
    rw [whileLoop]
    split
    · rename_i hlen
      obtain ⟨r, hb, hout⟩ := loopBody_step ext vertices s k hinv hlen
      obtain ⟨s1, ok⟩ := r
      rw [hb]
      rcases hout with ⟨hok, c, hc, hs1, _, _⟩ | ⟨hok, hr, _, _, hlt, hinv'⟩ | ⟨hok, _⟩
      · simp only at hok hs1
        subst hok
        simp only
        have hl := clipEar_length s c hc
        rw [← hs1] at hl
        have hinv1 : SweepInv ext vertices s1 0 := by
          rw [hs1]
          exact clipEar_sweepInv ext vertices s c hc (by omega)
        apply ih s1 0 hinv1
        have e : s.activeVerts.length * s.activeVerts.length =
            s1.activeVerts.length * s1.activeVerts.length + 2 * s1.activeVerts.length + 1 := by
          rw [← hl]
          ring
        have hk := hinv.1
        omega
      · simp only at hok hr hinv' hlt
        subst hok
        simp only
        apply ih s1 (k + 1) hinv'
        rw [hr]
        have hk := hinv.1
        have hsq : s.activeVerts.length ≤ s.activeVerts.length * s.activeVerts.length :=
          Nat.le_mul_self _
        omega
      · simp only at hok
        subst hok
        exact ⟨_, rfl⟩
    · exact ⟨_, rfl⟩

theorem initState_sweepInv (ext : Externals K) (vertices : List (Vec3 K)) (n : Nat) (hn : 0 < n) :
    SweepInv ext vertices (initState n) 0 := by
  refine ⟨by simpa [initState] using hn, by simpa [initState] using hn, ?_, ?_, ?_⟩
  · simp [initState, cyc, hn]
  · intro _ i hi
    omega
  · intro t ht
    simp [initState] at ht

/-- The main loop returns on every input, with the fuel `tessellateGeometry` provides or
more. -/
theorem whileLoop_initState_total (ext : Externals K) (vertices : List (Vec3 K)) (n : Nat) :
    ∃ r, ∀ d, whileLoop ext vertices (loopFuel n + d) (initState n) = some r := by
  rcases Nat.eq_zero_or_pos n with h0 | hpos
  · refine ⟨(initState n, true), fun d => ?_⟩
    have e : loopFuel n + d = (n * n + d) + 1 := by unfold loopFuel; omega
    rw [e]
    exact whileLoop_small ext vertices _ _ (by simp [initState, h0])
  · obtain ⟨r, hr⟩ := whileLoop_terminates ext vertices (loopFuel n) (initState n) 0
      (initState_sweepInv ext vertices n hpos) (by simp [initState, loopFuel])
    exact ⟨r, fun d => whileLoop_mono ext vertices _ _ r hr d⟩

/-- Invariants of a whole run from the initial ring of `n` indices. -/
theorem initState_run_invariant (ext : Externals K) (vertices : List (Vec3 K)) (n : Nat)
    (hn : 0 < n) (P : List Nat → List TriIndices → Prop)
    (hP : ∀ ring tris c, 3 < ring.length → c < ring.length →
      isConvex vertices ring c = true → hasTradEar ext vertices ring = true →
      P ring tris → P (ring.eraseIdx c) (tris ++ [triAt ring c]))
    (h0 : P (List.range n) []) (j : Nat) (sj : LoopState)
    (h : loopIter ext vertices j (initState n) = some sj) :
    (∃ k, SweepInv ext vertices sj k) ∧ P sj.activeVerts sj.tris :=
  loopIter_invariant ext vertices P hP j (initState n) sj 0
    (initState_sweepInv ext vertices n hn) h0 h

/-- A successful run ends in a state reached by loop iterations, with at most three ring
indices, in which every clip-stable property that held initially holds. -/
theorem whileLoop_success (ext : Externals K) (vertices : List (Vec3 K)) (n : Nat)
    (hn : 0 < n) (P : List Nat → List TriIndices → Prop)
    (hP : ∀ ring tris c, 3 < ring.length → c < ring.length →
      isConvex vertices ring c = true → hasTradEar ext vertices ring = true →
      P ring tris → P (ring.eraseIdx c) (tris ++ [triAt ring c]))
    (h0 : P (List.range n) []) (fuel : Nat) (s : LoopState)
    (h : whileLoop ext vertices fuel (initState n) = some (s, true)) :
    P s.activeVerts s.tris ∧ s.activeVerts.length ≤ 3 := by
  obtain ⟨j, sl, hj, hres⟩ := whileLoop_result ext vertices fuel _ s true h
  rcases hres with ⟨_, hs, hlen⟩ | ⟨hf, _⟩
  · rw [hs]
    exact ⟨(initState_run_invariant ext vertices n hn P hP h0 j sl hj).2, hlen⟩
  · exact absurd hf (by simp)

theorem triElements_length (tris : List TriIndices) :
    (triElements tris).length = 3 * tris.length := by
  unfold triElements
  induction tris with
  | nil => rfl
  | cons t rest ih =>
    rw [List.flatMap_cons, List.length_append, ih]
    simp only [List.length_cons, List.length_nil]
    omega

theorem triElements_append (l1 l2 : List TriIndices) :
    triElements (l1 ++ l2) = triElements l1 ++ triElements l2 := by
  unfold triElements
  rw [List.flatMap_append]

/-- Result of `tessellateGeometry` on an accepted input, by the result of its loop. -/
theorem tessellateGeometry_success_inv (ext : Externals K) (geom g' : Geometry K)
    (vertices : List (Vec3 K)) (hv : geom.vertexArray = some vertices)
    (h : tessellateGeometry ext geom = some (true, g')) :
    vertices ≠ [] ∧ geom.primitiveSets ≠ [] ∧ geom.usesIndices = false ∧
    ∃ s, whileLoop ext vertices (loopFuel vertices.length) (initState vertices.length) =
        some (s, true) ∧
      g' = { geom with primitiveSets :=
        [PrimitiveSet.drawElementsUInt TRIANGLES (triElements (finalTris s))] } := by
  have hne : vertices ≠ [] := by
    intro h0
    unfold tessellateGeometry at h
    simp [hv, h0] at h
  have hp : geom.primitiveSets ≠ [] := by
    intro h0
    unfold tessellateGeometry at h
    simp [hv, h0] at h
  have hidx : geom.usesIndices = false := by
    cases hu : geom.usesIndices with
    | false => rfl
    | true =>
      rw [tessellateGeometry_of_usesIndices ext geom hu] at h
      simp at h
  refine ⟨hne, hp, hidx, ?_⟩
  rw [tessellateGeometry_unindexed ext geom vertices hv hne hp hidx] at h
  split at h
  · simp at h
  · rename_i s hw
    simp only [Option.some.injEq, Prod.mk.injEq, true_and] at h
    exact ⟨s, hw, h.symm⟩
  · simp at h

/-- The triangle list only grows: the list of every state met during a run is an initial
segment of the list of the last state. -/
theorem run_tris_prefix (ext : Externals K) (vertices : List (Vec3 K)) (n : Nat) (hn : 0 < n)
    (j jl : Nat) (sj sl : LoopState)
    (hj : loopIter ext vertices j (initState n) = some sj)
    (hl : loopIter ext vertices jl (initState n) = some sl)
    (hlen : sl.activeVerts.length ≤ 3) : sj.tris <+: sl.tris := by
  have hstop : ∀ m, loopIter ext vertices (m + 1) sl = none := by
    intro m
    have h3 : ¬ sl.activeVerts.length > 3 := by omega
    simp only [loopIter, h3, if_false]
  rcases Nat.lt_or_ge jl j with hlt | hge
  · obtain ⟨m, hm⟩ : ∃ m, j = jl + (m + 1) := ⟨j - jl - 1, by omega⟩
    rw [hm, loopIter_add ext vertices jl _ sl hl, hstop] at hj
    simp at hj
  · obtain ⟨m, hm⟩ : ∃ m, jl = j + m := ⟨jl - j, by omega⟩
    rw [hm, loopIter_add ext vertices j _ sj hj] at hl
    obtain ⟨⟨k, hinv⟩, _⟩ := initState_run_invariant ext vertices n hn (fun _ _ => True)
      (fun _ _ _ _ _ _ _ _ => trivial) trivial j sj hj
    exact (loopIter_invariant ext vertices (fun _ tris => sj.tris <+: tris)
      (fun _ tris _ _ _ _ _ hp => hp.trans (List.prefix_append tris _))
      m sj sl k hinv (List.prefix_refl _) hl).2

/-- C1: when `tessellateGeometry` returns success on an input with `n ≥ 3` vertices (then
the input is unindexed and has a primitive set), the loop ended with exactly `n - 3`
clipped triangles and three ring indices; the previous primitive sets are all replaced by
one triangle-index list, made of the indices of the clipped triangles, in clipping order
(the list of every state of the run is an initial segment of it), followed by the three
remaining ring indices; it has `3 * (n - 2)` indices, that is `n - 2` triangles. -/
theorem tessellateGeometry_triangle_count (ext : Externals K) (geom g' : Geometry K)
    (vertices : List (Vec3 K)) (hv : geom.vertexArray = some vertices)
    (hn : 3 ≤ vertices.length)
    (h : tessellateGeometry ext geom = some (true, g')) :
    ∃ s, whileLoop ext vertices (loopFuel vertices.length) (initState vertices.length) =
        some (s, true) ∧
      s.tris.length = vertices.length - 3 ∧ s.activeVerts.length = 3 ∧
      g' = { geom with primitiveSets := [PrimitiveSet.drawElementsUInt TRIANGLES
        (triElements s.tris ++
          [s.activeVerts.getD 0 0, s.activeVerts.getD 1 0, s.activeVerts.getD 2 0])] } ∧
      (triElements s.tris ++
        [s.activeVerts.getD 0 0, s.activeVerts.getD 1 0, s.activeVerts.getD 2 0]).length =
        3 * (vertices.length - 2) ∧
      (finalTris s).length = vertices.length - 2 ∧
      (∀ j sj, loopIter ext vertices j (initState vertices.length) = some sj →
        sj.tris <+: s.tris) := by
  obtain ⟨_, _, _, s, hw, hg⟩ := tessellateGeometry_success_inv ext geom g' vertices hv h
  have hpos : 0 < vertices.length := by omega
  obtain ⟨⟨hsum, h3⟩, hle⟩ := whileLoop_success ext vertices vertices.length hpos
    (fun ring tris => ring.length + tris.length = vertices.length ∧ 3 ≤ ring.length)
    (by
      intro ring tris c hlen hc _ _ hp
      rw [List.length_eraseIdx_of_lt hc, List.length_append]
      simp only [List.length_cons, List.length_nil]
      omega)
    (by simpa using hn) _ s hw
  have hlen3 : s.activeVerts.length = 3 := by omega
  have hft : finalTris s = s.tris ++
      [⟨s.activeVerts.getD 0 0, s.activeVerts.getD 1 0, s.activeVerts.getD 2 0⟩] := by
    simp only [finalTris, hlen3, if_true]
  have hte : triElements (finalTris s) = triElements s.tris ++
      [s.activeVerts.getD 0 0, s.activeVerts.getD 1 0, s.activeVerts.getD 2 0] := by
    rw [hft, triElements_append]
    rfl
  refine ⟨s, hw, by omega, hlen3, by rw [hg, hte], ?_, ?_, ?_⟩
  · rw [← hte, triElements_length, hft, List.length_append]
    simp only [List.length_cons, List.length_nil]
    omega
  · rw [hft, List.length_append]
    simp only [List.length_cons, List.length_nil]
    omega
  · intro j sj hj
    obtain ⟨jl, sl, hl, hres⟩ := whileLoop_result ext vertices _ _ s true hw
    rcases hres with ⟨_, hs, hll⟩ | ⟨hf, _⟩
    · rw [hs]
      exact run_tris_prefix ext vertices vertices.length hpos j jl sj sl hj hl hll
    · exact absurd hf (by simp)

theorem tessellateGeometry_triangle_count_witness :
    ∃ s, whileLoop sampleExt squareCCW (loopFuel squareCCW.length)
        (initState squareCCW.length) = some (s, true) ∧
      s.tris.length = squareCCW.length - 3 ∧ s.activeVerts.length = 3 ∧
      ({ polygonGeometry squareCCW with
          primitiveSets := [PrimitiveSet.drawElementsUInt TRIANGLES [3, 0, 1, 1, 2, 3]] } :
          Geometry ℚ) =
        { polygonGeometry squareCCW with primitiveSets :=
          [PrimitiveSet.drawElementsUInt TRIANGLES
            (triElements s.tris ++
              [s.activeVerts.getD 0 0, s.activeVerts.getD 1 0, s.activeVerts.getD 2 0])] } ∧
      (triElements s.tris ++
        [s.activeVerts.getD 0 0, s.activeVerts.getD 1 0, s.activeVerts.getD 2 0]).length =
        3 * (squareCCW.length - 2) ∧
      (finalTris s).length = squareCCW.length - 2 ∧
      (∀ j sj, loopIter sampleExt squareCCW j (initState squareCCW.length) = some sj →
        sj.tris <+: s.tris) :=
  tessellateGeometry_triangle_count sampleExt (polygonGeometry squareCCW)
    { polygonGeometry squareCCW with
      primitiveSets := [PrimitiveSet.drawElementsUInt TRIANGLES [3, 0, 1, 1, 2, 3]] }
    squareCCW rfl (by decide) (by decide!)

theorem mem_eraseIdx_or_eq (ring : List Nat) (c x : Nat) (hx : x ∈ ring) :
    x ∈ ring.eraseIdx c ∨ x = ring.getD c 0 := by
  obtain ⟨i, hi⟩ := List.mem_iff_getElem?.mp hx
  by_cases hic : i = c
  · right
    rw [List.getD_eq_getElem?_getD, ← hic, hi]
    rfl
  · left
    exact List.mem_eraseIdx_iff_getElem?.mpr ⟨i, hic, hi⟩

theorem mem_of_length_three (ring : List Nat) (h : ring.length = 3) (x : Nat)
    (hx : x ∈ ring) : x = ring.getD 0 0 ∨ x = ring.getD 1 0 ∨ x = ring.getD 2 0 := by
  match ring, h with
  | [a, b, c], _ =>
    simp only [List.mem_cons, List.mem_singleton, List.not_mem_nil, or_false] at hx
    simpa using hx

/-- C4: when `tessellateGeometry` returns success on `n ≥ 3` vertices, every vertex index
`0 .. n-1` occurs in some output triangle: an index that is no longer in the ring is the
middle index of a clipped triangle (a clip erases the ring entry at the clipped position
and pushes the triangle whose middle index is that entry), and the three indices still in
the ring form the last triangle. -/
theorem tessellateGeometry_no_vertex_dropped (ext : Externals K) (geom g' : Geometry K)
    (vertices : List (Vec3 K)) (hv : geom.vertexArray = some vertices)
    (hn : 3 ≤ vertices.length)
    (h : tessellateGeometry ext geom = some (true, g')) :
    ∃ s, whileLoop ext vertices (loopFuel vertices.length) (initState vertices.length) =
        some (s, true) ∧
      g'.primitiveSets =
        [PrimitiveSet.drawElementsUInt TRIANGLES (triElements (finalTris s))] ∧
      finalTris s = s.tris ++
        [⟨s.activeVerts.getD 0 0, s.activeVerts.getD 1 0, s.activeVerts.getD 2 0⟩] ∧
      (∀ i, i < vertices.length → (∃ t ∈ s.tris, t.b = i) ∨ i ∈ s.activeVerts) ∧
      (∀ i, i < vertices.length → ∃ t ∈ finalTris s, t.a = i ∨ t.b = i ∨ t.c = i) ∧
      (∀ i, i < vertices.length → i ∈ triElements (finalTris s)) ∧
      (∀ (st : LoopState) (c : Nat),
        (clipEar st c).activeVerts = st.activeVerts.eraseIdx c ∧
        ∃ t, (clipEar st c).tris = st.tris ++ [t] ∧ t.b = st.activeVerts.getD c 0) := by
  obtain ⟨_, _, _, s, hw, hg⟩ := tessellateGeometry_success_inv ext geom g' vertices hv h
  have hpos : 0 < vertices.length := by omega
  obtain ⟨⟨hcov, h3⟩, hle⟩ := whileLoop_success ext vertices vertices.length hpos
    (fun ring tris => (∀ i, i < vertices.length → (∃ t ∈ tris, t.b = i) ∨ i ∈ ring) ∧
      3 ≤ ring.length)
    (by
      intro ring tris c hlen hc _ _ hp
      refine ⟨fun i hi => ?_, by rw [List.length_eraseIdx_of_lt hc]; omega⟩
      rcases hp.1 i hi with ⟨t, ht, hb⟩ | hmem
      · exact Or.inl ⟨t, List.mem_append_left _ ht, hb⟩
      · rcases mem_eraseIdx_or_eq ring c i hmem with h1 | h1
        · exact Or.inr h1
        · exact Or.inl ⟨triAt ring c, by simp, h1.symm⟩)
    ⟨fun i hi => Or.inr (List.mem_range.mpr hi), by simpa using hn⟩ _ s hw
  have hlen3 : s.activeVerts.length = 3 := by omega
  have hft : finalTris s = s.tris ++
      [⟨s.activeVerts.getD 0 0, s.activeVerts.getD 1 0, s.activeVerts.getD 2 0⟩] := by
    simp only [finalTris, hlen3, if_true]
  have hall : ∀ i, i < vertices.length → ∃ t ∈ finalTris s, t.a = i ∨ t.b = i ∨ t.c = i := by
    intro i hi
    rcases hcov i hi with ⟨t, ht, hb⟩ | hmem
    · exact ⟨t, by rw [hft]; exact List.mem_append_left _ ht, Or.inr (Or.inl hb)⟩
    · refine ⟨⟨s.activeVerts.getD 0 0, s.activeVerts.getD 1 0, s.activeVerts.getD 2 0⟩,
        by rw [hft]; simp, ?_⟩
      rcases mem_of_length_three s.activeVerts hlen3 i hmem with h1 | h1 | h1
      · exact Or.inl h1.symm
      · exact Or.inr (Or.inl h1.symm)
      · exact Or.inr (Or.inr h1.symm)
  refine ⟨s, hw, by rw [hg], hft, hcov, hall, ?_, fun st c => ⟨rfl, _, rfl, rfl⟩⟩
  intro i hi
  obtain ⟨t, ht, hi3⟩ := hall i hi
  unfold triElements
  rw [List.mem_flatMap]
  refine ⟨t, ht, ?_⟩
  rcases hi3 with h1 | h1 | h1 <;> simp [h1]

theorem tessellateGeometry_no_vertex_dropped_witness :
    ∃ s, whileLoop sampleExt squareCCW (loopFuel squareCCW.length)
        (initState squareCCW.length) = some (s, true) ∧
      [PrimitiveSet.drawElementsUInt TRIANGLES [3, 0, 1, 1, 2, 3]] =
        [PrimitiveSet.drawElementsUInt TRIANGLES (triElements (finalTris s))] ∧
      finalTris s = s.tris ++
        [⟨s.activeVerts.getD 0 0, s.activeVerts.getD 1 0, s.activeVerts.getD 2 0⟩] ∧
      (∀ i, i < squareCCW.length → (∃ t ∈ s.tris, t.b = i) ∨ i ∈ s.activeVerts) ∧
      (∀ i, i < squareCCW.length → ∃ t ∈ finalTris s, t.a = i ∨ t.b = i ∨ t.c = i) ∧
      (∀ i, i < squareCCW.length → i ∈ triElements (finalTris s)) ∧
      (∀ (st : LoopState) (c : Nat),
        (clipEar st c).activeVerts = st.activeVerts.eraseIdx c ∧
        ∃ t, (clipEar st c).tris = st.tris ++ [t] ∧ t.b = st.activeVerts.getD c 0) :=
  tessellateGeometry_no_vertex_dropped sampleExt (polygonGeometry squareCCW)
    { polygonGeometry squareCCW with
      primitiveSets := [PrimitiveSet.drawElementsUInt TRIANGLES [3, 0, 1, 1, 2, 3]] }
    squareCCW rfl (by decide) (by decide!)

/-! ## Areas -/

theorem cross2D_eq_edges (a b c : Vec3 K) :
    cross2D a b c = edgeTerm a b + edgeTerm b c - edgeTerm a c := by
  unfold cross2D edgeTerm
  ring

theorem pathSum_append_singleton : ∀ (N : List (Vec3 K)) (z : Vec3 K), N ≠ [] →
    pathSum (N ++ [z]) = pathSum N + edgeTerm (N.getD (N.length - 1) default) z
  | [], _, h => absurd rfl h
  | [a], z, _ => by simp [pathSum]
  | a :: b :: rest, z, _ => by
    have ih := pathSum_append_singleton (b :: rest) z (by simp)
    simp only [List.cons_append] at ih ⊢
    rw [pathSum, ih, pathSum]
    simp only [List.length_cons, Nat.add_sub_cancel, List.getD_cons_succ]
    ring

theorem pathSum_erase_inner : ∀ (L : List (Vec3 K)) (z : Vec3 K) (c : Nat), 1 ≤ c → c < L.length →
    pathSum (L ++ [z]) = pathSum (L.eraseIdx c ++ [z]) +
      cross2D (L.getD (c - 1) default) (L.getD c default) ((L ++ [z]).getD (c + 1) default)
  | [], _, _, _, h => by simp at h
  | [_], _, c, h1, h => by simp at h; omega
  | a :: b :: [], z, 1, _, _ => by
    simp [pathSum, cross2D_eq_edges]
  | a :: b :: q :: rest, z, 1, _, _ => by
    simp [pathSum, cross2D_eq_edges]
    ring
  | a :: b :: rest, z, c + 2, _, h => by
    have ih := pathSum_erase_inner (b :: rest) z (c + 1) (by omega) (by simpa using h)
    simp only [List.cons_append, List.eraseIdx_cons_succ, Nat.add_sub_cancel,
      List.getD_cons_succ] at ih ⊢
    rw [pathSum, ih]
    have e : c + 2 - 1 = c + 1 := rfl
    rw [e, List.getD_cons_succ]
    conv_rhs => rw [pathSum]
    ring

/-- Clipping the entry at position `c` of a closed ring of points removes the doubled
signed area of the triangle `(prev, c, next)` from the shoelace sum. -/
theorem pathSum_closed_erase (L : List (Vec3 K)) (c : Nat) (hlen : 3 ≤ L.length)
    (hc : c < L.length) :
    pathSum (L ++ L.take 1) = pathSum (L.eraseIdx c ++ (L.eraseIdx c).take 1) +
      cross2D (L.getD (prevPos L.length c) default) (L.getD c default)
        (L.getD (nextPos L.length c) default) := by
  match L, hlen with
  | b :: q :: p :: rest, _ =>
    cases c with
    | zero =>
      have h1 := pathSum_append_singleton (q :: p :: rest) b (by simp)
      have h2 := pathSum_append_singleton (q :: p :: rest) q (by simp)
      simp only [List.cons_append] at h1 h2
      simp only [List.eraseIdx_cons_zero, List.take_succ_cons, List.take_zero,
        List.cons_append, prevPos, nextPos, if_true]
      rw [pathSum, h1, h2, cross2D_eq_edges]
      simp
      ring
    | succ c =>
      have hA := pathSum_erase_inner (b :: q :: p :: rest) b (c + 1) (by omega) hc
      simp only [List.eraseIdx_cons_succ, List.take_succ_cons, List.take_zero,
        List.cons_append] at hA ⊢
      have e1 : (b :: q :: p :: rest).getD (c + 1 - 1) default =
          (b :: q :: p :: rest).getD (prevPos (b :: q :: p :: rest).length (c + 1)) default := by
        simp [prevPos]
      have e2 : (b :: q :: p :: (rest ++ [b])).getD (c + 1 + 1) default =
          (b :: q :: p :: rest).getD (nextPos (b :: q :: p :: rest).length (c + 1)) default := by
        unfold nextPos
        simp only [List.length_cons] at hc ⊢
        have e : b :: q :: p :: (rest ++ [b]) = (b :: q :: p :: rest) ++ [b] := rfl
        rw [e]
        split
        · rename_i h
          have hcl : c + 1 + 1 = (b :: q :: p :: rest).length := by
            simp only [List.length_cons]
            omega
          rw [hcl, List.getD_eq_getElem?_getD, List.getElem?_append_right (le_refl _)]
          simp
        · rename_i h
          rw [List.getD_eq_getElem?_getD, List.getElem?_append_left (by simp; omega),
            List.getD_eq_getElem?_getD]
      rw [hA, e1, e2]

theorem eraseIdx_map_eq {α β : Type} (f : α → β) : ∀ (l : List α) (c : Nat),
    (l.map f).eraseIdx c = (l.eraseIdx c).map f
  | [], _ => by simp
  | _ :: _, 0 => by simp
  | a :: l, c + 1 => by
    simp only [List.map_cons, List.eraseIdx_cons_succ, eraseIdx_map_eq f l c]

theorem ringPoints_getD (vertices : List (Vec3 K)) (ring : List Nat) (j : Nat)
    (hj : j < ring.length) :
    (ringPoints vertices ring).getD j default = vertices.getD (ring.getD j 0) default := by
  unfold ringPoints
  rw [List.getD_eq_getElem _ _ (by simpa using hj), List.getElem_map,
    List.getD_eq_getElem _ _ hj]

theorem ringPoints_range (vertices : List (Vec3 K)) :
    ringPoints vertices (List.range vertices.length) = vertices := by
  unfold ringPoints
  apply List.ext_getElem
  · simp
  · intro i h1 h2
    rw [List.getElem_map, List.getElem_range, List.getD_eq_getElem _ _ h2]

/-- Clipping the ear at position `c` takes the area of the clipped triangle out of the
shoelace area of the ring. -/
theorem shoelace_clip (vertices : List (Vec3 K)) (ring : List Nat) (c : Nat)
    (hlen : 3 ≤ ring.length) (hc : c < ring.length) :
    shoelace (ringPoints vertices ring) =
      shoelace (ringPoints vertices (ring.eraseIdx c)) + triArea vertices (triAt ring c) := by
  have hl : (ringPoints vertices ring).length = ring.length := by simp [ringPoints]
  have hp : prevPos ring.length c < ring.length := by
    unfold prevPos
    split <;> omega
  have hnx : nextPos ring.length c < ring.length := by
    unfold nextPos
    split <;> omega
  have h := pathSum_closed_erase (ringPoints vertices ring) c (by omega) (by omega)
  rw [hl, ringPoints_getD vertices ring _ hp, ringPoints_getD vertices ring _ hc,
    ringPoints_getD vertices ring _ hnx] at h
  have he : (ringPoints vertices ring).eraseIdx c = ringPoints vertices (ring.eraseIdx c) :=
    eraseIdx_map_eq _ ring c
  rw [he] at h
  unfold shoelace triArea triAt
  rw [h]
  ring

theorem shoelace_three (vertices : List (Vec3 K)) (ring : List Nat) (h : ring.length = 3) :
    shoelace (ringPoints vertices ring) =
      triArea vertices ⟨ring.getD 0 0, ring.getD 1 0, ring.getD 2 0⟩ := by
  match ring, h with
  | [a, b, c], _ =>
    simp [shoelace, ringPoints, triArea, pathSum, cross2D_eq_edges]
    unfold edgeTerm
    ring

/-- C3: when `tessellateGeometry` returns success on `n ≥ 3` vertices, the signed areas
`((B - A) x (C - A)) / 2` of the `n - 2` output triangles add up to the shoelace signed
area of the input ring, for every ring of rational points, simple or not. -/
theorem tessellateGeometry_area (ext : Externals K) (geom g' : Geometry K)
    (vertices : List (Vec3 K)) (hv : geom.vertexArray = some vertices)
    (hn : 3 ≤ vertices.length)
    (h : tessellateGeometry ext geom = some (true, g')) :
    ∃ tris, g'.primitiveSets = [PrimitiveSet.drawElementsUInt TRIANGLES (triElements tris)] ∧
      tris.length = vertices.length - 2 ∧
      (tris.map (triArea vertices)).sum = shoelace vertices := by
  obtain ⟨_, _, _, s, hw, hg⟩ := tessellateGeometry_success_inv ext geom g' vertices hv h
  have hpos : 0 < vertices.length := by omega
  obtain ⟨⟨harea, hsum, h3⟩, hle⟩ := whileLoop_success ext vertices vertices.length hpos
    (fun ring tris =>
      (tris.map (triArea vertices)).sum + shoelace (ringPoints vertices ring) =
        shoelace vertices ∧
      ring.length + tris.length = vertices.length ∧ 3 ≤ ring.length)
    (by
      intro ring tris c hlen hc _ _ hp
      refine ⟨?_, ?_, ?_⟩
      · rw [← hp.1, shoelace_clip vertices ring c (by omega) hc]
        simp only [List.map_append, List.sum_append, List.map_cons, List.map_nil,
          List.sum_cons, List.sum_nil]
        ring
      · rw [List.length_eraseIdx_of_lt hc, List.length_append]
        simp only [List.length_cons, List.length_nil]
        omega
      · rw [List.length_eraseIdx_of_lt hc]
        omega)
    ⟨by simp [ringPoints_range], by simp, by simpa using hn⟩ _ s hw
  have hlen3 : s.activeVerts.length = 3 := by omega
  have hft : finalTris s = s.tris ++
      [⟨s.activeVerts.getD 0 0, s.activeVerts.getD 1 0, s.activeVerts.getD 2 0⟩] := by
    simp only [finalTris, hlen3, if_true]
  refine ⟨finalTris s, by rw [hg], ?_, ?_⟩
  · rw [hft, List.length_append]
    simp only [List.length_cons, List.length_nil]
    omega
  · rw [← harea, shoelace_three vertices s.activeVerts hlen3, hft]
    simp only [List.map_append, List.sum_append, List.map_cons, List.map_nil,
      List.sum_cons, List.sum_nil]
    ring

theorem tessellateGeometry_area_witness :
    ∃ tris, [PrimitiveSet.drawElementsUInt TRIANGLES [3, 0, 1, 1, 2, 3]] =
        [PrimitiveSet.drawElementsUInt TRIANGLES (triElements tris)] ∧
      tris.length = squareCCW.length - 2 ∧
      (tris.map (triArea squareCCW)).sum = shoelace squareCCW :=
  tessellateGeometry_area sampleExt (polygonGeometry squareCCW)
    { polygonGeometry squareCCW with
      primitiveSets := [PrimitiveSet.drawElementsUInt TRIANGLES [3, 0, 1, 1, 2, 3]] }
    squareCCW rfl (by decide) (by decide!)

/-! ## Convex rings -/

theorem sampleExt_containsOnlyInside : ContainsOnlyInside sampleExt := by
  intro a b c x y h
  unfold inClosedTriangle at h
  simp only [sampleExt]
  rw [Bool.eq_false_iff]
  intro hc
  apply h
  simp only [Bool.or_eq_true, Bool.and_eq_true, decide_eq_true_eq] at hc
  rcases hc with ⟨⟨h1, h2⟩, h3⟩ | ⟨⟨h1, h2⟩, h3⟩
  · exact Or.inl ⟨h1, h2, h3⟩
  · exact Or.inr ⟨h1, h2, h3⟩

theorem cross2D_rotate (a b c : Vec3 K) : cross2D b c a = cross2D a b c := by
  unfold cross2D
  ring

theorem cross2D_swap (a b c : Vec3 K) : cross2D a c b = - cross2D a b c := by
  unfold cross2D
  ring

theorem cross2D_xy (a b : Vec3 K) (p : Vec3 K) : cross2D a b ⟨p.x, p.y, 0⟩ = cross2D a b p := rfl

theorem ConvexCCW.cross_pos {vertices : List (Vec3 K)} (h : ConvexCCW vertices) {a b c : Nat}
    (hcyc : CycLt a b c) (ha : a < vertices.length) (hb : b < vertices.length)
    (hc : c < vertices.length) :
    0 < cross2D (vertexAt vertices a) (vertexAt vertices b) (vertexAt vertices c) := by
  rcases hcyc with ⟨h1, h2⟩ | ⟨h1, h2⟩ | ⟨h1, h2⟩
  · exact h c hc b h2 a h1
  · rw [← cross2D_rotate]
    exact h a ha c h2 b h1
  · rw [← cross2D_rotate, ← cross2D_rotate]
    exact h b hb a h2 c h1

theorem sorted_getD_lt {ring : List Nat} (hs : ring.Pairwise (· < ·)) {i j : Nat}
    (hij : i < j) (hj : j < ring.length) : ring.getD i 0 < ring.getD j 0 := by
  rw [List.getD_eq_getElem _ _ (by omega), List.getD_eq_getElem _ _ hj]
  exact (List.pairwise_iff_getElem.mp hs) i j (by omega) hj hij

theorem sorted_cycLt {ring : List Nat} (hs : ring.Pairwise (· < ·)) {p1 p2 p3 : Nat}
    (h : CycLt p1 p2 p3) (h1 : p1 < ring.length) (h2 : p2 < ring.length)
    (h3 : p3 < ring.length) : CycLt (ring.getD p1 0) (ring.getD p2 0) (ring.getD p3 0) := by
  rcases h with ⟨ha, hb⟩ | ⟨ha, hb⟩ | ⟨ha, hb⟩
  · exact Or.inl ⟨sorted_getD_lt hs ha h2, sorted_getD_lt hs hb h3⟩
  · exact Or.inr (Or.inl ⟨sorted_getD_lt hs ha h3, sorted_getD_lt hs hb h1⟩)
  · exact Or.inr (Or.inr ⟨sorted_getD_lt hs ha h1, sorted_getD_lt hs hb h2⟩)

theorem getD_mem_of_lt {ring : List Nat} {i : Nat} (hi : i < ring.length) :
    ring.getD i 0 ∈ ring := by
  rw [List.getD_eq_getElem _ _ hi]
  exact List.getElem_mem hi

theorem cycLt_ear {len c : Nat} (hlen : 3 ≤ len) (hc : c < len) :
    prevPos len c < len ∧ nextPos len c < len ∧ CycLt (prevPos len c) c (nextPos len c) := by
  unfold prevPos nextPos CycLt
  split <;> split <;> omega

theorem cycLt_other {len c j : Nat} (hlen : 3 ≤ len) (hc : c < len)
    (hj : j ∈ otherPositions len c) :
    j < len ∧ CycLt (prevPos len c) c j ∧ CycLt (nextPos len c) j (prevPos len c) := by
  unfold otherPositions at hj
  rw [List.mem_filter, List.mem_range] at hj
  simp only [decide_eq_true_eq] at hj
  obtain ⟨hjl, h1, h2, h3⟩ := hj
  unfold prevPos nextPos CycLt at *
  split_ifs at * <;> omega

theorem isConvex_eq_cross (vertices : List (Vec3 K)) (ring : List Nat) (c : Nat) :
    isConvex vertices ring c =
      decide (0 < cross2D (vertexAt vertices (ring.getD (prevPos ring.length c) 0))
        (vertexAt vertices (ring.getD c 0))
        (vertexAt vertices (ring.getD (nextPos ring.length c) 0))) := rfl

/-- In a strictly convex counter-clockwise ring every position of every sub-ring is a
traditional ear. -/
theorem isTradEar_of_convex (ext : Externals K) (vertices : List (Vec3 K)) (ring : List Nat)
    (c : Nat) (hconv : ConvexCCW vertices) (hext : ContainsOnlyInside ext)
    (hs : ring.Pairwise (· < ·)) (hb : ∀ x ∈ ring, x < vertices.length)
    (hlen : 3 ≤ ring.length) (hc : c < ring.length) :
    isTradEar ext vertices ring c = true := by
  obtain ⟨hp, hn, hcyc⟩ := cycLt_ear hlen hc
  unfold isTradEar
  rw [Bool.and_eq_true]
  constructor
  · rw [isConvex_eq_cross, decide_eq_true_eq]
    exact hconv.cross_pos (sorted_cycLt hs hcyc hp hc hn) (hb _ (getD_mem_of_lt hp))
      (hb _ (getD_mem_of_lt hc)) (hb _ (getD_mem_of_lt hn))
  · unfold triangleFree
    rw [List.all_eq_true]
    intro j hj
    obtain ⟨hjl, hc1, hc2⟩ := cycLt_other hlen hc hj
    have h1 := hconv.cross_pos (sorted_cycLt hs hc1 hp hc hjl) (hb _ (getD_mem_of_lt hp))
      (hb _ (getD_mem_of_lt hc)) (hb _ (getD_mem_of_lt hjl))
    have h2 := hconv.cross_pos (sorted_cycLt hs hc2 hn hjl hp) (hb _ (getD_mem_of_lt hn))
      (hb _ (getD_mem_of_lt hjl)) (hb _ (getD_mem_of_lt hp))
    rw [Bool.not_eq_true']
    unfold inEarTriangle
    apply hext
    unfold inClosedTriangle
    rw [cross2D_xy, cross2D_xy, cross2D_xy]
    have h3 := cross2D_swap (ringVertex vertices ring (nextPos ring.length c))
      (ringVertex vertices ring j) (ringVertex vertices ring (prevPos ring.length c))
    have h1' : 0 < cross2D (ringVertex vertices ring (prevPos ring.length c))
      (ringVertex vertices ring c) (ringVertex vertices ring j) := h1
    have h2' : 0 < cross2D (ringVertex vertices ring (nextPos ring.length c))
      (ringVertex vertices ring j) (ringVertex vertices ring (prevPos ring.length c)) := h2
    rintro (⟨_, _, h⟩ | ⟨h, _, _⟩)
    · linarith
    · linarith

/-- A run that fails stops on a ring of more than three indices without traditional ear,
and every clip-stable property of ring and triangle list holds there. -/
theorem whileLoop_failure (ext : Externals K) (vertices : List (Vec3 K)) (n : Nat)
    (hn : 0 < n) (P : List Nat → List TriIndices → Prop)
    (hP : ∀ ring tris c, 3 < ring.length → c < ring.length →
      isConvex vertices ring c = true → hasTradEar ext vertices ring = true →
      P ring tris → P (ring.eraseIdx c) (tris ++ [triAt ring c]))
    (h0 : P (List.range n) []) (fuel : Nat) (s : LoopState)
    (h : whileLoop ext vertices fuel (initState n) = some (s, false)) :
    ∃ j sl, loopIter ext vertices j (initState n) = some sl ∧ 3 < sl.activeVerts.length ∧
      hasTradEar ext vertices sl.activeVerts = false ∧ P sl.activeVerts sl.tris ∧
      s.activeVerts = sl.activeVerts ∧ s.tris = sl.tris := by
  obtain ⟨j, sl, hj, hres⟩ := whileLoop_result ext vertices fuel _ s false h
  rcases hres with ⟨hf, _⟩ | ⟨_, hlen, hb⟩
  · exact absurd hf (by simp)
  · obtain ⟨⟨k, hinv⟩, hp⟩ := initState_run_invariant ext vertices n hn P hP h0 j sl hj
    obtain ⟨r, hb', hout⟩ := loopBody_step ext vertices sl k hinv hlen
    rw [hb] at hb'
    simp only [Option.some.injEq] at hb'
    rw [← hb'] at hout
    rcases hout with ⟨hok, _⟩ | ⟨hok, _⟩ | ⟨_, hr, ht, _, hear⟩
    · exact absurd hok (by simp)
    · exact absurd hok (by simp)
    · exact ⟨j, sl, hj, hlen, hear, hp, hr, ht⟩

/-- C2: for a strictly convex counter-clockwise ring of `n ≥ 3` vertices (every index triple
`i < j < k` makes a strict left turn in x/y), unindexed and with a primitive set,
`tessellateGeometry` succeeds and puts out exactly `n - 2` triangles, each of strictly
positive signed area (wound like the input), provided `contains2D` returns false for every
point outside the closed triangle. -/
theorem tessellateGeometry_convex (ext : Externals K) (geom : Geometry K)
    (vertices : List (Vec3 K)) (hv : geom.vertexArray = some vertices)
    (hn : 3 ≤ vertices.length) (hp : geom.primitiveSets ≠ [])
    (hidx : geom.usesIndices = false) (hconv : ConvexCCW vertices)
    (hext : ContainsOnlyInside ext) :
    ∃ tris, tessellateGeometry ext geom = some (true, { geom with
        primitiveSets := [PrimitiveSet.drawElementsUInt TRIANGLES (triElements tris)] }) ∧
      tris.length = vertices.length - 2 ∧
      ∀ t ∈ tris, 0 < triArea vertices t := by
  have hpos : 0 < vertices.length := by omega
  have hne : vertices ≠ [] := by
    intro h0
    rw [h0] at hpos
    simp at hpos
  let P : List Nat → List TriIndices → Prop := fun ring tris =>
    ring.Pairwise (· < ·) ∧ (∀ x ∈ ring, x < vertices.length) ∧ 3 ≤ ring.length ∧
    ring.length + tris.length = vertices.length ∧
    ∀ t ∈ tris, CycLt t.a t.b t.c ∧ t.a < vertices.length ∧ t.b < vertices.length ∧
      t.c < vertices.length
  have hP : ∀ ring tris c, 3 < ring.length → c < ring.length →
      isConvex vertices ring c = true → hasTradEar ext vertices ring = true →
      P ring tris → P (ring.eraseIdx c) (tris ++ [triAt ring c]) := by
    intro ring tris c hlen hc _ _ ⟨hs, hb, _, hsum, htris⟩
    obtain ⟨hpl, hnl, hcyc⟩ := cycLt_ear (by omega : 3 ≤ ring.length) hc
    refine ⟨hs.eraseIdx c, fun x hx => hb x (List.mem_of_mem_eraseIdx hx), ?_, ?_, ?_⟩
    · rw [List.length_eraseIdx_of_lt hc]
      omega
    · rw [List.length_eraseIdx_of_lt hc, List.length_append]
      simp only [List.length_cons, List.length_nil]
      omega
    · intro t ht
      rcases List.mem_append.mp ht with h1 | h1
      · exact htris t h1
      · rw [List.mem_singleton] at h1
        rw [h1]
        exact ⟨sorted_cycLt hs hcyc hpl hc hnl, hb _ (getD_mem_of_lt hpl),
          hb _ (getD_mem_of_lt hc), hb _ (getD_mem_of_lt hnl)⟩
  have h0 : P (List.range vertices.length) [] :=
    ⟨List.pairwise_lt_range _, fun x hx => List.mem_range.mp hx, by simpa using hn,
      by simp, fun t ht => absurd ht (List.not_mem_nil t)⟩
  obtain ⟨r, hr⟩ := whileLoop_initState_total ext vertices vertices.length
  have hw := hr 0
  rw [Nat.add_zero] at hw
  obtain ⟨s, ok⟩ := r
  cases ok with
  | false =>
    obtain ⟨j, sl, _, hlen, hear, ⟨hs, hb, _, _, _⟩, _, _⟩ :=
      whileLoop_failure ext vertices vertices.length hpos P hP h0 _ s hw
    have h1 := hasTradEar_of ext vertices sl.activeVerts 0 (by omega)
      (isTradEar_of_convex ext vertices sl.activeVerts 0 hconv hext hs hb (by omega) (by omega))
    rw [hear] at h1
    exact absurd h1 (by simp)
  | true =>
    obtain ⟨⟨hs, hb, h3, hsum, htris⟩, hle⟩ :=
      whileLoop_success ext vertices vertices.length hpos P hP h0 _ s hw
    have hlen3 : s.activeVerts.length = 3 := by omega
    have hft : finalTris s = s.tris ++
        [⟨s.activeVerts.getD 0 0, s.activeVerts.getD 1 0, s.activeVerts.getD 2 0⟩] := by
      simp only [finalTris, hlen3, if_true]
    refine ⟨finalTris s, ?_, ?_, ?_⟩
    · rw [tessellateGeometry_unindexed ext geom vertices hv hne hp hidx, hw]
    · rw [hft, List.length_append]
      simp only [List.length_cons, List.length_nil]
      omega
    · intro t ht
      have hpos_of : ∀ t : TriIndices, CycLt t.a t.b t.c ∧ t.a < vertices.length ∧
          t.b < vertices.length ∧ t.c < vertices.length → 0 < triArea vertices t := by
        rintro t ⟨hc, ha, hb', hc'⟩
        unfold triArea
        have := hconv.cross_pos hc ha hb' hc'
        unfold vertexAt at this
        linarith
      rw [hft] at ht
      rcases List.mem_append.mp ht with h1 | h1
      · exact hpos_of t (htris t h1)
      · rw [List.mem_singleton] at h1
        rw [h1]
        apply hpos_of
        exact ⟨Or.inl ⟨sorted_getD_lt hs (by omega) (by omega),
            sorted_getD_lt hs (by omega) (by omega)⟩,
          hb _ (getD_mem_of_lt (by omega)), hb _ (getD_mem_of_lt (by omega)),
          hb _ (getD_mem_of_lt (by omega))⟩

theorem tessellateGeometry_convex_witness :
    ∃ tris, tessellateGeometry sampleExt (polygonGeometry pentagonCCW) =
        some (true, { polygonGeometry pentagonCCW with
          primitiveSets := [PrimitiveSet.drawElementsUInt TRIANGLES (triElements tris)] }) ∧
      tris.length = pentagonCCW.length - 2 ∧
      ∀ t ∈ tris, 0 < triArea pentagonCCW t :=
  tessellateGeometry_convex sampleExt (polygonGeometry pentagonCCW) pentagonCCW rfl
    (by decide) (by decide) (by decide) (by decide!) sampleExt_containsOnlyInside

/-! ## Failure of the tessellation -/

theorem tessellateGeometry_total (ext : Externals K) (geom : Geometry K) :
    ∃ ok g', tessellateGeometry ext geom = some (ok, g') := by
  unfold tessellateGeometry
  cases hv : geom.vertexArray with
  | none => exact ⟨_, _, rfl⟩
  | some vertices =>
    simp only []
    split
    · exact ⟨_, _, rfl⟩
    · split
      · exact ⟨_, _, rfl⟩
      · split
        · exact ⟨_, _, rfl⟩
        · obtain ⟨r, hr⟩ := whileLoop_initState_total ext vertices vertices.length
          have hw := hr 0
          rw [Nat.add_zero] at hw
          rw [hw]
          obtain ⟨s, ok⟩ := r
          cases ok
          · exact ⟨_, _, rfl⟩
          · exact ⟨_, _, rfl⟩

/-- Reaching a ring of more than three indices without traditional ear makes the loop
fail. -/
theorem whileLoop_fails_of_earless (ext : Externals K) (vertices : List (Vec3 K)) (n : Nat)
    (hn : 0 < n) (j : Nat) (s : LoopState)
    (hj : loopIter ext vertices j (initState n) = some s) (hlen : 3 < s.activeVerts.length)
    (hear : hasTradEar ext vertices s.activeVerts = false) :
    ∃ s', whileLoop ext vertices (loopFuel n) (initState n) = some (s', false) := by
  obtain ⟨⟨k, hinv⟩, _⟩ := initState_run_invariant ext vertices n hn (fun _ _ => True)
    (fun _ _ _ _ _ _ _ _ => trivial) trivial j s hj
  have hk := hinv.1
  obtain ⟨jj, sj, r, _, hiter, hring, _, _, _, hb, hout, _⟩ :=
    sweep_completes ext vertices (s.activeVerts.length - k - 1) s k hinv hlen (by omega)
  rcases hout with ⟨_, c, _, _, _, h1⟩ | ⟨hok, _⟩
  · rw [hear] at h1
    exact absurd h1 (by simp)
  · obtain ⟨s1, ok⟩ := r
    simp only at hok
    subst hok
    have hlen' : sj.activeVerts.length > 3 := by rw [hring]; exact hlen
    have h1 : whileLoop ext vertices 1 sj = some (s1, false) := by
      simp only [whileLoop, hlen', if_true, hb]
    have h2 : whileLoop ext vertices (j + (jj + 1)) (initState n) = some (s1, false) := by
      rw [loopIter_whileLoop ext vertices j _ s hj, loopIter_whileLoop ext vertices jj _ sj hiter]
      exact h1
    obtain ⟨r0, hr0⟩ := whileLoop_initState_total ext vertices n
    have h3 := whileLoop_mono ext vertices _ _ _ h2 (loopFuel n)
    have h4 := hr0 (j + (jj + 1))
    rw [Nat.add_comm] at h4
    rw [h3] at h4
    have h5 := hr0 0
    rw [Nat.add_zero, ← h4] at h5
    exact ⟨s1, h5⟩

/-- C10 (amended): for an unindexed input with `n > 3` vertices (and a primitive set),
`tessellateGeometry` always returns, and it fails if and only if the loop reaches a ring of
more than three indices (a state on which the loop body runs) that has no traditional ear,
that is no position that is convex and whose triangle `(prev, cursor, next)` holds none of
the other ring vertices according to `contains2D`.  Equivalently: from every reached ring
of more than three indices that has such a position, after fewer further cursor advances
than the ring has indices (ring and triangles untouched), an iteration clips an ear. -/
theorem tessellateGeometry_fails_iff (ext : Externals K) (geom : Geometry K)
    (vertices : List (Vec3 K)) (hv : geom.vertexArray = some vertices)
    (hn : 3 < vertices.length) (hp : geom.primitiveSets ≠ [])
    (hidx : geom.usesIndices = false) :
    (∃ ok g', tessellateGeometry ext geom = some (ok, g')) ∧
    (tessellateGeometry ext geom = some (false, geom) ↔
      ∃ j s, loopIter ext vertices j (initState vertices.length) = some s ∧
        3 < s.activeVerts.length ∧ hasTradEar ext vertices s.activeVerts = false) ∧
    (∀ j s, loopIter ext vertices j (initState vertices.length) = some s →
      3 < s.activeVerts.length → hasTradEar ext vertices s.activeVerts = true →
      ∃ i si c, i < s.activeVerts.length ∧
        loopIter ext vertices (j + i) (initState vertices.length) = some si ∧
        si.activeVerts = s.activeVerts ∧ si.tris = s.tris ∧ c < s.activeVerts.length ∧
        loopBody ext vertices si = some (clipEar si c, true)) := by
  have hpos : 0 < vertices.length := by omega
  have hne : vertices ≠ [] := by
    intro h0
    rw [h0] at hpos
    simp at hpos
  refine ⟨tessellateGeometry_total ext geom, ⟨?_, ?_⟩, ?_⟩
  · intro h
    rw [tessellateGeometry_unindexed ext geom vertices hv hne hp hidx] at h
    split at h
    · simp at h
    · simp at h
    · rename_i s' hw
      obtain ⟨j, sl, hj, hlen, hear, _⟩ := whileLoop_failure ext vertices vertices.length hpos
        (fun _ _ => True) (fun _ _ _ _ _ _ _ _ => trivial) trivial _ s' hw
      exact ⟨j, sl, hj, hlen, hear⟩
  · rintro ⟨j, s, hj, hlen, hear⟩
    obtain ⟨s', hw⟩ := whileLoop_fails_of_earless ext vertices vertices.length hpos j s hj
      hlen hear
    rw [tessellateGeometry_unindexed ext geom vertices hv hne hp hidx, hw]
  · intro j s hj hlen hear
    obtain ⟨⟨k, hinv⟩, _⟩ := initState_run_invariant ext vertices vertices.length hpos
      (fun _ _ => True) (fun _ _ _ _ _ _ _ _ => trivial) trivial j s hj
    have hk := hinv.1
    obtain ⟨jj, sj, r, hjj, hiter, hring, htris, _, _, hb, hout, _⟩ :=
      sweep_completes ext vertices (s.activeVerts.length - k - 1) s k hinv hlen (by omega)
    rcases hout with ⟨hok, c, hc, hr, _, _⟩ | ⟨_, _, _, _, h1⟩
    · refine ⟨jj, sj, c, by omega, ?_, hring, htris, hc, ?_⟩
      · rw [loopIter_add ext vertices j _ s hj]
        exact hiter
      · obtain ⟨s1, ok⟩ := r
        simp only at hok hr
        rw [hb, hok, hr]
    · rw [hear] at h1
      exact absurd h1 (by simp)

/-- C10 fails when the last ring of three indices counts as a ring reached during the run:
on the clockwise dart the call succeeds, although the ring `1 2 3` left after the only clip
is clockwise and so has no traditional ear. -/
theorem tessellateGeometry_succeeds_earless_last_ring :
    tessellateGeometry sampleExt (polygonGeometry dartCW) =
      some (true, { polygonGeometry dartCW with
        primitiveSets := [PrimitiveSet.drawElementsUInt TRIANGLES [3, 0, 1, 1, 2, 3]] }) ∧
    (loopIter sampleExt dartCW 1 (initState dartCW.length)).map LoopState.activeVerts =
      some [1, 2, 3] ∧
    hasTradEar sampleExt dartCW [1, 2, 3] = false ∧
    ¬ (tessellateGeometry sampleExt (polygonGeometry dartCW) =
        some (false, polygonGeometry dartCW) ↔
      ∃ j s, loopIter sampleExt dartCW j (initState dartCW.length) = some s ∧
        hasTradEar sampleExt dartCW s.activeVerts = false) := by
  have h1 : tessellateGeometry sampleExt (polygonGeometry dartCW) =
      some (true, { polygonGeometry dartCW with
        primitiveSets := [PrimitiveSet.drawElementsUInt TRIANGLES [3, 0, 1, 1, 2, 3]] }) := by
    decide!
  have h2 : loopIter sampleExt dartCW 1 (initState dartCW.length) =
      some ⟨[1, 2, 3], [⟨3, 0, 1⟩], 0, 0, none⟩ := by decide!
  have h3 : hasTradEar sampleExt dartCW [1, 2, 3] = false := by decide!
  refine ⟨h1, by rw [h2]; rfl, h3, ?_⟩
  intro hiff
  have hfail := hiff.mpr ⟨1, _, h2, h3⟩
  rw [h1] at hfail
  simp at hfail

theorem tessellateGeometry_fails_iff_witness :
    (∃ ok g', tessellateGeometry sampleExt (polygonGeometry dentedCW) = some (ok, g')) ∧
    (tessellateGeometry sampleExt (polygonGeometry dentedCW) =
        some (false, polygonGeometry dentedCW) ↔
      ∃ j s, loopIter sampleExt dentedCW j (initState dentedCW.length) = some s ∧
        3 < s.activeVerts.length ∧ hasTradEar sampleExt dentedCW s.activeVerts = false) ∧
    (∀ j s, loopIter sampleExt dentedCW j (initState dentedCW.length) = some s →
      3 < s.activeVerts.length → hasTradEar sampleExt dentedCW s.activeVerts = true →
      ∃ i si c, i < s.activeVerts.length ∧
        loopIter sampleExt dentedCW (j + i) (initState dentedCW.length) = some si ∧
        si.activeVerts = s.activeVerts ∧ si.tris = s.tris ∧ c < s.activeVerts.length ∧
        loopBody sampleExt dentedCW si = some (clipEar si c, true)) :=
  tessellateGeometry_fails_iff sampleExt (polygonGeometry dentedCW) dentedCW rfl
    (by decide) (by decide) (by decide)

/-! ## Termination and shape of a run -/

/-- The state after `j + 1` iterations comes from the state after `j` iterations by one
execution of the loop body that stays in the loop. -/
theorem loopIter_prev (ext : Externals K) (vertices : List (Vec3 K)) :
    ∀ (j : Nat) (s s' : LoopState), loopIter ext vertices (j + 1) s = some s' →
      ∃ sj, loopIter ext vertices j s = some sj ∧ 3 < sj.activeVerts.length ∧
        loopBody ext vertices sj = some (s', true)
  | 0, s, s', h => by
    rw [loopIter] at h
    split at h
    · rename_i hlen
      cases hb : loopBody ext vertices s with
      | none => rw [hb] at h; simp at h
      | some r =>
        obtain ⟨s1, ok⟩ := r
        rw [hb] at h
        cases ok with
        | true =>
          simp only [loopIter, Option.some.injEq] at h
          exact ⟨s, rfl, hlen, by rw [← h]; exact hb⟩
        | false => simp at h
    · simp at h
  | j + 1, s, s', h => by
    rw [loopIter] at h
    split at h
    · rename_i hlen
      cases hb : loopBody ext vertices s with
      | none => rw [hb] at h; simp at h
      | some r =>
        obtain ⟨s1, ok⟩ := r
        rw [hb] at h
        cases ok with
        | true =>
          obtain ⟨sj, hj, hl, hbj⟩ := loopIter_prev ext vertices j s1 s' h
          refine ⟨sj, ?_, hl, hbj⟩
          simp [loopIter, hlen, hb, hj]
        | false => simp at h
    · simp at h

/-- Every state of a run lies in a sweep: `k` iterations earlier the run was in a state
with the cursor at `cursor_start` and no recorded traditional ear, and ring, triangles and
`cursor_start` have not changed since. -/
theorem run_sweep_origin (ext : Externals K) (vertices : List (Vec3 K)) (n : Nat) (hn : 0 < n) :
    ∀ (j : Nat) (sj : LoopState), loopIter ext vertices j (initState n) = some sj →
      ∃ k s0, k ≤ j ∧ loopIter ext vertices (j - k) (initState n) = some s0 ∧
        s0.cursor = s0.cursor_start ∧ s0.tradCursor = none ∧
        SweepInv ext vertices sj k ∧ SweepInv ext vertices s0 0 ∧
        sj.activeVerts = s0.activeVerts ∧ sj.tris = s0.tris ∧
        sj.cursor_start = s0.cursor_start
  | 0, sj, h => by
    simp only [loopIter, Option.some.injEq] at h
    rw [← h]
    exact ⟨0, initState n, le_refl _, rfl, rfl, rfl, initState_sweepInv ext vertices n hn,
      initState_sweepInv ext vertices n hn, rfl, rfl, rfl⟩
  | j + 1, s', h => by
    obtain ⟨sj, hj, hlen, hb⟩ := loopIter_prev ext vertices j _ s' h
    obtain ⟨k, s0, hk, h0, hc0, ht0, hinv, hinv0, hr, htr, hcs⟩ :=
      run_sweep_origin ext vertices n hn j sj hj
    obtain ⟨r, hb', hout⟩ := loopBody_step ext vertices sj k hinv hlen
    rw [hb] at hb'
    simp only [Option.some.injEq] at hb'
    rw [← hb'] at hout
    rcases hout with ⟨_, c, hc, hs', _, _⟩ | ⟨_, hr', ht', hcs', _, hinv'⟩ | ⟨hok, _⟩
    · simp only at hs'
      have hinv1 : SweepInv ext vertices s' 0 := by
        rw [hs']
        exact clipEar_sweepInv ext vertices sj c hc (by omega)
      refine ⟨0, s', Nat.zero_le _, h, ?_, ?_, hinv1, hinv1, rfl, rfl, rfl⟩
      · rw [hs']
        rfl
      · rw [hs']
        rfl
    · simp only at hr' ht' hcs' hinv'
      refine ⟨k + 1, s0, by omega, ?_, hc0, ht0, hinv', hinv0, hr'.trans hr, ht'.trans htr,
        hcs'.trans hcs⟩
      have e : j + 1 - (k + 1) = j - k := by omega
      rw [e]
      exact h0
    · exact absurd hok (by simp)

/-- C9: for every input the ear-clipping loop terminates, with the fuel
`tessellateGeometry` provides (`n * n + 1` tests of the loop condition) or more.  A
successful run has made exactly `n - 3` clips.  A failed run ends with a full sweep: from
a state with the cursor at `cursor_start` and no recorded ear, exactly ring-size iterations
follow, none of which clips (ring and triangles stay, the cursor is one position further
each time, visiting every position), and then the loop is over.  Every iteration either
clips an ear (the ring shrinks by one, one triangle is pushed, the sweep restarts), or
advances the cursor by one position away from `cursor_start`, or advances it back onto
`cursor_start` and fails. -/
theorem whileLoop_terminates_run (ext : Externals K) (vertices : List (Vec3 K)) :
    ∃ s ok,
      (∀ d, whileLoop ext vertices (loopFuel vertices.length + d)
        (initState vertices.length) = some (s, ok)) ∧
      (ok = true → s.tris.length = vertices.length - 3 ∧
        s.activeVerts.length = min vertices.length 3) ∧
      (ok = false → ∃ j0 s0,
        loopIter ext vertices j0 (initState vertices.length) = some s0 ∧
        3 < s0.activeVerts.length ∧ s0.cursor = s0.cursor_start ∧ s0.tradCursor = none ∧
        (∀ i, i < s0.activeVerts.length → ∃ si,
          loopIter ext vertices (j0 + i) (initState vertices.length) = some si ∧
          si.activeVerts = s0.activeVerts ∧ si.tris = s0.tris ∧
          si.cursor = cyc s0.activeVerts.length (s0.cursor_start + i)) ∧
        loopIter ext vertices (j0 + s0.activeVerts.length) (initState vertices.length) =
          none ∧
        s.activeVerts = s0.activeVerts ∧ s.tris = s0.tris) ∧
      (∀ j sj, loopIter ext vertices j (initState vertices.length) = some sj →
        3 < sj.activeVerts.length →
        ∃ s' ok', loopBody ext vertices sj = some (s', ok') ∧
          ((ok' = true ∧ s'.activeVerts.length + 1 = sj.activeVerts.length ∧
              s'.tris.length = sj.tris.length + 1 ∧ s'.cursor_start = s'.cursor ∧
              s'.tradCursor = none) ∨
           (ok' = true ∧ s'.activeVerts = sj.activeVerts ∧ s'.tris = sj.tris ∧
              s'.cursor_start = sj.cursor_start ∧
              s'.cursor = (if sj.cursor + 1 ≥ sj.activeVerts.length then 0
                else sj.cursor + 1) ∧
              s'.cursor ≠ sj.cursor_start) ∨
           (ok' = false ∧ s'.activeVerts = sj.activeVerts ∧ s'.tris = sj.tris ∧
              (if sj.cursor + 1 ≥ sj.activeVerts.length then 0 else sj.cursor + 1) =
                sj.cursor_start))) := by
  rcases Nat.eq_zero_or_pos vertices.length with h0 | hpos
  · refine ⟨initState vertices.length, true, fun d => ?_, fun _ => ?_, fun h => ?_, ?_⟩
    · have e : loopFuel vertices.length + d = (vertices.length * vertices.length + d) + 1 := by
        unfold loopFuel
        omega
      rw [e]
      exact whileLoop_small ext vertices _ _ (by simp [initState, h0])
    · simp [initState, h0]
    · exact absurd h (by simp)
    · intro j sj hj hlen
      cases j with
      | zero =>
        simp only [loopIter, Option.some.injEq] at hj
        rw [← hj] at hlen
        simp [initState, h0] at hlen
      | succ j =>
        simp [loopIter, initState, h0] at hj
  · obtain ⟨r, hr⟩ := whileLoop_initState_total ext vertices vertices.length
    obtain ⟨s, ok⟩ := r
    have hw := hr 0
    rw [Nat.add_zero] at hw
    refine ⟨s, ok, hr, ?_, ?_, ?_⟩
    · intro hok
      subst hok
      obtain ⟨⟨hsum, h3⟩, hle⟩ := whileLoop_success ext vertices vertices.length hpos
        (fun ring tris => ring.length + tris.length = vertices.length ∧
          min vertices.length 3 ≤ ring.length)
        (by
          intro ring tris c hlen hc _ _ hp
          rw [List.length_eraseIdx_of_lt hc, List.length_append]
          simp only [List.length_cons, List.length_nil]
          omega)
        (by simp) _ s hw
      omega
    · intro hok
      subst hok
      obtain ⟨jl, sl, hjl, hres⟩ := whileLoop_result ext vertices _ _ s false hw
      rcases hres with ⟨hf, _⟩ | ⟨_, hlen, hb⟩
      · exact absurd hf (by simp)
      · obtain ⟨k, s0, hk, h0, hc0, ht0, hinv, hinv0, hring, htris, hcs⟩ :=
          run_sweep_origin ext vertices vertices.length hpos jl sl hjl
        obtain ⟨r', hb', hout⟩ := loopBody_step ext vertices sl k hinv hlen
        rw [hb] at hb'
        simp only [Option.some.injEq] at hb'
        rw [← hb'] at hout
        rcases hout with ⟨hok, _⟩ | ⟨hok, _⟩ | ⟨_, hr1, ht1, hkl, hear⟩
        · exact absurd hok (by simp)
        · exact absurd hok (by simp)
        · simp only at hr1 ht1
          have hlen0 : 3 < s0.activeVerts.length := by rw [← hring]; exact hlen
          obtain ⟨jj, sjj, r2, hjj, hiter, _, _, _, _, _, hout2, hmid⟩ :=
            sweep_completes ext vertices (s0.activeVerts.length - 0 - 1) s0 0 hinv0 hlen0
              (by omega)
          have hjjk : jj + 1 = s0.activeVerts.length := by
            rcases hout2 with ⟨_, _, _, _, _, h1⟩ | ⟨_, _, _, h1, _⟩
            · rw [← hring, hear] at h1
              exact absurd h1 (by simp)
            · omega
          have hjl0 : jl = (jl - k) + k := by omega
          have hkeq : k + 1 = s0.activeVerts.length := by rw [← hring]; exact hkl
          refine ⟨jl - k, s0, h0, hlen0, hc0, ht0, ?_, ?_, hr1.trans hring, ht1.trans htris⟩
          · intro i hi
            obtain ⟨si, hsi, ha, hb2, hc2⟩ := hmid i (by omega)
            refine ⟨si, ?_, ha, hb2, ?_⟩
            · rw [loopIter_add ext vertices (jl - k) _ s0 h0]
              exact hsi
            · rw [hc2, Nat.zero_add]
          · have e : jl - k + s0.activeVerts.length = jl + 1 := by omega
            rw [e, loopIter_add ext vertices jl _ sl hjl]
            simp [loopIter, hlen, hb]
    · intro j sj hj hlen
      obtain ⟨⟨k, hinv⟩, _⟩ := initState_run_invariant ext vertices vertices.length hpos
        (fun _ _ => True) (fun _ _ _ _ _ _ _ _ => trivial) trivial j sj hj
      obtain ⟨r, hb, hout⟩ := loopBody_step ext vertices sj k hinv hlen
      obtain ⟨s', ok'⟩ := r
      refine ⟨s', ok', hb, ?_⟩
      obtain ⟨hk, hcs, hcur, _, _⟩ := hinv
      rcases hout with ⟨hok, c, hc, hs', _, _⟩ | ⟨hok, hr', ht', hcs', hlt, hinv'⟩ |
        ⟨hok, hr', ht', hkl, _⟩
      · left
        simp only at hok hs'
        have hl := clipEar_length sj c hc
        rw [← hs'] at hl
        refine ⟨hok, hl, ?_, ?_, ?_⟩
        · rw [hs', clipEar_tris, List.length_append]
          rfl
        · rw [hs']
          rfl
        · rw [hs']
          rfl
      · right; left
        simp only at hok hr' ht' hcs' hinv'
        have hcur' := hinv'.2.2.1
        rw [hr', hcs'] at hcur'
        refine ⟨hok, hr', ht', hcs', ?_, ?_⟩
        · rw [hcur', hcur]
          unfold cyc
          split_ifs <;> omega
        · rw [hcur']
          unfold cyc
          split_ifs <;> omega
      · right; right
        simp only at hok hr' ht'
        refine ⟨hok, hr', ht', ?_⟩
        rw [hcur]
        unfold cyc
        split_ifs <;> omega

/-! ## Repeated calls -/

/-- C14: calling `tessellateGeometry` again on the geometry a successful call produced (same
vertex ring, the primitive sets now being the triangle list) succeeds and produces the very
same geometry, hence the same triangle list and the same triangle count. -/
theorem tessellateGeometry_idempotent (ext : Externals K) (geom g' : Geometry K)
    (h : tessellateGeometry ext geom = some (true, g')) :
    tessellateGeometry ext g' = some (true, g') := by
  cases hv : geom.vertexArray with
  | none =>
    unfold tessellateGeometry at h
    simp [hv] at h
  | some vertices =>
    obtain ⟨hne, _, hidx, s, hw, hg⟩ :=
      tessellateGeometry_success_inv ext geom g' vertices hv h
    have hv' : g'.vertexArray = some vertices := by rw [hg]; exact hv
    have hp' : g'.primitiveSets ≠ [] := by rw [hg]; simp
    have hidx' : g'.usesIndices = false := by rw [hg]; exact hidx
    rw [tessellateGeometry_unindexed ext g' vertices hv' hne hp' hidx', hw]
    simp only [Option.some.injEq, Prod.mk.injEq, true_and]
    rw [hg]

theorem tessellateGeometry_idempotent_witness :
    tessellateGeometry sampleExt
      { polygonGeometry squareCCW with
        primitiveSets := [PrimitiveSet.drawElementsUInt TRIANGLES [3, 0, 1, 1, 2, 3]] } =
      some (true, { polygonGeometry squareCCW with
        primitiveSets := [PrimitiveSet.drawElementsUInt TRIANGLES [3, 0, 1, 1, 2, 3]] }) :=
  tessellateGeometry_idempotent sampleExt (polygonGeometry squareCCW) _ (by decide!)

/-! ## Verdicts of `isEar` -/

/-- C17: for every ring of at least three indices and every ring position `c`, `isEar`
entered with `tradEar` false returns, sets `tradEar` to true if and only if no scanned
vertex is reported by `contains2D` to be in the triangle `(prev, c, next)`, and returns
true if and only if, in addition, no scanned vertex is within the closed circumcircle
according to `point_in_circle`.  The verdict on the triangle does not depend on circle
hits: the scan goes on after one.  The scanned positions are the ring positions other than
`prev`, `c` and `next`. -/
theorem isEar_verdicts (ext : Externals K) (vertices : List (Vec3 K)) (ring : List Nat)
    (c : Nat) (hlen : 3 ≤ ring.length) (hc : c < ring.length) :
    ∃ r t, isEar ext vertices ring c false = some (r, t) ∧
      (t = true ↔ ∀ j ∈ scanOrder ring.length (ring.length - 3)
          (nextPos ring.length (nextPos ring.length c)),
        inEarTriangle ext vertices ring c j = false) ∧
      (r = true ↔
        (∀ j ∈ scanOrder ring.length (ring.length - 3)
            (nextPos ring.length (nextPos ring.length c)),
          inEarTriangle ext vertices ring c j = false) ∧
        (∀ j ∈ scanOrder ring.length (ring.length - 3)
            (nextPos ring.length (nextPos ring.length c)),
          inEarCircle ext vertices ring c j = false)) ∧
      (∀ j, j ∈ scanOrder ring.length (ring.length - 3)
          (nextPos ring.length (nextPos ring.length c)) ↔
        j < ring.length ∧ j ≠ prevPos ring.length c ∧ j ≠ c ∧ j ≠ nextPos ring.length c) := by
  have hmem := fun j => mem_scanOrder_isEar hlen hc j
  have htf : triangleFree ext vertices ring c = true ↔
      ∀ j ∈ scanOrder ring.length (ring.length - 3)
        (nextPos ring.length (nextPos ring.length c)),
        inEarTriangle ext vertices ring c j = false := by
    unfold triangleFree
    rw [List.all_eq_true]
    constructor
    · intro h j hj
      simpa using h j ((hmem j).mp hj)
    · intro h j hj
      simpa using h j ((hmem j).mpr hj)
  have hcf : circleFree ext vertices ring c = true ↔
      ∀ j ∈ scanOrder ring.length (ring.length - 3)
        (nextPos ring.length (nextPos ring.length c)),
        inEarCircle ext vertices ring c j = false := by
    unfold circleFree
    rw [List.all_eq_true]
    constructor
    · intro h j hj
      simpa using h j ((hmem j).mp hj)
    · intro h j hj
      simpa using h j ((hmem j).mpr hj)
  have he : isEar ext vertices ring c false =
      some (triangleFree ext vertices ring c && circleFree ext vertices ring c,
        triangleFree ext vertices ring c) := by
    rw [isEar_eq ext vertices ring c false hlen hc]
    cases triangleFree ext vertices ring c <;> simp
  refine ⟨_, _, he, htf, ?_, ?_⟩
  · rw [← htf, ← hcf, Bool.and_eq_true]
  · intro j
    rw [hmem j]
    unfold otherPositions
    rw [List.mem_filter, List.mem_range]
    simp


theorem isEar_verdicts_witness :
    ∃ r t, isEar sampleExt squareCCW [0, 1, 2, 3] 0 false = some (r, t) ∧
      (t = true ↔ ∀ j ∈ scanOrder [0, 1, 2, 3].length ([0, 1, 2, 3].length - 3)
          (nextPos [0, 1, 2, 3].length (nextPos [0, 1, 2, 3].length 0)),
        inEarTriangle sampleExt squareCCW [0, 1, 2, 3] 0 j = false) ∧
      (r = true ↔
        (∀ j ∈ scanOrder [0, 1, 2, 3].length ([0, 1, 2, 3].length - 3)
            (nextPos [0, 1, 2, 3].length (nextPos [0, 1, 2, 3].length 0)),
          inEarTriangle sampleExt squareCCW [0, 1, 2, 3] 0 j = false) ∧
        (∀ j ∈ scanOrder [0, 1, 2, 3].length ([0, 1, 2, 3].length - 3)
            (nextPos [0, 1, 2, 3].length (nextPos [0, 1, 2, 3].length 0)),
          inEarCircle sampleExt squareCCW [0, 1, 2, 3] 0 j = false)) ∧
      (∀ j, j ∈ scanOrder [0, 1, 2, 3].length ([0, 1, 2, 3].length - 3)
          (nextPos [0, 1, 2, 3].length (nextPos [0, 1, 2, 3].length 0)) ↔
        j < [0, 1, 2, 3].length ∧ j ≠ prevPos [0, 1, 2, 3].length 0 ∧ j ≠ 0 ∧
          j ≠ nextPos [0, 1, 2, 3].length 0) :=
  isEar_verdicts sampleExt squareCCW [0, 1, 2, 3] 0 (by decide) (by decide)

theorem scanOrder_length (len : Nat) : ∀ (m nn : Nat), (scanOrder len m nn).length = m
  | 0, _ => rfl
  | m + 1, nn => by
    rw [scanOrder, List.length_cons, scanOrder_length len m]

/-- C20 fails as stated: for a ring of 4 or 5 indices the scan of `isEar` is never empty
(the loop condition `nextNext != prev` holds on entry for every cursor), and a convex
candidate is not automatically an ear: on the dart `(0,3), (-2,-1), (0,0), (2,-1)` the tip
at position 0 is convex and `isEar` returns false, leaving `tradEar` false, because the
reflex vertex is in the triangle of the tip; so in exact and in machine arithmetic. -/
theorem isEar_scan_nonempty_small_rings :
    (¬ ∃ len c : Nat, (len = 4 ∨ len = 5) ∧ nextPos len (nextPos len c) = prevPos len c) ∧
    isConvex (dartCCW : List (Vec3 ℚ)) [0, 1, 2, 3] 0 = true ∧
    isEar sampleExt dartCCW [0, 1, 2, 3] 0 false = some (false, false) ∧
    isConvex_fp ieeeRounding dartCCW [0, 1, 2, 3] 0 = true ∧
    isEar_fp ieeeRounding machineExt dartCCW [0, 1, 2, 3] 0 false = some (false, false) := by
  refine ⟨?_, by decide!, by decide!, by decide!, by decide!⟩
  rintro ⟨len, c, hlen, h⟩
  unfold nextPos prevPos at h
  split_ifs at h <;> omega

/-- C20 (amended): for a ring of at least three indices and a ring position `c`, the scan of
`isEar` covers exactly `size - 3` positions.  It is empty only for a ring of three indices,
where `isEar` returns true with `tradEar` set; for a ring of 4 or 5 indices it covers 1 or
2 positions, and `isEar` returns true only if none of them is reported in the triangle or
within the circumcircle. -/
theorem isEar_scan_size (ext : Externals K) (vertices : List (Vec3 K)) (ring : List Nat)
    (c : Nat) (hlen : 3 ≤ ring.length) (hc : c < ring.length) :
    (scanOrder ring.length (ring.length - 3)
      (nextPos ring.length (nextPos ring.length c))).length = ring.length - 3 ∧
    (scanOrder ring.length (ring.length - 3)
      (nextPos ring.length (nextPos ring.length c)) = [] ↔ ring.length = 3) ∧
    (ring.length = 3 → isEar ext vertices ring c false = some (true, true)) ∧
    (ring.length = 4 ∨ ring.length = 5 →
      scanOrder ring.length (ring.length - 3)
        (nextPos ring.length (nextPos ring.length c)) ≠ [] ∧
      isEar ext vertices ring c false =
        some (triangleFree ext vertices ring c && circleFree ext vertices ring c,
          triangleFree ext vertices ring c)) := by
  have hl := scanOrder_length ring.length (ring.length - 3)
    (nextPos ring.length (nextPos ring.length c))
  have he : isEar ext vertices ring c false =
      some (triangleFree ext vertices ring c && circleFree ext vertices ring c,
        triangleFree ext vertices ring c) := by
    rw [isEar_eq ext vertices ring c false hlen hc]
    cases triangleFree ext vertices ring c <;> simp
  have hnil : scanOrder ring.length (ring.length - 3)
      (nextPos ring.length (nextPos ring.length c)) = [] ↔ ring.length = 3 := by
    rw [← List.length_eq_zero, hl]
    omega
  refine ⟨hl, hnil, ?_, ?_⟩
  · intro h3
    have hother : otherPositions ring.length c = [] := by
      apply List.eq_nil_iff_forall_not_mem.mpr
      intro j hj
      rw [← mem_scanOrder_isEar hlen hc j, hnil.mpr h3] at hj
      exact absurd hj (List.not_mem_nil j)
    rw [he]
    simp [triangleFree, circleFree, hother]
  · intro h45
    refine ⟨?_, he⟩
    intro h0
    have := hnil.mp h0
    omega

theorem isEar_scan_size_witness :
    (scanOrder [0, 1, 2, 3].length ([0, 1, 2, 3].length - 3)
      (nextPos [0, 1, 2, 3].length (nextPos [0, 1, 2, 3].length 0))).length =
        [0, 1, 2, 3].length - 3 ∧
    (scanOrder [0, 1, 2, 3].length ([0, 1, 2, 3].length - 3)
      (nextPos [0, 1, 2, 3].length (nextPos [0, 1, 2, 3].length 0)) = [] ↔
        [0, 1, 2, 3].length = 3) ∧
    ([0, 1, 2, 3].length = 3 →
      isEar sampleExt squareCCW [0, 1, 2, 3] 0 false = some (true, true)) ∧
    ([0, 1, 2, 3].length = 4 ∨ [0, 1, 2, 3].length = 5 →
      scanOrder [0, 1, 2, 3].length ([0, 1, 2, 3].length - 3)
        (nextPos [0, 1, 2, 3].length (nextPos [0, 1, 2, 3].length 0)) ≠ [] ∧
      isEar sampleExt squareCCW [0, 1, 2, 3] 0 false =
        some (triangleFree sampleExt squareCCW [0, 1, 2, 3] 0 &&
            circleFree sampleExt squareCCW [0, 1, 2, 3] 0,
          triangleFree sampleExt squareCCW [0, 1, 2, 3] 0)) :=
  isEar_scan_size sampleExt squareCCW [0, 1, 2, 3] 0 (by decide) (by decide)

/-! ## Convexity of the clipped ears -/

theorem eraseIdx_inj_of_sorted {l : List Nat} (h : l.Pairwise (· < ·)) {c c' : Nat}
    (hc : c < l.length) (hc' : c' < l.length) (he : l.eraseIdx c = l.eraseIdx c') :
    c = c' := by
  have key : ∀ a b : Nat, a < b → b < l.length → l.eraseIdx a ≠ l.eraseIdx b := by
    intro a b hab hb heq
    have h1 : (l.eraseIdx a)[a]? = l[a + 1]? := List.getElem?_eraseIdx_of_ge l a a (le_refl _)
    have h2 : (l.eraseIdx b)[a]? = l[a]? := List.getElem?_eraseIdx_of_lt l b a hab
    rw [heq, h2] at h1
    rw [List.getElem?_eq_getElem (by omega), List.getElem?_eq_getElem (by omega)] at h1
    simp only [Option.some.injEq] at h1
    have := (List.pairwise_iff_getElem.mp h) a (a + 1) (by omega) (by omega) (by omega)
    omega
  rcases Nat.lt_trichotomy c c' with h1 | h1 | h1
  · exact absurd he (key c c' h1 hc')
  · exact h1
  · exact absurd he.symm (key c' c h1 hc)

/-- C15: every triangle `(prev, cursor, next)` clipped inside the loop, on the strict path or
through the fallback, has strictly positive signed value `(B - A) x (C - A)` when it is
clipped: the triangle list of every state of a run holds only such triangles, every
iteration that changes the ring clips at a convex position, and no iteration removes the
entry of a position that is reflex or collinear in the current ring.  The last triangle of
the three remaining indices has no such guarantee: on the clockwise dart the call succeeds
and its last triangle `1 2 3` has negative area. -/
theorem clipped_ears_convex (ext : Externals K) (vertices : List (Vec3 K)) :
    (∀ j sj, loopIter ext vertices j (initState vertices.length) = some sj →
      (∀ t ∈ sj.tris, 0 < cross2D (vertexAt vertices t.a) (vertexAt vertices t.b)
        (vertexAt vertices t.c)) ∧
      (3 < sj.activeVerts.length → ∀ s' ok, loopBody ext vertices sj = some (s', ok) →
        s'.activeVerts ≠ sj.activeVerts →
        ∃ c, c < sj.activeVerts.length ∧ s' = clipEar sj c ∧
          isConvex vertices sj.activeVerts c = true ∧
          0 < cross2D (vertexAt vertices (triAt sj.activeVerts c).a)
            (vertexAt vertices (triAt sj.activeVerts c).b)
            (vertexAt vertices (triAt sj.activeVerts c).c)) ∧
      (3 < sj.activeVerts.length → ∀ s' ok c, loopBody ext vertices sj = some (s', ok) →
        c < sj.activeVerts.length → isConvex vertices sj.activeVerts c = false →
        s'.activeVerts ≠ sj.activeVerts.eraseIdx c)) ∧
    (tessellateGeometry sampleExt (polygonGeometry dartCW) =
        some (true, { polygonGeometry dartCW with
          primitiveSets := [PrimitiveSet.drawElementsUInt TRIANGLES [3, 0, 1, 1, 2, 3]] }) ∧
      triArea dartCW ⟨1, 2, 3⟩ < 0) := by
  refine ⟨?_, by decide!, by decide!⟩
  intro j sj hj
  rcases Nat.eq_zero_or_pos vertices.length with h0 | hpos
  · have hs : sj = initState vertices.length := by
      cases j with
      | zero =>
        simp only [loopIter, Option.some.injEq] at hj
        exact hj.symm
      | succ j => simp [loopIter, initState, h0] at hj
    rw [hs]
    refine ⟨fun t ht => absurd ht (by simp [initState]), ?_, ?_⟩
    · intro hlen
      simp [initState, h0] at hlen
    · intro hlen
      simp [initState, h0] at hlen
  · obtain ⟨⟨k, hinv⟩, hpos_tris, hsorted⟩ :=
      initState_run_invariant ext vertices vertices.length hpos
        (fun ring tris =>
          (∀ t ∈ tris, 0 < cross2D (vertexAt vertices t.a) (vertexAt vertices t.b)
            (vertexAt vertices t.c)) ∧ ring.Pairwise (· < ·))
        (by
          intro ring tris c _ _ hconv _ hp
          refine ⟨fun t ht => ?_, hp.2.eraseIdx c⟩
          rcases List.mem_append.mp ht with h1 | h1
          · exact hp.1 t h1
          · rw [List.mem_singleton] at h1
            rw [h1]
            rw [isConvex_eq_cross, decide_eq_true_eq] at hconv
            exact hconv)
        ⟨fun t ht => absurd ht (List.not_mem_nil t), List.pairwise_lt_range _⟩ j sj hj
    refine ⟨hpos_tris, ?_, ?_⟩
    · intro hlen s' ok hb hne
      obtain ⟨r, hb', hout⟩ := loopBody_step ext vertices sj k hinv hlen
      rw [hb] at hb'
      simp only [Option.some.injEq] at hb'
      rw [← hb'] at hout
      rcases hout with ⟨_, c, hc, hs', hconv, _⟩ | ⟨_, hr, _⟩ | ⟨_, hr, _⟩
      · refine ⟨c, hc, hs', hconv, ?_⟩
        rw [isConvex_eq_cross, decide_eq_true_eq] at hconv
        exact hconv
      · exact absurd hr hne
      · exact absurd hr hne
    · intro hlen s' ok c hb hc hnc heq
      obtain ⟨r, hb', hout⟩ := loopBody_step ext vertices sj k hinv hlen
      rw [hb] at hb'
      simp only [Option.some.injEq] at hb'
      rw [← hb'] at hout
      have hlen_erase : (sj.activeVerts.eraseIdx c).length + 1 = sj.activeVerts.length := by
        rw [List.length_eraseIdx_of_lt hc]
        omega
      rcases hout with ⟨_, c0, hc0, hs', hconv, _⟩ | ⟨_, hr, _⟩ | ⟨_, hr, _⟩
      · simp only at hs'
        rw [hs', clipEar_activeVerts] at heq
        have := eraseIdx_inj_of_sorted hsorted hc0 hc heq
        rw [this, hnc] at hconv
        exact absurd hconv (by simp)
      · simp only at hr
        have hl := congrArg List.length (hr.symm.trans heq)
        omega
      · simp only at hr
        have hl := congrArg List.length (hr.symm.trans heq)
        omega


/-! ## The circumcircle -/

theorem compute_circumcircle_of_ne (sqrt : K → K) (a b c : Vec3 K)
    (hD : circumDet a b c ≠ 0) :
    compute_circumcircle sqrt a b c =
      ⟨(((a.x - c.x) * (a.x + c.x) + (a.y - c.y) * (a.y + c.y)) / 2 * (b.y - c.y) -
         ((b.x - c.x) * (b.x + c.x) + (b.y - c.y) * (b.y + c.y)) / 2 * (a.y - c.y)) /
          circumDet a b c,
       (((b.x - c.x) * (b.x + c.x) + (b.y - c.y) * (b.y + c.y)) / 2 * (a.x - c.x) -
         ((a.x - c.x) * (a.x + c.x) + (a.y - c.y) * (a.y + c.y)) / 2 * (b.x - c.x)) /
          circumDet a b c,
       sqrt (sqDist c (compute_circumcircle sqrt a b c))⟩ := by
  unfold circumDet at hD
  simp only [compute_circumcircle, hD, if_false, sqDist, circumDet]

theorem circum_equidistant (sqrt : K → K) (a b c : Vec3 K) (hD : circumDet a b c ≠ 0) :
    sqDist a (compute_circumcircle sqrt a b c) = sqDist c (compute_circumcircle sqrt a b c) ∧
    sqDist b (compute_circumcircle sqrt a b c) = sqDist c (compute_circumcircle sqrt a b c) := by
  have h := compute_circumcircle_of_ne sqrt a b c hD
  have hx := congrArg Vec3.x h
  have hy := congrArg Vec3.y h
  simp only at hx hy
  unfold sqDist
  rw [hx, hy]
  unfold circumDet at hD ⊢
  constructor
  · field_simp
    ring
  · field_simp
    ring

theorem circumDet_eq_cross (a b c : Vec3 K) : circumDet a b c = cross2D a b c := by
  unfold circumDet cross2D
  ring

theorem sqDist_nonneg (p o : Vec3 K) : 0 ≤ sqDist p o := by
  unfold sqDist
  nlinarith [mul_self_nonneg (p.x - o.x), mul_self_nonneg (p.y - o.y)]

theorem circum_radius (sqrt : K → K) (hs : SqrtExact sqrt) (a b c : Vec3 K)
    (hD : circumDet a b c ≠ 0) :
    0 ≤ (compute_circumcircle sqrt a b c).z ∧
    (compute_circumcircle sqrt a b c).z * (compute_circumcircle sqrt a b c).z =
      sqDist c (compute_circumcircle sqrt a b c) := by
  have h := compute_circumcircle_of_ne sqrt a b c hD
  have hz := congrArg Vec3.z h
  simp only at hz
  rw [hz]
  exact hs _ (sqDist_nonneg _ _)

theorem point_in_circle_iff (p o : Vec3 K) :
    point_in_circle p o = true ↔ sqDist p o ≤ o.z * o.z := by
  unfold point_in_circle sqDist
  simp only [decide_eq_true_eq]

/-- Power of a point of the triangle: with `o` equidistant from `a`, `b` and `c`. -/
theorem triangle_power_identity (a b c p o : Vec3 K)
    (h1 : sqDist a o = sqDist c o) (h2 : sqDist b o = sqDist c o) :
    cross2D a b c * cross2D a b c * (sqDist c o - sqDist p o) =
      cross2D b c p * cross2D c a p * sqDist a b +
      cross2D c a p * cross2D a b p * sqDist b c +
      cross2D a b p * cross2D b c p * sqDist c a := by
  unfold sqDist cross2D at *
  linear_combination
    (-(((b.x - a.x) * (c.y - a.y) - (b.y - a.y) * (c.x - a.x)) *
      ((c.x - b.x) * (p.y - b.y) - (c.y - b.y) * (p.x - b.x)))) * h1 +
    (-(((b.x - a.x) * (c.y - a.y) - (b.y - a.y) * (c.x - a.x)) *
      ((a.x - c.x) * (p.y - c.y) - (a.y - c.y) * (p.x - c.x)))) * h2

/-- With an exact square root, every point of a closed counter-clockwise triangle is within
the circle `compute_circumcircle` returns for it. -/
theorem point_in_circle_of_in_triangle (sqrt : K → K) (hs : SqrtExact sqrt)
    (a b c p : Vec3 K) (hpos : 0 < cross2D a b c) (h1 : 0 ≤ cross2D a b p)
    (h2 : 0 ≤ cross2D b c p) (h3 : 0 ≤ cross2D c a p) :
    point_in_circle p (compute_circumcircle sqrt a b c) = true := by
  have hD : circumDet a b c ≠ 0 := by
    rw [circumDet_eq_cross]
    exact ne_of_gt hpos
  obtain ⟨e1, e2⟩ := circum_equidistant sqrt a b c hD
  obtain ⟨_, hz⟩ := circum_radius sqrt hs a b c hD
  have hid := triangle_power_identity a b c p (compute_circumcircle sqrt a b c) e1 e2
  rw [point_in_circle_iff, hz]
  have hrhs : 0 ≤ cross2D b c p * cross2D c a p * sqDist a b +
      cross2D c a p * cross2D a b p * sqDist b c +
      cross2D a b p * cross2D b c p * sqDist c a := by
    have := sqDist_nonneg a b
    have := sqDist_nonneg b c
    have := sqDist_nonneg c a
    positivity
  have hsq : 0 < cross2D a b c * cross2D a b c := mul_pos hpos hpos
  by_contra hlt
  push_neg at hlt
  have : cross2D a b c * cross2D a b c *
      (sqDist c (compute_circumcircle sqrt a b c) -
        sqDist p (compute_circumcircle sqrt a b c)) < 0 :=
    mul_neg_of_pos_of_neg hsq (by linarith)
  linarith


/-- In exact arithmetic: for three points that are not collinear in x/y (`D ≠ 0`) and an
exact square root, `compute_circumcircle` returns `(Cx, Cy, r)` with the centre equidistant from `a`, `b` and
`c`, and `r` the non-negative radius: `r * r` is that common squared distance.  So
`point_in_circle p circle` holds exactly when the squared distance from `p` to the centre is
at most `r * r`, and it holds for `a`, `b` and `c`. -/
theorem compute_circumcircle_exact (sqrt : K → K) (hs : SqrtExact sqrt) (a b c : Vec3 K)
    (hD : circumDet a b c ≠ 0) :
    sqDist a (compute_circumcircle sqrt a b c) = sqDist c (compute_circumcircle sqrt a b c) ∧
    sqDist b (compute_circumcircle sqrt a b c) = sqDist c (compute_circumcircle sqrt a b c) ∧
    0 ≤ (compute_circumcircle sqrt a b c).z ∧
    (compute_circumcircle sqrt a b c).z * (compute_circumcircle sqrt a b c).z =
      sqDist c (compute_circumcircle sqrt a b c) ∧
    (∀ p, point_in_circle p (compute_circumcircle sqrt a b c) = true ↔
      sqDist p (compute_circumcircle sqrt a b c) ≤
        (compute_circumcircle sqrt a b c).z * (compute_circumcircle sqrt a b c).z) ∧
    point_in_circle a (compute_circumcircle sqrt a b c) = true ∧
    point_in_circle b (compute_circumcircle sqrt a b c) = true ∧
    point_in_circle c (compute_circumcircle sqrt a b c) = true := by
  obtain ⟨e1, e2⟩ := circum_equidistant sqrt a b c hD
  obtain ⟨hz0, hz⟩ := circum_radius sqrt hs a b c hD
  refine ⟨e1, e2, hz0, hz, fun p => point_in_circle_iff p _, ?_, ?_, ?_⟩
  · rw [point_in_circle_iff, hz, e1]
  · rw [point_in_circle_iff, hz, e2]
  · rw [point_in_circle_iff, hz]

theorem sqrtExact_real : SqrtExact Real.sqrt :=
  fun x hx => ⟨Real.sqrt_nonneg x, Real.mul_self_sqrt hx⟩

theorem compute_circumcircle_exact_real :
    sqDist (cornerA : Vec3 ℝ) (compute_circumcircle Real.sqrt cornerA cornerB cornerC) =
      sqDist cornerC (compute_circumcircle Real.sqrt cornerA cornerB cornerC) ∧
    sqDist (cornerB : Vec3 ℝ) (compute_circumcircle Real.sqrt cornerA cornerB cornerC) =
      sqDist cornerC (compute_circumcircle Real.sqrt cornerA cornerB cornerC) ∧
    0 ≤ (compute_circumcircle Real.sqrt (cornerA : Vec3 ℝ) cornerB cornerC).z ∧
    (compute_circumcircle Real.sqrt (cornerA : Vec3 ℝ) cornerB cornerC).z *
        (compute_circumcircle Real.sqrt (cornerA : Vec3 ℝ) cornerB cornerC).z =
      sqDist cornerC (compute_circumcircle Real.sqrt cornerA cornerB cornerC) ∧
    (∀ p : Vec3 ℝ, point_in_circle p (compute_circumcircle Real.sqrt cornerA cornerB cornerC) =
        true ↔
      sqDist p (compute_circumcircle Real.sqrt cornerA cornerB cornerC) ≤
        (compute_circumcircle Real.sqrt (cornerA : Vec3 ℝ) cornerB cornerC).z *
          (compute_circumcircle Real.sqrt (cornerA : Vec3 ℝ) cornerB cornerC).z) ∧
    point_in_circle (cornerA : Vec3 ℝ)
      (compute_circumcircle Real.sqrt cornerA cornerB cornerC) = true ∧
    point_in_circle (cornerB : Vec3 ℝ)
      (compute_circumcircle Real.sqrt cornerA cornerB cornerC) = true ∧
    point_in_circle (cornerC : Vec3 ℝ)
      (compute_circumcircle Real.sqrt cornerA cornerB cornerC) = true :=
  compute_circumcircle_exact Real.sqrt sqrtExact_real cornerA cornerB cornerC
    (by norm_num [circumDet, cornerA, cornerB, cornerC])

/-! ## Genuine ears -/

theorem exactExt_containsOnlyInside (sqrt : K → K) : ContainsOnlyInside (exactExt sqrt) := by
  intro a b c x y h
  unfold inClosedTriangle at h
  simp only [exactExt, closedTriangleTest]
  rw [Bool.eq_false_iff]
  intro hc
  apply h
  simp only [Bool.or_eq_true, Bool.and_eq_true, decide_eq_true_eq] at hc
  rcases hc with ⟨⟨h1, h2⟩, h3⟩ | ⟨⟨h1, h2⟩, h3⟩
  · exact Or.inl ⟨h1, h2, h3⟩
  · exact Or.inr ⟨h1, h2, h3⟩

theorem cross2D_sum (a b c p : Vec3 K) :
    cross2D a b p + cross2D b c p + cross2D c a p = cross2D a b c := by
  unfold cross2D
  ring

/-- With an exact square root, a vertex in the closed triangle of a convex candidate is
within the circumcircle of the candidate. -/
theorem inEarCircle_of_inClosedTriangle (ext : Externals K) (hs : SqrtExact ext.sqrt)
    (vertices : List (Vec3 K)) (ring : List Nat) (c j : Nat)
    (hconv : isConvex vertices ring c = true)
    (h : inClosedTriangle (ringVertex vertices ring (prevPos ring.length c))
      (ringVertex vertices ring c) (ringVertex vertices ring (nextPos ring.length c))
      (ringVertex vertices ring j).x (ringVertex vertices ring j).y) :
    inEarCircle ext vertices ring c j = true := by
  rw [isConvex_eq_cross, decide_eq_true_eq] at hconv
  have hpos : 0 < cross2D (ringVertex vertices ring (prevPos ring.length c))
      (ringVertex vertices ring c) (ringVertex vertices ring (nextPos ring.length c)) := hconv
  have hsum := cross2D_sum (ringVertex vertices ring (prevPos ring.length c))
    (ringVertex vertices ring c) (ringVertex vertices ring (nextPos ring.length c))
    (ringVertex vertices ring j)
  unfold inClosedTriangle at h
  rw [cross2D_xy, cross2D_xy, cross2D_xy] at h
  unfold inEarCircle
  rcases h with ⟨h1, h2, h3⟩ | ⟨h1, h2, h3⟩
  · exact point_in_circle_of_in_triangle ext.sqrt hs _ _ _ _ hpos h1 h2 h3
  · linarith

theorem firstTradEar_none (ext : Externals K) (vertices : List (Vec3 K)) (s : LoopState) :
    ∀ m, (∀ i, i < m → isTradEar ext vertices s.activeVerts (sweepPos s i) = false) →
      firstTradEar ext vertices s m = none
  | 0, _ => rfl
  | m + 1, h => by
    rw [firstTradEar, firstTradEar_none ext vertices s m (fun i hi => h i (by omega)),
      h m (by omega)]
    simp

theorem firstTradEar_some (ext : Externals K) (vertices : List (Vec3 K)) (s : LoopState)
    (i : Nat) (hfirst : ∀ i', i' < i →
      isTradEar ext vertices s.activeVerts (sweepPos s i') = false)
    (hi : isTradEar ext vertices s.activeVerts (sweepPos s i) = true) :
    ∀ m, i < m → firstTradEar ext vertices s m = some (sweepPos s i)
  | 0, h => by omega
  | m + 1, h => by
    rw [firstTradEar]
    rcases Nat.lt_succ_iff_lt_or_eq.mp h with h1 | h1
    · rw [firstTradEar_some ext vertices s i hfirst hi m h1]
    · rw [← h1, firstTradEar_none ext vertices s i hfirst, hi]
      simp

theorem sweepState_zero (ext : Externals K) (vertices : List (Vec3 K)) (s : LoopState)
    (h : SweepStart s) : sweepState ext vertices s 0 = s := by
  obtain ⟨h1, h2, h3⟩ := h
  cases s
  simp only [sweepState, sweepPos, firstTradEar, cyc] at *
  subst h1 h3
  simp only [Nat.add_zero, h2, if_true]

/-- The body of the loop at a position of the sweep that is not a strict ear: the cursor
advances, with the first traditional ear met so far recorded. -/
theorem loopBody_sweepState (ext : Externals K) (vertices : List (Vec3 K)) (s : LoopState)
    (m : Nat) (hlen : 3 < s.activeVerts.length) (hcs : s.cursor_start < s.activeVerts.length)
    (hm : m < s.activeVerts.length)
    (hns : isStrictEar ext vertices s.activeVerts (sweepPos s m) = false) :
    loopBody ext vertices (sweepState ext vertices s m) =
      some (advanceCursor (sweepState ext vertices s m)
        (firstTradEar ext vertices s (m + 1))) := by
  have hpos : sweepPos s m < s.activeVerts.length := by
    unfold sweepPos cyc
    split <;> omega
  rw [loopBody_eq ext vertices _ (by simpa [sweepState] using (by omega : 3 ≤ s.activeVerts.length))
    (by simpa [sweepState] using hpos)]
  have e1 : (sweepState ext vertices s m).activeVerts = s.activeVerts := rfl
  have e2 : (sweepState ext vertices s m).cursor = sweepPos s m := rfl
  have e3 : (sweepState ext vertices s m).tradCursor = firstTradEar ext vertices s m := rfl
  rw [e1, e2, e3]
  unfold isStrictEar at hns
  have hft : firstTradEar ext vertices s (m + 1) =
      match firstTradEar ext vertices s m with
      | some t => some t
      | none =>
        if isTradEar ext vertices s.activeVerts (sweepPos s m) then some (sweepPos s m)
        else none := rfl
  rw [hft]
  unfold isTradEar
  cases hconv : isConvex vertices s.activeVerts (sweepPos s m) <;>
    cases hcf : circleFree ext vertices s.activeVerts (sweepPos s m) <;>
    cases htf : triangleFree ext vertices s.activeVerts (sweepPos s m) <;>
    cases htc : firstTradEar ext vertices s m <;>
    simp_all

theorem advanceCursor_sweepState (ext : Externals K) (vertices : List (Vec3 K))
    (s : LoopState) (m : Nat) (hcs : s.cursor_start < s.activeVerts.length)
    (hm : m + 1 < s.activeVerts.length) :
    advanceCursor (sweepState ext vertices s m) (firstTradEar ext vertices s (m + 1)) =
      (sweepState ext vertices s (m + 1), true) := by
  have hne : ¬ sweepPos s (m + 1) = s.cursor_start := by
    unfold sweepPos cyc
    split_ifs <;> omega
  have hnext : (if sweepPos s m + 1 ≥ s.activeVerts.length then 0 else sweepPos s m + 1) =
      sweepPos s (m + 1) := by
    unfold sweepPos cyc
    split_ifs <;> omega
  simp only [advanceCursor, sweepState, hnext, hne, if_false]

/-- As long as no position is a strict ear, a sweep only advances. -/
theorem loopIter_sweepState (ext : Externals K) (vertices : List (Vec3 K)) (s : LoopState)
    (hstart : SweepStart s) (hlen : 3 < s.activeVerts.length) :
    ∀ m, m < s.activeVerts.length →
      (∀ i, i < m → isStrictEar ext vertices s.activeVerts (sweepPos s i) = false) →
      loopIter ext vertices m s = some (sweepState ext vertices s m)
  | 0, _, _ => by
    rw [sweepState_zero ext vertices s hstart]
    rfl
  | m + 1, hm, hns => by
    have ih := loopIter_sweepState ext vertices s hstart hlen m (by omega)
      (fun i hi => hns i (by omega))
    have hb := loopBody_sweepState ext vertices s m hlen hstart.2.1 (by omega)
      (hns m (by omega))
    rw [advanceCursor_sweepState ext vertices s m hstart.2.1 hm] at hb
    exact loopIter_succ_of ext vertices m s _ _ ih hlen hb

theorem advanceCursor_sweepState_last (ext : Externals K) (vertices : List (Vec3 K))
    (s : LoopState) (m : Nat) (hcs : s.cursor_start < s.activeVerts.length)
    (hm : m + 1 = s.activeVerts.length) (t : Nat)
    (ht : firstTradEar ext vertices s (m + 1) = some t) :
    advanceCursor (sweepState ext vertices s m) (firstTradEar ext vertices s (m + 1)) =
      (clipEar (sweepState ext vertices s m) t, true) := by
  have hback : (if sweepPos s m + 1 ≥ s.activeVerts.length then 0 else sweepPos s m + 1) =
      s.cursor_start := by
    unfold sweepPos cyc
    split_ifs <;> omega
  simp only [advanceCursor, sweepState, hback, if_true, ht]

/-- The first strict ear of a sweep is clipped, provided it passes the triangle test. -/
theorem sweep_clips_strict (ext : Externals K) (vertices : List (Vec3 K)) (s : LoopState)
    (hstart : SweepStart s) (hlen : 3 < s.activeVerts.length) (i : Nat)
    (hi : i < s.activeVerts.length)
    (hfirst : ∀ i', i' < i → isStrictEar ext vertices s.activeVerts (sweepPos s i') = false)
    (hstrict : isStrictEar ext vertices s.activeVerts (sweepPos s i) = true)
    (htf : triangleFree ext vertices s.activeVerts (sweepPos s i) = true) :
    loopIter ext vertices i s = some (sweepState ext vertices s i) ∧
    loopBody ext vertices (sweepState ext vertices s i) =
      some (clipEar (sweepState ext vertices s i) (sweepPos s i), true) := by
  refine ⟨loopIter_sweepState ext vertices s hstart hlen i hi hfirst, ?_⟩
  have hpos : sweepPos s i < s.activeVerts.length := by
    have := hstart.2.1
    unfold sweepPos cyc
    split <;> omega
  rw [loopBody_eq ext vertices _
    (by simpa [sweepState] using (by omega : 3 ≤ s.activeVerts.length))
    (by simpa [sweepState] using hpos)]
  have e1 : (sweepState ext vertices s i).activeVerts = s.activeVerts := rfl
  have e2 : (sweepState ext vertices s i).cursor = sweepPos s i := rfl
  rw [e1, e2]
  unfold isStrictEar at hstrict
  rw [Bool.and_eq_true] at hstrict
  rw [hstrict.1, hstrict.2, htf]
  simp

/-- When no position is a strict ear, the sweep goes once around and then clips the first
traditional ear it met. -/
theorem sweep_clips_fallback (ext : Externals K) (vertices : List (Vec3 K)) (s : LoopState)
    (hstart : SweepStart s) (hlen : 3 < s.activeVerts.length)
    (hns : ∀ i, i < s.activeVerts.length →
      isStrictEar ext vertices s.activeVerts (sweepPos s i) = false)
    (t : Nat) (ht : firstTradEar ext vertices s s.activeVerts.length = some t) :
    loopIter ext vertices (s.activeVerts.length - 1) s =
      some (sweepState ext vertices s (s.activeVerts.length - 1)) ∧
    loopBody ext vertices (sweepState ext vertices s (s.activeVerts.length - 1)) =
      some (clipEar (sweepState ext vertices s (s.activeVerts.length - 1)) t, true) := by
  obtain ⟨m, hm⟩ : ∃ m, s.activeVerts.length = m + 1 := ⟨s.activeVerts.length - 1, by omega⟩
  have e : s.activeVerts.length - 1 = m := by omega
  rw [e]
  refine ⟨loopIter_sweepState ext vertices s hstart hlen m (by omega)
    (fun i hi => hns i (by omega)), ?_⟩
  rw [loopBody_sweepState ext vertices s m hlen hstart.2.1 (by omega) (hns m (by omega))]
  rw [hm] at ht
  rw [advanceCursor_sweepState_last ext vertices s m hstart.2.1 hm.symm t ht]

theorem circum_center (sqrt : K → K) (a b c : Vec3 K) (hD : circumDet a b c ≠ 0) :
    (compute_circumcircle sqrt a b c).x =
      (((a.x - c.x) * (a.x + c.x) + (a.y - c.y) * (a.y + c.y)) / 2 * (b.y - c.y) -
         ((b.x - c.x) * (b.x + c.x) + (b.y - c.y) * (b.y + c.y)) / 2 * (a.y - c.y)) /
          circumDet a b c ∧
    (compute_circumcircle sqrt a b c).y =
      (((b.x - c.x) * (b.x + c.x) + (b.y - c.y) * (b.y + c.y)) / 2 * (a.x - c.x) -
         ((a.x - c.x) * (a.x + c.x) + (a.y - c.y) * (a.y + c.y)) / 2 * (b.x - c.x)) /
          circumDet a b c := by
  have h := compute_circumcircle_of_ne sqrt a b c hD
  exact ⟨congrArg Vec3.x h, congrArg Vec3.y h⟩

/-- With an exact square root, `point_in_circle` against the circumcircle compares squared
distances to the centre. -/
theorem point_in_circumcircle_iff (sqrt : K → K) (hs : SqrtExact sqrt) (a b c p : Vec3 K)
    (hD : circumDet a b c ≠ 0) :
    point_in_circle p (compute_circumcircle sqrt a b c) = true ↔
      sqDist p (compute_circumcircle sqrt a b c) ≤ sqDist c (compute_circumcircle sqrt a b c) := by
  rw [point_in_circle_iff, (circum_radius sqrt hs a b c hD).2]

theorem otherPositions_four :
    otherPositions 4 0 = [2] ∧ otherPositions 4 1 = [3] ∧ otherPositions 4 2 = [0] ∧
      otherPositions 4 3 = [1] := by decide

theorem whileLoop_step (ext : Externals K) (vertices : List (Vec3 K)) (f : Nat)
    (s s' : LoopState) (hlen : 3 < s.activeVerts.length)
    (hb : loopBody ext vertices s = some (s', true)) :
    whileLoop ext vertices (f + 1) s = whileLoop ext vertices f s' := by
  have h : s.activeVerts.length > 3 := hlen
  simp only [whileLoop, h, if_true, hb]

theorem triangleFree_of_circleFree (ext : Externals K) (hs : SqrtExact ext.sqrt)
    (ho : ContainsOnlyInside ext) (vertices : List (Vec3 K)) (ring : List Nat) (c : Nat)
    (hconv : isConvex vertices ring c = true)
    (hcf : circleFree ext vertices ring c = true) :
    triangleFree ext vertices ring c = true := by
  unfold circleFree at hcf
  unfold triangleFree
  rw [List.all_eq_true] at hcf ⊢
  intro j hj
  have h1 := hcf j hj
  rw [Bool.not_eq_true'] at h1 ⊢
  by_contra hne
  have hin : inClosedTriangle (ringVertex vertices ring (prevPos ring.length c))
      (ringVertex vertices ring c) (ringVertex vertices ring (nextPos ring.length c))
      (ringVertex vertices ring j).x (ringVertex vertices ring j).y := by
    by_contra hout
    exact hne (ho _ _ _ _ _ hout)
  rw [inEarCircle_of_inClosedTriangle ext hs vertices ring c j hconv hin] at h1
  exact absurd h1 (by simp)

theorem clipEar_sweepStart (s : LoopState) (c : Nat) (hc : c < s.activeVerts.length)
    (hlen : 1 < s.activeVerts.length) :
    (clipEar s c).cursor = (if c + 1 = s.activeVerts.length then 0 else c) ∧
    SweepStart (clipEar s c) := by
  have hl := clipEar_length s c hc
  have hcur : (clipEar s c).cursor = (if c + 1 = s.activeVerts.length then 0 else c) := by
    show (if c ≥ (s.activeVerts.eraseIdx c).length then 0 else c) = _
    rw [← clipEar_activeVerts]
    split_ifs <;> omega
  refine ⟨hcur, rfl, ?_, rfl⟩
  show (clipEar s c).cursor < _
  rw [hcur]
  split_ifs <;> omega

/-- In exact arithmetic: ear selection in one sweep, with an exact square root and a
`contains2D` that is false outside the closed triangle.  From a state at the start of a sweep (the initial state
and every state after a clip are such states), going through the ring positions in order
from `cursor_start`: the loop clips the first position that is convex and has no other ring
vertex within its circumcircle, after pure advances up to it; if no position of the ring is
such a strict ear, the sweep goes once around and the last iteration clips the first
position in sweep order that is a traditional ear.  A clip erases the ring entry, leaves
the cursor on the same position (0 if that is past the end), sets `cursor_start` to it and
clears the fallback record. -/
theorem ear_selection_order_exact (ext : Externals K) (vertices : List (Vec3 K))
    (hs : SqrtExact ext.sqrt) (ho : ContainsOnlyInside ext) (s : LoopState)
    (hstart : SweepStart s) (hlen : 3 < s.activeVerts.length) :
    (∀ i, i < s.activeVerts.length →
      isStrictEar ext vertices s.activeVerts (sweepPos s i) = true →
      (∀ i', i' < i → isStrictEar ext vertices s.activeVerts (sweepPos s i') = false) →
      ∃ si, loopIter ext vertices i s = some si ∧ si.activeVerts = s.activeVerts ∧
        si.tris = s.tris ∧ si.cursor = sweepPos s i ∧
        loopBody ext vertices si = some (clipEar si (sweepPos s i), true)) ∧
    ((∀ i, i < s.activeVerts.length →
        isStrictEar ext vertices s.activeVerts (sweepPos s i) = false) →
      ∀ i, i < s.activeVerts.length →
      isTradEar ext vertices s.activeVerts (sweepPos s i) = true →
      (∀ i', i' < i → isTradEar ext vertices s.activeVerts (sweepPos s i') = false) →
      ∃ sl, loopIter ext vertices (s.activeVerts.length - 1) s = some sl ∧
        sl.activeVerts = s.activeVerts ∧ sl.tris = s.tris ∧
        sl.cursor = sweepPos s (s.activeVerts.length - 1) ∧
        loopBody ext vertices sl = some (clipEar sl (sweepPos s i), true)) ∧
    (∀ (st : LoopState) (c : Nat), c < st.activeVerts.length → 1 < st.activeVerts.length →
      (clipEar st c).activeVerts = st.activeVerts.eraseIdx c ∧
      (clipEar st c).cursor = (if c + 1 = st.activeVerts.length then 0 else c) ∧
      (clipEar st c).cursor_start = (clipEar st c).cursor ∧
      (clipEar st c).tradCursor = none ∧ SweepStart (clipEar st c)) ∧
    (0 < vertices.length → SweepStart (initState vertices.length)) := by
  refine ⟨?_, ?_, ?_, ?_⟩
  · intro i hi hstrict hfirst
    have hse := hstrict
    unfold isStrictEar at hse
    rw [Bool.and_eq_true] at hse
    have htf := triangleFree_of_circleFree ext hs ho vertices _ _ hse.1 hse.2
    obtain ⟨h1, h2⟩ := sweep_clips_strict ext vertices s hstart hlen i hi hfirst hstrict htf
    exact ⟨_, h1, rfl, rfl, rfl, h2⟩
  · intro hns i hi hear hfirst
    have ht := firstTradEar_some ext vertices s i hfirst hear s.activeVerts.length hi
    obtain ⟨h1, h2⟩ := sweep_clips_fallback ext vertices s hstart hlen hns _ ht
    exact ⟨_, h1, rfl, rfl, rfl, h2⟩
  · intro st c hc h1
    obtain ⟨h2, h3⟩ := clipEar_sweepStart st c hc h1
    exact ⟨rfl, h2, rfl, rfl, h3⟩
  · intro hpos
    exact ⟨rfl, by simpa [initState] using hpos, rfl⟩


theorem ear_selection_order_exact_real :
    (∀ i, i < (initState 4).activeVerts.length →
      isStrictEar (exactExt Real.sqrt) unitSquare (initState 4).activeVerts
        (sweepPos (initState 4) i) = true →
      (∀ i', i' < i → isStrictEar (exactExt Real.sqrt) unitSquare (initState 4).activeVerts
        (sweepPos (initState 4) i') = false) →
      ∃ si, loopIter (exactExt Real.sqrt) unitSquare i (initState 4) = some si ∧
        si.activeVerts = (initState 4).activeVerts ∧
        si.tris = (initState 4).tris ∧ si.cursor = sweepPos (initState 4) i ∧
        loopBody (exactExt Real.sqrt) unitSquare si =
          some (clipEar si (sweepPos (initState 4) i), true)) ∧
    ((∀ i, i < (initState 4).activeVerts.length →
        isStrictEar (exactExt Real.sqrt) unitSquare (initState 4).activeVerts
          (sweepPos (initState 4) i) = false) →
      ∀ i, i < (initState 4).activeVerts.length →
      isTradEar (exactExt Real.sqrt) unitSquare (initState 4).activeVerts
        (sweepPos (initState 4) i) = true →
      (∀ i', i' < i → isTradEar (exactExt Real.sqrt) unitSquare (initState 4).activeVerts
        (sweepPos (initState 4) i') = false) →
      ∃ sl, loopIter (exactExt Real.sqrt) unitSquare ((initState 4).activeVerts.length - 1)
          (initState 4) = some sl ∧
        sl.activeVerts = (initState 4).activeVerts ∧ sl.tris = (initState 4).tris ∧
        sl.cursor = sweepPos (initState 4) ((initState 4).activeVerts.length - 1) ∧
        loopBody (exactExt Real.sqrt) unitSquare sl =
          some (clipEar sl (sweepPos (initState 4) i), true)) ∧
    (∀ (st : LoopState) (c : Nat), c < st.activeVerts.length → 1 < st.activeVerts.length →
      (clipEar st c).activeVerts = st.activeVerts.eraseIdx c ∧
      (clipEar st c).cursor = (if c + 1 = st.activeVerts.length then 0 else c) ∧
      (clipEar st c).cursor_start = (clipEar st c).cursor ∧
      (clipEar st c).tradCursor = none ∧ SweepStart (clipEar st c)) ∧
    (0 < (unitSquare : List (Vec3 ℝ)).length →
      SweepStart (initState (unitSquare : List (Vec3 ℝ)).length)) :=
  ear_selection_order_exact (exactExt Real.sqrt) unitSquare sqrtExact_real
    (exactExt_containsOnlyInside Real.sqrt) (initState 4) ⟨rfl, by decide, rfl⟩ (by decide)

/-! ## The square and the dart -/

/-- Circle verdict for a ring of four indices: the only other position. -/
theorem circleFree_four (ext : Externals K) (vertices : List (Vec3 K)) (c j : Nat)
    (hother : otherPositions 4 c = [j]) :
    circleFree ext vertices [0, 1, 2, 3] c = !inEarCircle ext vertices [0, 1, 2, 3] c j := by
  have h4 : [0, 1, 2, 3].length = 4 := rfl
  simp [circleFree, h4, hother]

theorem triangleFree_four (ext : Externals K) (vertices : List (Vec3 K)) (c j : Nat)
    (hother : otherPositions 4 c = [j]) :
    triangleFree ext vertices [0, 1, 2, 3] c =
      !inEarTriangle ext vertices [0, 1, 2, 3] c j := by
  have h4 : [0, 1, 2, 3].length = 4 := rfl
  simp [triangleFree, h4, hother]

/-- With an exact square root, the circle verdict on a convex candidate compares squared
distances to the circumcentre. -/
theorem inEarCircle_iff (ext : Externals K) (hs : SqrtExact ext.sqrt)
    (vertices : List (Vec3 K)) (ring : List Nat) (c j : Nat)
    (hD : circumDet (ringVertex vertices ring (prevPos ring.length c))
      (ringVertex vertices ring c) (ringVertex vertices ring (nextPos ring.length c)) ≠ 0) :
    inEarCircle ext vertices ring c j = true ↔
      sqDist (ringVertex vertices ring j)
        (compute_circumcircle ext.sqrt (ringVertex vertices ring (prevPos ring.length c))
          (ringVertex vertices ring c) (ringVertex vertices ring (nextPos ring.length c))) ≤
      sqDist (ringVertex vertices ring (nextPos ring.length c))
        (compute_circumcircle ext.sqrt (ringVertex vertices ring (prevPos ring.length c))
          (ringVertex vertices ring c) (ringVertex vertices ring (nextPos ring.length c))) := by
  unfold inEarCircle
  exact point_in_circumcircle_iff ext.sqrt hs _ _ _ _ hD

theorem unitSquare_circle (ext : Externals K) (hs : SqrtExact ext.sqrt) :
    circleFree ext unitSquare [0, 1, 2, 3] 0 = false ∧
    circleFree ext unitSquare [0, 1, 2, 3] 1 = false ∧
    circleFree ext unitSquare [0, 1, 2, 3] 2 = false ∧
    circleFree ext unitSquare [0, 1, 2, 3] 3 = false := by
  obtain ⟨o0, o1, o2, o3⟩ := otherPositions_four
  refine ⟨?_, ?_, ?_, ?_⟩
  · have hD : circumDet (ringVertex (unitSquare : List (Vec3 K)) [0, 1, 2, 3]
        (prevPos [0, 1, 2, 3].length 0)) (ringVertex unitSquare [0, 1, 2, 3] 0)
        (ringVertex unitSquare [0, 1, 2, 3] (nextPos [0, 1, 2, 3].length 0)) ≠ 0 := by
      simp [circumDet, ringVertex, unitSquare, prevPos, nextPos]
    rw [circleFree_four ext _ 0 2 o0, Bool.not_eq_false',
      inEarCircle_iff ext hs _ _ 0 2 hD]
    obtain ⟨hx, hy⟩ := circum_center ext.sqrt _ _ _ hD
    unfold sqDist
    rw [hx, hy]
    simp [circumDet, ringVertex, unitSquare, prevPos, nextPos]
    norm_num
  · have hD : circumDet (ringVertex (unitSquare : List (Vec3 K)) [0, 1, 2, 3]
        (prevPos [0, 1, 2, 3].length 1)) (ringVertex unitSquare [0, 1, 2, 3] 1)
        (ringVertex unitSquare [0, 1, 2, 3] (nextPos [0, 1, 2, 3].length 1)) ≠ 0 := by
      simp [circumDet, ringVertex, unitSquare, prevPos, nextPos]
    rw [circleFree_four ext _ 1 3 o1, Bool.not_eq_false',
      inEarCircle_iff ext hs _ _ 1 3 hD]
    obtain ⟨hx, hy⟩ := circum_center ext.sqrt _ _ _ hD
    unfold sqDist
    rw [hx, hy]
    simp [circumDet, ringVertex, unitSquare, prevPos, nextPos]
    norm_num
  · have hD : circumDet (ringVertex (unitSquare : List (Vec3 K)) [0, 1, 2, 3]
        (prevPos [0, 1, 2, 3].length 2)) (ringVertex unitSquare [0, 1, 2, 3] 2)
        (ringVertex unitSquare [0, 1, 2, 3] (nextPos [0, 1, 2, 3].length 2)) ≠ 0 := by
      simp [circumDet, ringVertex, unitSquare, prevPos, nextPos]
    rw [circleFree_four ext _ 2 0 o2, Bool.not_eq_false',
      inEarCircle_iff ext hs _ _ 2 0 hD]
    obtain ⟨hx, hy⟩ := circum_center ext.sqrt _ _ _ hD
    unfold sqDist
    rw [hx, hy]
    simp [circumDet, ringVertex, unitSquare, prevPos, nextPos]
    norm_num
  · have hD : circumDet (ringVertex (unitSquare : List (Vec3 K)) [0, 1, 2, 3]
        (prevPos [0, 1, 2, 3].length 3)) (ringVertex unitSquare [0, 1, 2, 3] 3)
        (ringVertex unitSquare [0, 1, 2, 3] (nextPos [0, 1, 2, 3].length 3)) ≠ 0 := by
      simp [circumDet, ringVertex, unitSquare, prevPos, nextPos]
    rw [circleFree_four ext _ 3 1 o3, Bool.not_eq_false',
      inEarCircle_iff ext hs _ _ 3 1 hD]
    obtain ⟨hx, hy⟩ := circum_center ext.sqrt _ _ _ hD
    unfold sqDist
    rw [hx, hy]
    simp [circumDet, ringVertex, unitSquare, prevPos, nextPos]
    norm_num

theorem unitSquare_convex :
    isConvex (unitSquare : List (Vec3 K)) [0, 1, 2, 3] 0 = true ∧
    isConvex (unitSquare : List (Vec3 K)) [0, 1, 2, 3] 1 = true ∧
    isConvex (unitSquare : List (Vec3 K)) [0, 1, 2, 3] 2 = true ∧
    isConvex (unitSquare : List (Vec3 K)) [0, 1, 2, 3] 3 = true := by
  refine ⟨?_, ?_, ?_, ?_⟩ <;> simp [isConvex, unitSquare]

theorem unitSquare_tradEar (ext : Externals K) (ho : ContainsOnlyInside ext) :
    isTradEar ext unitSquare [0, 1, 2, 3] 0 = true := by
  unfold isTradEar
  rw [unitSquare_convex.1, triangleFree_four ext _ 0 2 otherPositions_four.1]
  simp only [Bool.true_and, Bool.not_eq_true']
  unfold inEarTriangle
  apply ho
  unfold inClosedTriangle
  simp [cross2D, ringVertex, unitSquare, prevPos, nextPos]

theorem initState_four : (initState 4).activeVerts = [0, 1, 2, 3] := by decide

theorem sweepPos_initState_four :
    sweepPos (initState 4) 0 = 0 ∧ sweepPos (initState 4) 1 = 1 ∧
    sweepPos (initState 4) 2 = 2 ∧ sweepPos (initState 4) 3 = 3 := by decide

theorem sweepStart_initState_four : SweepStart (initState 4) := ⟨rfl, by decide, rfl⟩

/-- In exact arithmetic: the unit square `(0,0), (1,0), (1,1), (0,1)`, with an exact square
root and a `contains2D` that is false outside the closed triangle, tessellates successfully to the two
triangles `(3, 0, 1)` and `(1, 2, 3)`, each of signed area `1/2` (counter-clockwise), of
total area 1.  Every position is convex but none has an empty circumcircle, the fourth
corner being on the circle and containment being closed: there is no strict ear.  The sweep
goes around with position 0 recorded as traditional ear, and its last iteration, with the
cursor on position 3, clips position 0: the fallback. -/
theorem unitSquare_exact_run (ext : Externals K) (hs : SqrtExact ext.sqrt)
    (ho : ContainsOnlyInside ext) :
    tessellateGeometry ext (polygonGeometry unitSquare) =
      some (true, { polygonGeometry unitSquare with
        primitiveSets := [PrimitiveSet.drawElementsUInt TRIANGLES [3, 0, 1, 1, 2, 3]] }) ∧
    triArea (unitSquare : List (Vec3 K)) ⟨3, 0, 1⟩ = 1 / 2 ∧
    triArea (unitSquare : List (Vec3 K)) ⟨1, 2, 3⟩ = 1 / 2 ∧
    triArea (unitSquare : List (Vec3 K)) ⟨3, 0, 1⟩ +
      triArea (unitSquare : List (Vec3 K)) ⟨1, 2, 3⟩ = 1 ∧
    (∀ c, c < 4 → isConvex (unitSquare : List (Vec3 K)) [0, 1, 2, 3] c = true ∧
      circleFree ext unitSquare [0, 1, 2, 3] c = false) ∧
    (∃ sl, loopIter ext unitSquare 3 (initState 4) = some sl ∧
      sl.activeVerts = [0, 1, 2, 3] ∧ sl.tris = [] ∧ sl.cursor = 3 ∧
      sl.cursor_start = 0 ∧ sl.tradCursor = some 0 ∧
      loopBody ext unitSquare sl = some (clipEar sl 0, true)) := by
  obtain ⟨c0, c1, c2, c3⟩ := unitSquare_circle ext hs
  obtain ⟨v0, v1, v2, v3⟩ := unitSquare_convex (K := K)
  obtain ⟨p0, p1, p2, p3⟩ := sweepPos_initState_four
  have hear := unitSquare_tradEar ext ho
  have hboth : ∀ c, c < 4 → isConvex (unitSquare : List (Vec3 K)) [0, 1, 2, 3] c = true ∧
      circleFree ext unitSquare [0, 1, 2, 3] c = false := by
    intro c hc
    interval_cases c
    · exact ⟨v0, c0⟩
    · exact ⟨v1, c1⟩
    · exact ⟨v2, c2⟩
    · exact ⟨v3, c3⟩
  have hns : ∀ i, i < (initState 4).activeVerts.length →
      isStrictEar ext unitSquare (initState 4).activeVerts (sweepPos (initState 4) i) =
        false := by
    intro i hi
    rw [initState_four] at hi ⊢
    have hi4 : i < 4 := hi
    unfold isStrictEar
    interval_cases i
    · rw [p0, c0, Bool.and_false]
    · rw [p1, c1, Bool.and_false]
    · rw [p2, c2, Bool.and_false]
    · rw [p3, c3, Bool.and_false]
  have hft : ∀ m, 0 < m → firstTradEar ext unitSquare (initState 4) m = some 0 := by
    intro m hm
    have h := firstTradEar_some ext unitSquare (initState 4) 0 (fun i' hi' => by omega)
      (by rw [initState_four, p0]; exact hear) m hm
    rw [p0] at h
    exact h
  obtain ⟨hiter, hbody⟩ := sweep_clips_fallback ext unitSquare (initState 4)
    sweepStart_initState_four (by decide) hns 0 (hft _ (by decide))
  have hl3 : (initState 4).activeVerts.length - 1 = 3 := by decide
  rw [hl3] at hiter hbody
  have hw : whileLoop ext unitSquare (loopFuel 4) (initState 4) =
      some (clipEar (sweepState ext unitSquare (initState 4) 3) 0, true) := by
    have e : loopFuel 4 = 3 + (12 + 1 + 1) := by decide
    have h3 : 3 < (sweepState ext unitSquare (initState 4) 3).activeVerts.length := by
      show 3 < (initState 4).activeVerts.length
      decide
    have h4 : (clipEar (sweepState ext unitSquare (initState 4) 3) 0).activeVerts.length ≤
        3 := by
      show ((initState 4).activeVerts.eraseIdx 0).length ≤ 3
      decide
    rw [e, loopIter_whileLoop ext unitSquare 3 _ _ hiter,
      whileLoop_step ext unitSquare _ _ _ h3 hbody]
    exact whileLoop_small ext unitSquare _ _ h4
  refine ⟨?_, ?_, ?_, ?_, hboth, ?_⟩
  · rw [tessellateGeometry_unindexed ext (polygonGeometry unitSquare) unitSquare rfl
      (by simp [unitSquare]) (by simp [polygonGeometry]) rfl]
    have hlen : (unitSquare : List (Vec3 K)).length = 4 := rfl
    rw [hlen, hw]
    rfl
  · simp [triArea, cross2D, unitSquare]
  · simp [triArea, cross2D, unitSquare]
  · simp [triArea, cross2D, unitSquare]
    norm_num
  · refine ⟨_, hiter, rfl, rfl, ?_, rfl, ?_, hbody⟩
    · exact p3
    · exact hft 3 (by decide)

theorem unitSquare_exact_run_real :
    tessellateGeometry (exactExt Real.sqrt) (polygonGeometry unitSquare) =
      some (true, { polygonGeometry unitSquare with
        primitiveSets := [PrimitiveSet.drawElementsUInt TRIANGLES [3, 0, 1, 1, 2, 3]] }) ∧
    triArea (unitSquare : List (Vec3 ℝ)) ⟨3, 0, 1⟩ = 1 / 2 ∧
    triArea (unitSquare : List (Vec3 ℝ)) ⟨1, 2, 3⟩ = 1 / 2 ∧
    triArea (unitSquare : List (Vec3 ℝ)) ⟨3, 0, 1⟩ +
      triArea (unitSquare : List (Vec3 ℝ)) ⟨1, 2, 3⟩ = 1 ∧
    (∀ c, c < 4 → isConvex (unitSquare : List (Vec3 ℝ)) [0, 1, 2, 3] c = true ∧
      circleFree (exactExt Real.sqrt) unitSquare [0, 1, 2, 3] c = false) ∧
    (∃ sl, loopIter (exactExt Real.sqrt) unitSquare 3 (initState 4) = some sl ∧
      sl.activeVerts = [0, 1, 2, 3] ∧ sl.tris = [] ∧ sl.cursor = 3 ∧
      sl.cursor_start = 0 ∧ sl.tradCursor = some 0 ∧
      loopBody (exactExt Real.sqrt) unitSquare sl = some (clipEar sl 0, true)) :=
  unitSquare_exact_run (exactExt Real.sqrt) sqrtExact_real
    (exactExt_containsOnlyInside Real.sqrt)


/-- Two vectors have the same planar part iff their x and their y agree. -/
theorem planar_eq_iff (p q : Vec3 K) : planar p = planar q ↔ p.x = q.x ∧ p.y = q.y := by
  simp [planar, Prod.ext_iff]

/-- Vertex arrays that agree in x and y have entries that agree in x and y, also out of
range, where both yield the default vector. -/
theorem planar_getD (v1 v2 : List (Vec3 K)) (h : v1.map planar = v2.map planar) (i : Nat) :
    planar (v1.getD i default) = planar (v2.getD i default) := by
  have e1 := List.getD_map (l := v1) (d := (default : Vec3 K)) (n := i) planar
  have e2 := List.getD_map (l := v2) (d := (default : Vec3 K)) (n := i) planar
  rw [← e1, ← e2, h]

/-- The value of `isConvex` depends only on x and y. -/
theorem isConvex_planar (v1 v2 : List (Vec3 K)) (h : v1.map planar = v2.map planar)
    (ring : List Nat) (c : Nat) : isConvex v1 ring c = isConvex v2 ring c := by
  unfold isConvex
  have ha := (planar_eq_iff _ _).1 (planar_getD v1 v2 h
    (ring.getD (if c = 0 then ring.length - 1 else c - 1) 0))
  have hb := (planar_eq_iff _ _).1 (planar_getD v1 v2 h (ring.getD c 0))
  have hc := (planar_eq_iff _ _).1 (planar_getD v1 v2 h
    (ring.getD (if c = ring.length - 1 then 0 else c + 1) 0))
  simp only [ha.1, ha.2, hb.1, hb.2, hc.1, hc.2]

/-- The circle of `compute_circumcircle` depends only on x and y of the three points. -/
theorem compute_circumcircle_planar (sqrt : K → K) (a b c a' b' c' : Vec3 K)
    (ha : planar a = planar a') (hb : planar b = planar b') (hc : planar c = planar c') :
    compute_circumcircle sqrt a b c = compute_circumcircle sqrt a' b' c' := by
  rw [planar_eq_iff] at ha hb hc
  unfold compute_circumcircle
  simp only [ha.1, ha.2, hb.1, hb.2, hc.1, hc.2]

/-- The value of `point_in_circle` depends only on x and y of the point. -/
theorem point_in_circle_planar (p p' cc : Vec3 K) (h : planar p = planar p') :
    point_in_circle p cc = point_in_circle p' cc := by
  rw [planar_eq_iff] at h
  unfold point_in_circle
  simp only [h.1, h.2]

/-- The scan of `isEar` depends only on x and y, when `contains2D` does. -/
theorem isEarScan_planar (ext : Externals K) (hp : Contains2DPlanar ext)
    (v1 v2 : List (Vec3 K)) (h : v1.map planar = v2.map planar) (ring : List Nat)
    (cc a b c a' b' c' : Vec3 K)
    (ha : planar a = planar a') (hb : planar b = planar b') (hc : planar c = planar c')
    (prev : Nat) (tradEar : Bool) (fuel nextNext : Nat) (circEar : Bool) :
    isEarScan ext v1 ring cc [a, b, c] prev tradEar fuel nextNext circEar =
      isEarScan ext v2 ring cc [a', b', c'] prev tradEar fuel nextNext circEar := by
  induction fuel generalizing nextNext circEar with
  | zero => rfl
  | succ n ih =>
    unfold isEarScan
    have hq := planar_getD v1 v2 h (ring.getD nextNext 0)
    have hq2 := (planar_eq_iff _ _).1 hq
    simp only [point_in_circle_planar _ _ cc hq, hp a b c a' b' c' _ _ ha hb hc, hq2.1, hq2.2,
      ih]

/-- The verdicts of `isEar` depend only on x and y, when `contains2D` does. -/
theorem isEar_planar (ext : Externals K) (hp : Contains2DPlanar ext)
    (v1 v2 : List (Vec3 K)) (h : v1.map planar = v2.map planar) (ring : List Nat)
    (c : Nat) (tradEar : Bool) :
    isEar ext v1 ring c tradEar = isEar ext v2 ring c tradEar := by
  unfold isEar
  simp only []
  rw [compute_circumcircle_planar ext.sqrt _ _ _ _ _ _
    (planar_getD v1 v2 h _) (planar_getD v1 v2 h _) (planar_getD v1 v2 h _)]
  exact isEarScan_planar ext hp v1 v2 h ring _ _ _ _ _ _ _
    (planar_getD v1 v2 h _) (planar_getD v1 v2 h _) (planar_getD v1 v2 h _) _ _ _ _ _

/-- One execution of the loop body depends only on x and y. -/
theorem loopBody_planar (ext : Externals K) (hp : Contains2DPlanar ext)
    (v1 v2 : List (Vec3 K)) (h : v1.map planar = v2.map planar) (s : LoopState) :
    loopBody ext v1 s = loopBody ext v2 s := by
  unfold loopBody
  rw [isConvex_planar v1 v2 h, isEar_planar ext hp v1 v2 h]

/-- The main loop depends only on x and y. -/
theorem whileLoop_planar (ext : Externals K) (hp : Contains2DPlanar ext)
    (v1 v2 : List (Vec3 K)) (h : v1.map planar = v2.map planar) (fuel : Nat) (s : LoopState) :
    whileLoop ext v1 fuel s = whileLoop ext v2 fuel s := by
  induction fuel generalizing s with
  | zero => rfl
  | succ n ih =>
    unfold whileLoop
    rw [loopBody_planar ext hp v1 v2 h]
    simp only [ih]

/-- The sample `contains2D` reads only x and y. -/
theorem sampleExt_planar : Contains2DPlanar sampleExt := by
  intro a b c a' b' c' x y ha hb hc
  rw [planar_eq_iff] at ha hb hc
  simp only [sampleExt, cross2D, ha.1, ha.2, hb.1, hb.2, hc.1, hc.2]

/-- The closed point-in-triangle test reads only x and y. -/
theorem exactExt_planar (sqrt : K → K) : Contains2DPlanar (exactExt sqrt) := by
  intro a b c a' b' c' x y ha hb hc
  rw [planar_eq_iff] at ha hb hc
  simp only [exactExt, closedTriangleTest, cross2D, ha.1, ha.2, hb.1, hb.2, hc.1, hc.2]

/-- C13: only x and y take part in the computation.  For two vertex arrays that agree in x
and y (hence of the same size) and may differ in z, in otherwise equal geometries, and a
`contains2D` that reads only x and y of the triangle it is called on, `tessellateGeometry`
returns the same flag and leaves the same primitive sets, hence the same triangle-index
list, and each geometry keeps its own vertex array, z included, and its other fields. -/
theorem tessellateGeometry_z_independent (ext : Externals K) (hp : Contains2DPlanar ext)
    (geom : Geometry K) (v1 v2 : List (Vec3 K)) (hxy : v1.map planar = v2.map planar) :
    ∃ ok prims,
      tessellateGeometry ext { geom with vertexArray := some v1 } =
        some (ok, { geom with vertexArray := some v1, primitiveSets := prims }) ∧
      tessellateGeometry ext { geom with vertexArray := some v2 } =
        some (ok, { geom with vertexArray := some v2, primitiveSets := prims }) := by
  have hlen : v1.length = v2.length := by
    have := congrArg List.length hxy
    simpa using this
  have hemp : v1.isEmpty = v2.isEmpty := by
    cases v1 <;> cases v2 <;> simp_all
  obtain ⟨r, hr⟩ := whileLoop_initState_total ext v1 v1.length
  have h1 := hr 0
  rw [Nat.add_zero] at h1
  have h2 : whileLoop ext v2 (loopFuel v2.length) (initState v2.length) = some r := by
    rw [← hlen, ← whileLoop_planar ext hp v1 v2 hxy]; exact h1
  unfold tessellateGeometry
  simp only [h1, h2, ← hemp]
  split
  · exact ⟨false, geom.primitiveSets, rfl, rfl⟩
  · split
    · exact ⟨false, geom.primitiveSets, rfl, rfl⟩
    · split
      · exact ⟨false, geom.primitiveSets, rfl, rfl⟩
      · obtain ⟨s, ok⟩ := r
        cases ok
        · exact ⟨false, geom.primitiveSets, rfl, rfl⟩
        · exact ⟨true, _, rfl, rfl⟩

theorem tessellateGeometry_z_independent_witness :
    squareCCW.map planar = squareLifted.map planar ∧
    ∃ ok prims,
      tessellateGeometry sampleExt { polygonGeometry squareCCW with vertexArray := some squareCCW } =
        some (ok, { polygonGeometry squareCCW with
          vertexArray := some squareCCW, primitiveSets := prims }) ∧
      tessellateGeometry sampleExt
          { polygonGeometry squareCCW with vertexArray := some squareLifted } =
        some (ok, { polygonGeometry squareCCW with
          vertexArray := some squareLifted, primitiveSets := prims }) :=
  ⟨by decide!, tessellateGeometry_z_independent sampleExt sampleExt_planar
    (polygonGeometry squareCCW) squareCCW squareLifted (by decide!)⟩

/-! ## The determinant of the circumcircle -/

/-- When `D = 0`, `compute_circumcircle` takes its degenerate branch: the centroid of the
three points and a zero radius. -/
theorem compute_circumcircle_of_eq (sqrt : K → K) (a b c : Vec3 K)
    (hD : circumDet a b c = 0) :
    compute_circumcircle sqrt a b c =
      ⟨(a.x + b.x + c.x) / 3, (a.y + b.y + c.y) / 3, 0⟩ := by
  unfold circumDet at hD
  simp only [compute_circumcircle, hD, if_true]

/-- The test of `isConvex` at position `c` of a ring is `0 < D` for the determinant `D`
that `compute_circumcircle` computes on the vertices at `(prev, c, next)`. -/
theorem isConvex_eq_circumDet (vertices : List (Vec3 K)) (ring : List Nat) (c : Nat) :
    isConvex vertices ring c =
      decide (0 < circumDet (ringVertex vertices ring (prevPos ring.length c))
        (ringVertex vertices ring c) (ringVertex vertices ring (nextPos ring.length c))) := by
  rw [circumDet_eq_cross, isConvex_eq_cross]
  rfl

/-- When `isConvex` returns false the loop body advances the cursor without calling
`isEar`. -/
theorem loopBody_of_not_convex (ext : Externals K) (vertices : List (Vec3 K)) (s : LoopState)
    (h : isConvex vertices s.activeVerts s.cursor = false) :
    loopBody ext vertices s = some (advanceCursor s s.tradCursor) := by
  simp [loopBody, h]

/-- The call of `compute_circumcircle` made by `isEar`. -/
theorem isEar_circumcircle (ext : Externals K) (vertices : List (Vec3 K)) (ring : List Nat)
    (c : Nat) (tradEar : Bool) :
    isEar ext vertices ring c tradEar =
      isEarScan ext vertices ring
        (compute_circumcircle ext.sqrt (ringVertex vertices ring (prevPos ring.length c))
          (ringVertex vertices ring c) (ringVertex vertices ring (nextPos ring.length c)))
        [ringVertex vertices ring (prevPos ring.length c), ringVertex vertices ring c,
          ringVertex vertices ring (nextPos ring.length c)]
        (prevPos ring.length c) tradEar ring.length
        (nextPos ring.length (nextPos ring.length c)) true := rfl

/-- In exact arithmetic the determinant `D` of `compute_circumcircle` is the value
`(B - A) x (C - A)` that `isConvex` tests on the same three points, so `isConvex` is the
test `0 < D` on the vertices at `(prev, cursor, next)`.  The loop body calls `isEar` only
when `isConvex` returned true (otherwise it only advances the cursor), and `isEar` calls
`compute_circumcircle` on those three vertices: there `0 < D`, so the branch `D = 0`
(centroid, zero radius) is not taken and the divisions are by the strictly positive `D`. -/
theorem isEar_circumcircle_exact (ext : Externals K) (vertices : List (Vec3 K))
    (ring : List Nat) (c : Nat) (hconv : isConvex vertices ring c = true) :
    (∀ p q r : Vec3 K, circumDet p q r = cross2D p q r) ∧
    (∀ ring0 c0, isConvex vertices ring0 c0 =
      decide (0 < circumDet (ringVertex vertices ring0 (prevPos ring0.length c0))
        (ringVertex vertices ring0 c0) (ringVertex vertices ring0 (nextPos ring0.length c0)))) ∧
    (∀ s0 : LoopState, isConvex vertices s0.activeVerts s0.cursor = false →
      loopBody ext vertices s0 = some (advanceCursor s0 s0.tradCursor)) ∧
    (∀ p q r : Vec3 K, circumDet p q r = 0 →
      compute_circumcircle ext.sqrt p q r =
        ⟨(p.x + q.x + r.x) / 3, (p.y + q.y + r.y) / 3, 0⟩) ∧
    (∀ p q r : Vec3 K, 0 < circumDet p q r →
      compute_circumcircle ext.sqrt p q r =
        ⟨(((p.x - r.x) * (p.x + r.x) + (p.y - r.y) * (p.y + r.y)) / 2 * (q.y - r.y) -
           ((q.x - r.x) * (q.x + r.x) + (q.y - r.y) * (q.y + r.y)) / 2 * (p.y - r.y)) /
            circumDet p q r,
         (((q.x - r.x) * (q.x + r.x) + (q.y - r.y) * (q.y + r.y)) / 2 * (p.x - r.x) -
           ((p.x - r.x) * (p.x + r.x) + (p.y - r.y) * (p.y + r.y)) / 2 * (q.x - r.x)) /
            circumDet p q r,
         ext.sqrt (sqDist r (compute_circumcircle ext.sqrt p q r))⟩) ∧
    (∀ t, isEar ext vertices ring c t =
      isEarScan ext vertices ring
        (compute_circumcircle ext.sqrt (ringVertex vertices ring (prevPos ring.length c))
          (ringVertex vertices ring c) (ringVertex vertices ring (nextPos ring.length c)))
        [ringVertex vertices ring (prevPos ring.length c), ringVertex vertices ring c,
          ringVertex vertices ring (nextPos ring.length c)]
        (prevPos ring.length c) t ring.length
        (nextPos ring.length (nextPos ring.length c)) true) ∧
    0 < circumDet (ringVertex vertices ring (prevPos ring.length c))
      (ringVertex vertices ring c) (ringVertex vertices ring (nextPos ring.length c)) ∧
    circumDet (ringVertex vertices ring (prevPos ring.length c))
      (ringVertex vertices ring c) (ringVertex vertices ring (nextPos ring.length c)) ≠ 0 := by
  have hpos : 0 < circumDet (ringVertex vertices ring (prevPos ring.length c))
      (ringVertex vertices ring c) (ringVertex vertices ring (nextPos ring.length c)) := by
    rw [isConvex_eq_circumDet] at hconv
    exact of_decide_eq_true hconv
  exact ⟨circumDet_eq_cross, isConvex_eq_circumDet vertices,
    loopBody_of_not_convex ext vertices,
    fun p q r h => compute_circumcircle_of_eq ext.sqrt p q r h,
    fun p q r h => compute_circumcircle_of_ne ext.sqrt p q r (ne_of_gt h),
    fun t => isEar_circumcircle ext vertices ring c t, hpos, ne_of_gt hpos⟩

theorem isEar_circumcircle_exact_square :
    isConvex squareCCW [0, 1, 2, 3] 0 = true ∧
    0 < circumDet (ringVertex squareCCW [0, 1, 2, 3] (prevPos [0, 1, 2, 3].length 0))
      (ringVertex squareCCW [0, 1, 2, 3] 0)
      (ringVertex squareCCW [0, 1, 2, 3] (nextPos [0, 1, 2, 3].length 0)) :=
  ⟨by decide!,
    (isEar_circumcircle_exact sampleExt squareCCW [0, 1, 2, 3] 0
      (by decide!)).2.2.2.2.2.2.1⟩

/-! ## Rings without convex position -/

/-- On the identity ring the test of `isConvex` is the sign test of the cross product of
the vertices at `(prev, c, next)`. -/
theorem isConvex_range (vertices : List (Vec3 K)) (n c : Nat) (hn : 0 < n) (hc : c < n) :
    isConvex vertices (List.range n) c =
      decide (0 < cross2D (vertexAt vertices (prevPos n c)) (vertexAt vertices c)
        (vertexAt vertices (nextPos n c))) := by
  have hp : prevPos n c < n := by unfold prevPos; split <;> omega
  have hq : nextPos n c < n := by unfold nextPos; split <;> omega
  rw [isConvex_eq_cross, List.length_range]
  have e : ∀ i, i < n → (List.range n).getD i 0 = i := by
    intro i hi
    rw [List.getD_eq_getElem _ _ (by simpa using hi)]
    simp
  rw [e _ hp, e _ hc, e _ hq]

/-- Advancing the cursor during the first sweep of a ring without traditional ear. -/
theorem advanceCursor_flatState (n i : Nat) (hi : i < n) :
    advanceCursor (flatState n i) none =
      if i + 1 < n then (flatState n (i + 1), true) else (flatState n 0, false) := by
  unfold advanceCursor flatState initState
  simp only [List.length_range]
  by_cases h : i + 1 < n
  · have h1 : ¬ i + 1 ≥ n := by omega
    simp [h, h1]
  · have h1 : i + 1 ≥ n := by omega
    simp [h, h1]

/-- The loop body during the first sweep of a ring none of whose positions is convex. -/
theorem loopBody_flatState (ext : Externals K) (vertices : List (Vec3 K)) (n i : Nat)
    (hi : i < n) (hflat : isConvex vertices (List.range n) i = false) :
    loopBody ext vertices (flatState n i) =
      some (if i + 1 < n then (flatState n (i + 1), true) else (flatState n 0, false)) := by
  have h1 : isConvex vertices (flatState n i).activeVerts (flatState n i).cursor = false :=
    hflat
  have h2 : (flatState n i).tradCursor = none := rfl
  rw [loopBody_of_not_convex ext vertices _ h1, h2, advanceCursor_flatState n i hi]

/-- The first sweep of a ring none of whose positions is convex. -/
theorem loopIter_flatState (ext : Externals K) (vertices : List (Vec3 K)) (n : Nat)
    (hn : 3 < n) (hflat : ∀ c, c < n → isConvex vertices (List.range n) c = false) :
    ∀ i, i < n → loopIter ext vertices i (initState n) = some (flatState n i)
  | 0, _ => by
    rw [loopIter]
    rfl
  | i + 1, hi => by
    have ih := loopIter_flatState ext vertices n hn hflat i (by omega)
    have hlen : 3 < (flatState n i).activeVerts.length := by
      show 3 < (List.range n).length
      rw [List.length_range]
      exact hn
    have hb := loopBody_flatState ext vertices n i (by omega) (hflat i (by omega))
    rw [if_pos hi] at hb
    exact loopIter_succ_of ext vertices i (initState n) (flatState n i) (flatState n (i + 1))
      ih hlen hb

/-- The first sweep of a ring none of whose positions is convex ends the loop with
`success = false`, at its iteration number `n`. -/
theorem whileLoop_flat (ext : Externals K) (vertices : List (Vec3 K)) (n : Nat)
    (hn : 3 < n) (hflat : ∀ c, c < n → isConvex vertices (List.range n) c = false) :
    loopBody ext vertices (flatState n (n - 1)) = some (flatState n 0, false) ∧
    loopIter ext vertices n (initState n) = none ∧
    whileLoop ext vertices (loopFuel n) (initState n) = some (flatState n 0, false) := by
  have hlast := loopIter_flatState ext vertices n hn hflat (n - 1) (by omega)
  have hlen : 3 < (flatState n (n - 1)).activeVerts.length := by
    show 3 < (List.range n).length
    rw [List.length_range]
    exact hn
  have hb := loopBody_flatState ext vertices n (n - 1) (by omega) (hflat (n - 1) (by omega))
  rw [if_neg (by omega)] at hb
  refine ⟨hb, ?_, ?_⟩
  · have h := loopIter_add ext vertices (n - 1) _ _ hlast 1
    have e : n - 1 + 1 = n := by omega
    rw [e] at h
    rw [h, loopIter, if_pos hlen, hb]
  · obtain ⟨f, hf⟩ : ∃ f, loopFuel n = (n - 1) + (f + 1) :=
      ⟨n * n - n + 1, by
        unfold loopFuel
        have : n ≤ n * n := Nat.le_mul_self n
        omega⟩
    rw [hf, loopIter_whileLoop ext vertices (n - 1) _ _ hlast (f + 1), whileLoop,
      if_pos hlen, hb]

/-- C23: an unindexed ring none of whose positions has a strictly positive cross product
`(B - A) x (C - A)` at `(prev, cursor, next)` (a convex polygon listed clockwise, points
all on one line).  With at least 4 vertices the call fails and leaves the geometry
unchanged: the loop runs one sweep of `n` iterations, with the cursor on positions
`0 .. n-1`, each of which finds `isConvex` false and only advances the cursor, nothing being
clipped or recorded, and iteration `n` ends the loop with `success = false`.  With 3
vertices the call succeeds with the triangle `(0, 1, 2)`. -/
theorem tessellateGeometry_no_convex_position (ext : Externals K) (geom : Geometry K)
    (vertices : List (Vec3 K)) (hv : geom.vertexArray = some vertices)
    (hp : geom.primitiveSets ≠ []) (hidx : geom.usesIndices = false)
    (hflat : ∀ c, c < vertices.length →
      cross2D (vertexAt vertices (prevPos vertices.length c)) (vertexAt vertices c)
        (vertexAt vertices (nextPos vertices.length c)) ≤ 0) :
    (4 ≤ vertices.length →
      tessellateGeometry ext geom = some (false, geom) ∧
      (∀ i, i < vertices.length →
        loopIter ext vertices i (initState vertices.length) =
          some { initState vertices.length with cursor := i } ∧
        isConvex vertices (List.range vertices.length) i = false ∧
        loopBody ext vertices { initState vertices.length with cursor := i } =
          some (advanceCursor { initState vertices.length with cursor := i } none)) ∧
      loopBody ext vertices { initState vertices.length with cursor := vertices.length - 1 } =
        some ({ initState vertices.length with cursor := 0 }, false) ∧
      loopIter ext vertices vertices.length (initState vertices.length) = none ∧
      whileLoop ext vertices (loopFuel vertices.length) (initState vertices.length) =
        some ({ initState vertices.length with cursor := 0 }, false)) ∧
    (vertices.length = 3 →
      tessellateGeometry ext geom = some (true, { geom with
        primitiveSets := [PrimitiveSet.drawElementsUInt TRIANGLES [0, 1, 2]] })) := by
  have hne : vertices.length ≠ 0 → vertices ≠ [] := by
    intro h h0
    rw [h0] at h
    simp at h
  constructor
  · intro hn
    have hconv : ∀ c, c < vertices.length →
        isConvex vertices (List.range vertices.length) c = false := by
      intro c hc
      rw [isConvex_range vertices _ c (by omega) hc, decide_eq_false_iff_not]
      exact not_lt.mpr (hflat c hc)
    obtain ⟨h1, h2, h3⟩ := whileLoop_flat ext vertices vertices.length (by omega) hconv
    refine ⟨?_, fun i hi => ⟨loopIter_flatState ext vertices _ (by omega) hconv i hi,
      hconv i hi, ?_⟩, h1, h2, h3⟩
    · rw [tessellateGeometry_unindexed ext geom vertices hv (hne (by omega)) hp hidx, h3]
    · exact loopBody_of_not_convex ext vertices (flatState vertices.length i) (hconv i hi)
  · intro hlen
    have hr : List.range 3 = [0, 1, 2] := by decide
    rw [tessellateGeometry_unindexed ext geom vertices hv (hne (by omega)) hp hidx, hlen]
    have hw : whileLoop ext vertices (loopFuel 3) (initState 3) = some (initState 3, true) :=
      whileLoop_small ext vertices (3 * 3) (initState 3) (by simp [initState])
    rw [hw]
    simp [finalTris, initState, hr, triElements]

theorem tessellateGeometry_no_convex_position_witness :
    tessellateGeometry sampleExt (polygonGeometry squareCW) =
      some (false, polygonGeometry squareCW) ∧
    tessellateGeometry sampleExt (polygonGeometry collinearFour) =
      some (false, polygonGeometry collinearFour) ∧
    loopIter sampleExt squareCW 4 (initState 4) = none ∧
    tessellateGeometry sampleExt (polygonGeometry triangleCW) =
      some (true, { polygonGeometry triangleCW with
        primitiveSets := [PrimitiveSet.drawElementsUInt TRIANGLES [0, 1, 2]] }) :=
  ⟨((tessellateGeometry_no_convex_position sampleExt (polygonGeometry squareCW) squareCW rfl
      (by decide) rfl (by decide!)).1 (by decide)).1,
    ((tessellateGeometry_no_convex_position sampleExt (polygonGeometry collinearFour)
      collinearFour rfl (by decide) rfl (by decide!)).1 (by decide)).1,
    ((tessellateGeometry_no_convex_position sampleExt (polygonGeometry squareCW) squareCW rfl
      (by decide) rfl (by decide!)).1 (by decide)).2.2.2.1,
    (tessellateGeometry_no_convex_position sampleExt (polygonGeometry triangleCW) triangleCW rfl
      (by decide) rfl (by decide!)).2 rfl⟩

/-! ## Loop invariant and index safety -/

/-- A subsequence of `0 .. n-1` is strictly increasing and made of indices below `n`. -/
theorem sublist_range_sorted {n : Nat} {ring : List Nat} (h : ring.Sublist (List.range n)) :
    ring.Pairwise (· < ·) ∧ (∀ x ∈ ring, x < n) ∧ ring.length ≤ n := by
  refine ⟨(List.pairwise_lt_range n).sublist h, fun x hx => List.mem_range.mp (h.subset hx), ?_⟩
  have := h.length_le
  simpa using this

/-- The invariant holds on entry. -/
theorem ringInv_init (n : Nat) : RingInv n (List.range n) [] :=
  ⟨List.Sublist.refl _, fun h => by simpa using h, fun t ht => absurd ht (List.not_mem_nil t)⟩

/-- Clipping an ear of a ring of more than three indices keeps the invariant. -/
theorem ringInv_clip (n : Nat) (ring : List Nat) (tris : List TriIndices) (c : Nat)
    (hlen : 3 < ring.length) (hc : c < ring.length) (h : RingInv n ring tris) :
    RingInv n (ring.eraseIdx c) (tris ++ [triAt ring c]) := by
  obtain ⟨hsub, _, htris⟩ := h
  obtain ⟨hs, hb, _⟩ := sublist_range_sorted hsub
  obtain ⟨hpl, hnl, hcyc⟩ := cycLt_ear (by omega : 3 ≤ ring.length) hc
  refine ⟨(List.eraseIdx_sublist ring c).trans hsub, fun _ => ?_, ?_⟩
  · rw [List.length_eraseIdx_of_lt hc]
    omega
  · intro t ht
    rcases List.mem_append.mp ht with h1 | h1
    · exact htris t h1
    · rw [List.mem_singleton] at h1
      rw [h1]
      exact ⟨hb _ (getD_mem_of_lt hpl), hb _ (getD_mem_of_lt hc), hb _ (getD_mem_of_lt hnl),
        sorted_cycLt hs hcyc hpl hc hnl⟩

/-- Indices in cyclic increasing order are pairwise distinct. -/
theorem CycLt.distinct {a b c : Nat} (h : CycLt a b c) : a ≠ b ∧ b ≠ c ∧ a ≠ c := by
  unfold CycLt at h
  omega

/-- The positions visited by the scan of `isEar` are ring positions. -/
theorem scanOrder_lt {len c : Nat} (hlen : 3 ≤ len) (hc : c < len) (p : Nat)
    (hp : p ∈ scanOrder len (len - 3) (nextPos len (nextPos len c))) : p < len :=
  (cycLt_other hlen hc ((mem_scanOrder_isEar hlen hc p).mp hp)).1

/-- C21: loop invariant and index safety.  At every iteration of the loop, that is in every
state `sj` a run reaches with a ring of more than three indices: the ring is a subsequence
of `0 .. n-1`, hence strictly increasing with entries below `n`, of length at least 4; the
cursor, `cursor_start` and a recorded `tradCursor` are ring positions; `prev` and `next` of
a ring position and the positions visited by the scan of `isEar` are ring positions, and
the ring entry at a ring position is a vertex index, so the accesses `activeVerts[...]` and
`vertices[...]` of `tessellateGeometry`, `isConvex` and `isEar` are in bounds; every
triangle pushed so far has three pairwise distinct indices below `n`, in cyclic increasing
order.  On success every triangle put out is of that kind, and the last one `(a, b, c)`,
made of the three indices left, has `a < b < c < n`. -/
theorem loop_invariant_index_safety (ext : Externals K) (vertices : List (Vec3 K)) (j : Nat)
    (sj : LoopState) (hj : loopIter ext vertices j (initState vertices.length) = some sj)
    (hlen : 3 < sj.activeVerts.length) :
    sj.activeVerts.Sublist (List.range vertices.length) ∧
    sj.activeVerts.Pairwise (· < ·) ∧
    (∀ x ∈ sj.activeVerts, x < vertices.length) ∧
    4 ≤ sj.activeVerts.length ∧
    sj.cursor < sj.activeVerts.length ∧ sj.cursor_start < sj.activeVerts.length ∧
    (∀ t, sj.tradCursor = some t → t < sj.activeVerts.length) ∧
    (∀ c, c < sj.activeVerts.length →
      prevPos sj.activeVerts.length c < sj.activeVerts.length ∧
      nextPos sj.activeVerts.length c < sj.activeVerts.length) ∧
    (∀ p ∈ scanOrder sj.activeVerts.length (sj.activeVerts.length - 3)
        (nextPos sj.activeVerts.length (nextPos sj.activeVerts.length sj.cursor)),
      p < sj.activeVerts.length) ∧
    (∀ p, p < sj.activeVerts.length → sj.activeVerts.getD p 0 < vertices.length) ∧
    (∀ t ∈ sj.tris, t.a < vertices.length ∧ t.b < vertices.length ∧ t.c < vertices.length ∧
      CycLt t.a t.b t.c ∧ t.a ≠ t.b ∧ t.b ≠ t.c ∧ t.a ≠ t.c) ∧
    (∀ geom g' : Geometry K, geom.vertexArray = some vertices →
      tessellateGeometry ext geom = some (true, g') →
      ∃ s, whileLoop ext vertices (loopFuel vertices.length) (initState vertices.length) =
          some (s, true) ∧
        g'.primitiveSets =
          [PrimitiveSet.drawElementsUInt TRIANGLES (triElements (finalTris s))] ∧
        finalTris s = s.tris ++
          [⟨s.activeVerts.getD 0 0, s.activeVerts.getD 1 0, s.activeVerts.getD 2 0⟩] ∧
        (∀ t ∈ finalTris s, t.a < vertices.length ∧ t.b < vertices.length ∧
          t.c < vertices.length ∧ CycLt t.a t.b t.c ∧ t.a ≠ t.b ∧ t.b ≠ t.c ∧ t.a ≠ t.c) ∧
        s.activeVerts.getD 0 0 < s.activeVerts.getD 1 0 ∧
        s.activeVerts.getD 1 0 < s.activeVerts.getD 2 0 ∧
        s.activeVerts.getD 2 0 < vertices.length) := by
  have hpos : 0 < vertices.length := by
    rcases Nat.eq_zero_or_pos vertices.length with h0 | hpos
    · exfalso
      cases j with
      | zero =>
        simp only [loopIter, Option.some.injEq] at hj
        rw [← hj] at hlen
        simp [initState, h0] at hlen
      | succ j => simp [loopIter, initState, h0] at hj
    · exact hpos
  have hP : ∀ ring tris c, 3 < ring.length → c < ring.length →
      isConvex vertices ring c = true → hasTradEar ext vertices ring = true →
      RingInv vertices.length ring tris →
      RingInv vertices.length (ring.eraseIdx c) (tris ++ [triAt ring c]) :=
    fun ring tris c h1 h2 _ _ h => ringInv_clip _ ring tris c h1 h2 h
  obtain ⟨⟨k, hinv⟩, hsub, _, htris⟩ := initState_run_invariant ext vertices vertices.length
    hpos (RingInv vertices.length) hP (ringInv_init _) j sj hj
  obtain ⟨hs, hb, hle⟩ := sublist_range_sorted hsub
  have h3 : 3 ≤ sj.activeVerts.length := by omega
  refine ⟨hsub, hs, hb, hlen, hinv.cursor_lt, hinv.2.1, fun t ht => (hinv.2.2.2.2 t ht).1,
    fun c hc => ⟨(cycLt_ear h3 hc).1, (cycLt_ear h3 hc).2.1⟩,
    fun p hp => scanOrder_lt h3 hinv.cursor_lt p hp,
    fun p hp => hb _ (getD_mem_of_lt hp),
    fun t ht => ⟨(htris t ht).1, (htris t ht).2.1, (htris t ht).2.2.1, (htris t ht).2.2.2,
      (htris t ht).2.2.2.distinct⟩, ?_⟩
  intro geom g' hv h
  obtain ⟨_, _, _, s, hw, hg⟩ := tessellateGeometry_success_inv ext geom g' vertices hv h
  obtain ⟨⟨hsub', h3', htris'⟩, hle'⟩ := whileLoop_success ext vertices vertices.length hpos
    (RingInv vertices.length) hP (ringInv_init _) _ s hw
  obtain ⟨hs', hb', _⟩ := sublist_range_sorted hsub'
  have hlen3 : s.activeVerts.length = 3 := by
    have := h3' (by omega)
    omega
  have hft : finalTris s = s.tris ++
      [⟨s.activeVerts.getD 0 0, s.activeVerts.getD 1 0, s.activeVerts.getD 2 0⟩] := by
    simp only [finalTris, hlen3, if_true]
  have h01 : s.activeVerts.getD 0 0 < s.activeVerts.getD 1 0 :=
    sorted_getD_lt hs' (by omega) (by omega)
  have h12 : s.activeVerts.getD 1 0 < s.activeVerts.getD 2 0 :=
    sorted_getD_lt hs' (by omega) (by omega)
  have h2n : s.activeVerts.getD 2 0 < vertices.length :=
    hb' _ (getD_mem_of_lt (by omega))
  refine ⟨s, hw, by rw [hg], hft, ?_, h01, h12, h2n⟩
  intro t ht
  rw [hft] at ht
  rcases List.mem_append.mp ht with h1 | h1
  · exact ⟨(htris' t h1).1, (htris' t h1).2.1, (htris' t h1).2.2.1, (htris' t h1).2.2.2,
      (htris' t h1).2.2.2.distinct⟩
  · rw [List.mem_singleton] at h1
    rw [h1]
    have hc : CycLt (s.activeVerts.getD 0 0) (s.activeVerts.getD 1 0)
        (s.activeVerts.getD 2 0) := Or.inl ⟨h01, h12⟩
    exact ⟨lt_trans h01 (lt_trans h12 h2n), lt_trans h12 h2n, h2n, hc, hc.distinct⟩

theorem loop_invariant_index_safety_witness :
    loopIter sampleExt dentedCW 3 (initState dentedCW.length) =
      some ⟨[0, 2, 3, 4], [⟨0, 1, 2⟩], 2, 1, none⟩ ∧
    (∀ p, p < 4 → ([0, 2, 3, 4] : List Nat).getD p 0 < dentedCW.length) ∧
    (∀ t ∈ [(⟨0, 1, 2⟩ : TriIndices)], t.a < dentedCW.length ∧ t.b < dentedCW.length ∧
      t.c < dentedCW.length ∧ CycLt t.a t.b t.c ∧ t.a ≠ t.b ∧ t.b ≠ t.c ∧ t.a ≠ t.c) :=
  ⟨by decide!,
    (loop_invariant_index_safety sampleExt dentedCW 3 ⟨[0, 2, 3, 4], [⟨0, 1, 2⟩], 2, 1, none⟩
      (by decide!) (by decide)).2.2.2.2.2.2.2.2.2.1,
    (loop_invariant_index_safety sampleExt dentedCW 3 ⟨[0, 2, 3, 4], [⟨0, 1, 2⟩], 2, 1, none⟩
      (by decide!) (by decide)).2.2.2.2.2.2.2.2.2.2.1⟩

/-! ## Machine arithmetic and exact arithmetic -/

/-- Without rounding `compute_circumcircle_fp` is `compute_circumcircle`. -/
theorem compute_circumcircle_fp_exact (sqrt : K → K) (a b c : Vec3 K) :
    compute_circumcircle_fp exactRounding sqrt a b c = compute_circumcircle sqrt a b c := rfl

/-- Without rounding `point_in_circle_fp` is `point_in_circle`. -/
theorem point_in_circle_fp_exact (p cc : Vec3 K) :
    point_in_circle_fp exactRounding p cc = point_in_circle p cc := rfl

/-- Without rounding `isConvex_fp` is `isConvex`. -/
theorem isConvex_fp_exact (vertices : List (Vec3 K)) (ring : List Nat) (c : Nat) :
    isConvex_fp exactRounding vertices ring c = isConvex vertices ring c := rfl

/-- Without rounding the scan of `isEar_fp` is the scan of `isEar`. -/
theorem isEarScan_fp_exact (ext : Externals K) (vertices : List (Vec3 K)) (ring : List Nat)
    (cc : Vec3 K) (poly : List (Vec3 K)) (prev : Nat) (tradEar : Bool) :
    ∀ (fuel nn : Nat) (circEar : Bool),
      isEarScan_fp exactRounding ext vertices ring cc poly prev tradEar fuel nn circEar =
        isEarScan ext vertices ring cc poly prev tradEar fuel nn circEar
  | 0, _, _ => rfl
  | fuel + 1, nn, circEar => by
    rw [isEarScan_fp, isEarScan]
    simp only [point_in_circle_fp_exact, isEarScan_fp_exact ext vertices ring cc poly prev
      tradEar fuel]

/-- Without rounding `isEar_fp` is `isEar`. -/
theorem isEar_fp_exact (ext : Externals K) (vertices : List (Vec3 K)) (ring : List Nat)
    (c : Nat) (tradEar : Bool) :
    isEar_fp exactRounding ext vertices ring c tradEar = isEar ext vertices ring c tradEar := by
  unfold isEar_fp isEar
  simp only [compute_circumcircle_fp_exact, isEarScan_fp_exact]

/-- Without rounding `loopBody_fp` is `loopBody`. -/
theorem loopBody_fp_exact (ext : Externals K) (vertices : List (Vec3 K)) (s : LoopState) :
    loopBody_fp exactRounding ext vertices s = loopBody ext vertices s := by
  unfold loopBody_fp loopBody
  rw [isConvex_fp_exact, isEar_fp_exact]

/-- Without rounding `whileLoop_fp` is `whileLoop`. -/
theorem whileLoop_fp_exact (ext : Externals K) (vertices : List (Vec3 K)) :
    ∀ (fuel : Nat) (s : LoopState),
      whileLoop_fp exactRounding ext vertices fuel s = whileLoop ext vertices fuel s
  | 0, _ => rfl
  | fuel + 1, s => by
    rw [whileLoop_fp, whileLoop, loopBody_fp_exact]
    simp only [whileLoop_fp_exact ext vertices fuel]

/-- Without rounding `loopIter_fp` is `loopIter`. -/
theorem loopIter_fp_exact (ext : Externals K) (vertices : List (Vec3 K)) :
    ∀ (k : Nat) (s : LoopState),
      loopIter_fp exactRounding ext vertices k s = loopIter ext vertices k s
  | 0, _ => rfl
  | k + 1, s => by
    rw [loopIter_fp, loopIter, loopBody_fp_exact]
    simp only [loopIter_fp_exact ext vertices k]

/-- Without rounding `tessellateGeometry_fp` is `tessellateGeometry`. -/
theorem tessellateGeometry_fp_exact (ext : Externals K) (geom : Geometry K) :
    tessellateGeometry_fp exactRounding ext geom = tessellateGeometry ext geom := by
  unfold tessellateGeometry_fp tessellateGeometry
  simp only [whileLoop_fp_exact]

/-- The `float` nearest to the square root of `1/2` is `11863283 / 2^24` (0.70710677): the
root lies between the midpoints to the neighbouring `float` values.  Its square is below
`1/2`, and rounds to the `float` just below `1/2` (0.49999997). -/
theorem sqrt_half_rounded :
    ((11863283 : ℚ) - 1 / 2) / 16777216 * (((11863283 : ℚ) - 1 / 2) / 16777216) < 1 / 2 ∧
    (1 / 2 : ℚ) < ((11863283 : ℚ) + 1 / 2) / 16777216 * (((11863283 : ℚ) + 1 / 2) / 16777216) ∧
    sqrtNearest 24 (1 / 2) = 11863283 / 16777216 ∧
    f32 (sqrtNearest 53 (1 / 2)) = 11863283 / 16777216 ∧
    (11863283 / 16777216 : ℚ) * (11863283 / 16777216) < 1 / 2 ∧
    f32 ((11863283 / 16777216 : ℚ) * (11863283 / 16777216)) = 16777215 / 33554432 := by
  refine ⟨by norm_num, by norm_num, by decide!, by decide!, by norm_num, by decide!⟩

/-- Values of the rounding: `1/10` as `float` and as `double`, ties going to the even
significand (`2^24 + 1` down, `2^24 + 3` up), and values that are kept. -/
theorem roundBits_values :
    f32 (1 / 10) = 13421773 / 134217728 ∧
    f64 (1 / 10) = 3602879701896397 / 36028797018963968 ∧
    f32 16777217 = 16777216 ∧ f32 16777219 = 16777220 ∧ f32 (-16777217) = -16777216 ∧
    f32 16785409 = 16785408 ∧ f64 16785409 = 16785409 ∧
    f32 (1 / 2) = 1 / 2 ∧ f32 (-7 / 4) = -7 / 4 ∧ f32 0 = 0 ∧
    sqrtNearest 24 (25 / 4) = 5 / 2 ∧ sqrtNearest 24 2 = 11863283 / 8388608 ∧
    sqrtNearest 53 2 = 6369051672525773 / 4503599627370496 := by
  refine ⟨by decide!, by decide!, by decide!, by decide!, by decide!, by decide!, by decide!,
    by decide!, by decide!, by decide!, by decide!, by decide!, by decide!⟩

/-! ## The unit square in machine arithmetic -/

/-- C11 fails on the code: in the arithmetic of the machine position 0 of the unit square is
a strict circumcircle ear.  The circle test finds no other ring vertex within the circle of
`(0,1), (0,0), (1,0)`, `isEar` returns true, and the first iteration of the loop, entered
without a recorded traditional ear, clips position 0: the clip is not the fallback. -/
theorem unitSquare_strict_ear :
    isConvex_fp ieeeRounding (unitSquare : List (Vec3 ℚ)) [0, 1, 2, 3] 0 = true ∧
    circleFree_fp ieeeRounding machineExt unitSquare [0, 1, 2, 3] 0 = true ∧
    isEar_fp ieeeRounding machineExt unitSquare [0, 1, 2, 3] 0 false = some (true, true) ∧
    (initState 4).tradCursor = none ∧
    loopBody_fp ieeeRounding machineExt unitSquare (initState 4) =
      some (clipEar (initState 4) 0, true) := by
  refine ⟨by decide!, by decide!, by decide!, rfl, by decide!⟩

/-- C11 (amended): the unit square `(0,0), (1,0), (1,1), (0,1)` tessellates successfully, in
the arithmetic of the machine, to the two triangles `(3, 0, 1)` and `(1, 2, 3)`, each of
signed area `1/2` (counter-clockwise), of total area 1.  The four corners lie on one circle,
of centre `(1/2, 1/2)` and squared radius `1/2`; the radius computed for position 0 is the
rounded root `11863283 / 2^24` (0.70710677), whose product with itself rounds to
`16777215 / 2^25` (0.49999997), below the value `1/2` of `r2` for the corner `(1,1)`: that
corner tests outside, position 0 is a strict ear, and the first iteration clips it.  The
ring left has three indices and gives the second triangle. -/
theorem unitSquare_tessellation_fp :
    tessellateGeometry_fp ieeeRounding machineExt (polygonGeometry unitSquare) =
      some (true, { polygonGeometry unitSquare with
        primitiveSets := [PrimitiveSet.drawElementsUInt TRIANGLES [3, 0, 1, 1, 2, 3]] }) ∧
    triArea (unitSquare : List (Vec3 ℚ)) ⟨3, 0, 1⟩ = 1 / 2 ∧
    triArea (unitSquare : List (Vec3 ℚ)) ⟨1, 2, 3⟩ = 1 / 2 ∧
    triArea (unitSquare : List (Vec3 ℚ)) ⟨3, 0, 1⟩ +
      triArea (unitSquare : List (Vec3 ℚ)) ⟨1, 2, 3⟩ = 1 ∧
    (∀ j, j < 4 → sqDist (ringVertex (unitSquare : List (Vec3 ℚ)) [0, 1, 2, 3] j)
      ⟨1 / 2, 1 / 2, 0⟩ = 1 / 2) ∧
    compute_circumcircle_fp ieeeRounding machineExt.sqrt
        (ringVertex (unitSquare : List (Vec3 ℚ)) [0, 1, 2, 3] 3)
        (ringVertex unitSquare [0, 1, 2, 3] 0) (ringVertex unitSquare [0, 1, 2, 3] 1) =
      ⟨1 / 2, 1 / 2, 11863283 / 16777216⟩ ∧
    ieeeRounding.fmul (11863283 / 16777216) (11863283 / 16777216) = 16777215 / 33554432 ∧
    sqDist_fp ieeeRounding (ringVertex (unitSquare : List (Vec3 ℚ)) [0, 1, 2, 3] 2)
      ⟨1 / 2, 1 / 2, 11863283 / 16777216⟩ = 1 / 2 ∧
    point_in_circle_fp ieeeRounding (ringVertex (unitSquare : List (Vec3 ℚ)) [0, 1, 2, 3] 2)
      ⟨1 / 2, 1 / 2, 11863283 / 16777216⟩ = false ∧
    isEar_fp ieeeRounding machineExt unitSquare [0, 1, 2, 3] 0 false = some (true, true) ∧
    loopBody_fp ieeeRounding machineExt unitSquare (initState 4) =
      some (clipEar (initState 4) 0, true) ∧
    clipEar (initState 4) 0 = ⟨[1, 2, 3], [⟨3, 0, 1⟩], 0, 0, none⟩ ∧
    whileLoop_fp ieeeRounding machineExt unitSquare (loopFuel 4) (initState 4) =
      some (⟨[1, 2, 3], [⟨3, 0, 1⟩], 0, 0, none⟩, true) := by
  refine ⟨by decide!, by decide!, by decide!, by decide!, by decide!, by decide!, by decide!,
    by decide!, by decide!, by decide!, by decide!, by decide!, by decide!⟩

/-! ## The circumcircle in machine arithmetic -/

/-- C19 fails on the code: for the right triangle `(0,1), (0,0), (1,0)`, not collinear, the
machine computes the centre `(1/2, 1/2)` and the rounded radius `11863283 / 2^24`; its
square is below the squared distance `1/2` of the three corners to the centre, and
`point_in_circle` is false for `a`, `b` and `c` themselves. -/
theorem circumcircle_corners_outside :
    circumDet_fp ieeeRounding (⟨0, 1, 0⟩ : Vec3 ℚ) ⟨0, 0, 0⟩ ⟨1, 0, 0⟩ = 1 ∧
    compute_circumcircle_fp ieeeRounding machineExt.sqrt (⟨0, 1, 0⟩ : Vec3 ℚ) ⟨0, 0, 0⟩
      ⟨1, 0, 0⟩ = ⟨1 / 2, 1 / 2, 11863283 / 16777216⟩ ∧
    (11863283 / 16777216 : ℚ) * (11863283 / 16777216) <
      sqDist (⟨1, 0, 0⟩ : Vec3 ℚ) ⟨1 / 2, 1 / 2, 0⟩ ∧
    point_in_circle_fp ieeeRounding (⟨0, 1, 0⟩ : Vec3 ℚ)
      (compute_circumcircle_fp ieeeRounding machineExt.sqrt ⟨0, 1, 0⟩ ⟨0, 0, 0⟩ ⟨1, 0, 0⟩) =
        false ∧
    point_in_circle_fp ieeeRounding (⟨0, 0, 0⟩ : Vec3 ℚ)
      (compute_circumcircle_fp ieeeRounding machineExt.sqrt ⟨0, 1, 0⟩ ⟨0, 0, 0⟩ ⟨1, 0, 0⟩) =
        false ∧
    point_in_circle_fp ieeeRounding (⟨1, 0, 0⟩ : Vec3 ℚ)
      (compute_circumcircle_fp ieeeRounding machineExt.sqrt ⟨0, 1, 0⟩ ⟨0, 0, 0⟩ ⟨1, 0, 0⟩) =
        false := by
  refine ⟨by decide!, by decide!, by decide!, by decide!, by decide!, by decide!⟩

/-- In the branch `D != 0` the third component of the circle is the stored root of the
value `r2` computed for `c` and the returned centre. -/
theorem compute_circumcircle_fp_radius (R : Rounding K) (sqrt : K → K) (a b c : Vec3 K)
    (hD : circumDet_fp R a b c ≠ 0) :
    (compute_circumcircle_fp R sqrt a b c).z =
      R.single (sqrt (sqDist_fp R c (compute_circumcircle_fp R sqrt a b c))) := by
  unfold circumDet_fp at hD
  simp only [compute_circumcircle_fp, hD, if_false, sqDist_fp]

/-- The test of `point_in_circle`: `r2 <= r * r` on the rounded values. -/
theorem point_in_circle_fp_iff (R : Rounding K) (p cc : Vec3 K) :
    point_in_circle_fp R p cc = true ↔ sqDist_fp R p cc ≤ R.fmul cc.z cc.z := by
  unfold point_in_circle_fp sqDist_fp
  simp only [decide_eq_true_eq]

/-- C19 (amended): for three points with `D ≠ 0`, `compute_circumcircle` returns
`(Cx, Cy, r)` with `r` the stored square root of the value `r2` computed for `c` and the
returned centre, and `point_in_circle p circle` is the closed test `r2 <= r * r` on the
values the machine computes.  In exact arithmetic (no rounding, exact root) the centre is
equidistant from `a`, `b` and `c`, `r` is the non-negative radius with `r * r` that common
squared distance, and the test holds for `a`, `b` and `c`.  On the machine this is so where
the operations are exact, as for `(0,0), (4,0), (0,3)` with centre `(2, 3/2)` and `r = 5/2`;
where the root is rounded down, as for `(0,1), (0,0), (1,0)`, the product `r * r` is below
the squared distance and the test is false for `a`, `b` and `c`. -/
theorem compute_circumcircle_fp_spec (R : Rounding K) (sqrt : K → K) :
    (∀ a b c : Vec3 K, circumDet_fp R a b c ≠ 0 →
      (compute_circumcircle_fp R sqrt a b c).z =
        R.single (sqrt (sqDist_fp R c (compute_circumcircle_fp R sqrt a b c)))) ∧
    (∀ p cc : Vec3 K, point_in_circle_fp R p cc = true ↔
      sqDist_fp R p cc ≤ R.fmul cc.z cc.z) ∧
    (SqrtExact sqrt → ∀ a b c : Vec3 K, circumDet_fp exactRounding a b c ≠ 0 →
      sqDist a (compute_circumcircle_fp exactRounding sqrt a b c) =
        sqDist c (compute_circumcircle_fp exactRounding sqrt a b c) ∧
      sqDist b (compute_circumcircle_fp exactRounding sqrt a b c) =
        sqDist c (compute_circumcircle_fp exactRounding sqrt a b c) ∧
      0 ≤ (compute_circumcircle_fp exactRounding sqrt a b c).z ∧
      (compute_circumcircle_fp exactRounding sqrt a b c).z *
          (compute_circumcircle_fp exactRounding sqrt a b c).z =
        sqDist c (compute_circumcircle_fp exactRounding sqrt a b c) ∧
      point_in_circle_fp exactRounding a (compute_circumcircle_fp exactRounding sqrt a b c) =
        true ∧
      point_in_circle_fp exactRounding b (compute_circumcircle_fp exactRounding sqrt a b c) =
        true ∧
      point_in_circle_fp exactRounding c (compute_circumcircle_fp exactRounding sqrt a b c) =
        true) ∧
    (compute_circumcircle_fp ieeeRounding machineExt.sqrt cornerA cornerB cornerC =
        ⟨2, 3 / 2, 5 / 2⟩ ∧
      sqDist_fp ieeeRounding cornerA ⟨2, 3 / 2, 5 / 2⟩ = 25 / 4 ∧
      sqDist_fp ieeeRounding cornerB ⟨2, 3 / 2, 5 / 2⟩ = 25 / 4 ∧
      sqDist_fp ieeeRounding cornerC ⟨2, 3 / 2, 5 / 2⟩ = 25 / 4 ∧
      ieeeRounding.fmul (5 / 2) (5 / 2) = 25 / 4 ∧
      point_in_circle_fp ieeeRounding cornerA ⟨2, 3 / 2, 5 / 2⟩ = true ∧
      point_in_circle_fp ieeeRounding cornerB ⟨2, 3 / 2, 5 / 2⟩ = true ∧
      point_in_circle_fp ieeeRounding cornerC ⟨2, 3 / 2, 5 / 2⟩ = true) ∧
    (compute_circumcircle_fp ieeeRounding machineExt.sqrt (⟨0, 1, 0⟩ : Vec3 ℚ) ⟨0, 0, 0⟩
        ⟨1, 0, 0⟩ = ⟨1 / 2, 1 / 2, 11863283 / 16777216⟩ ∧
      ieeeRounding.fmul (11863283 / 16777216) (11863283 / 16777216) = 16777215 / 33554432 ∧
      sqDist_fp ieeeRounding (⟨0, 1, 0⟩ : Vec3 ℚ) ⟨1 / 2, 1 / 2, 11863283 / 16777216⟩ =
        1 / 2 ∧
      sqDist_fp ieeeRounding (⟨0, 0, 0⟩ : Vec3 ℚ) ⟨1 / 2, 1 / 2, 11863283 / 16777216⟩ =
        1 / 2 ∧
      sqDist_fp ieeeRounding (⟨1, 0, 0⟩ : Vec3 ℚ) ⟨1 / 2, 1 / 2, 11863283 / 16777216⟩ =
        1 / 2 ∧
      point_in_circle_fp ieeeRounding (⟨0, 1, 0⟩ : Vec3 ℚ)
        ⟨1 / 2, 1 / 2, 11863283 / 16777216⟩ = false ∧
      point_in_circle_fp ieeeRounding (⟨0, 0, 0⟩ : Vec3 ℚ)
        ⟨1 / 2, 1 / 2, 11863283 / 16777216⟩ = false ∧
      point_in_circle_fp ieeeRounding (⟨1, 0, 0⟩ : Vec3 ℚ)
        ⟨1 / 2, 1 / 2, 11863283 / 16777216⟩ = false) := by
  refine ⟨fun a b c hD => compute_circumcircle_fp_radius R sqrt a b c hD,
    point_in_circle_fp_iff R, ?_, ?_, ?_⟩
  · intro hs a b c hD
    have hD' : circumDet a b c ≠ 0 := hD
    rw [compute_circumcircle_fp_exact]
    obtain ⟨e1, e2⟩ := circum_equidistant sqrt a b c hD'
    obtain ⟨hz0, hz⟩ := circum_radius sqrt hs a b c hD'
    refine ⟨e1, e2, hz0, hz, ?_, ?_, ?_⟩
    · rw [point_in_circle_fp_exact, point_in_circle_iff, hz, e1]
    · rw [point_in_circle_fp_exact, point_in_circle_iff, hz, e2]
    · rw [point_in_circle_fp_exact, point_in_circle_iff, hz]
  · refine ⟨by decide!, by decide!, by decide!, by decide!, by decide!, by decide!,
      by decide!, by decide!⟩
  · refine ⟨by decide!, by decide!, by decide!, by decide!, by decide!, by decide!,
      by decide!, by decide!⟩


/-! ## The determinant in machine arithmetic -/

/-- When `isConvex` returns false the loop body in machine arithmetic advances the cursor
without calling `isEar`. -/
theorem loopBody_fp_of_not_convex (R : Rounding K) (ext : Externals K)
    (vertices : List (Vec3 K)) (s : LoopState)
    (h : isConvex_fp R vertices s.activeVerts s.cursor = false) :
    loopBody_fp R ext vertices s = some (advanceCursor s s.tradCursor) := by
  simp [loopBody_fp, h]

/-- The call of `compute_circumcircle` made by `isEar`, in machine arithmetic. -/
theorem isEar_fp_circumcircle (R : Rounding K) (ext : Externals K) (vertices : List (Vec3 K))
    (ring : List Nat) (c : Nat) (tradEar : Bool) :
    isEar_fp R ext vertices ring c tradEar =
      isEarScan_fp R ext vertices ring
        (compute_circumcircle_fp R ext.sqrt (ringVertex vertices ring (prevPos ring.length c))
          (ringVertex vertices ring c) (ringVertex vertices ring (nextPos ring.length c)))
        [ringVertex vertices ring (prevPos ring.length c), ringVertex vertices ring c,
          ringVertex vertices ring (nextPos ring.length c)]
        (prevPos ring.length c) tradEar ring.length
        (nextPos ring.length (nextPos ring.length c)) true := rfl

/-- The branch `D == 0` of `compute_circumcircle` in machine arithmetic: the centroid and a
zero radius, nothing is divided by `D`. -/
theorem compute_circumcircle_fp_of_eq (R : Rounding K) (sqrt : K → K) (a b c : Vec3 K)
    (hD : circumDet_fp R a b c = 0) :
    compute_circumcircle_fp R sqrt a b c =
      ⟨R.single (R.double (R.fadd (R.fadd a.x b.x) c.x / 3)),
        R.single (R.double (R.fadd (R.fadd a.y b.y) c.y / 3)), 0⟩ := by
  unfold circumDet_fp at hD
  simp only [compute_circumcircle_fp, hD, if_true]

/-- The branch `D != 0` of `compute_circumcircle` in machine arithmetic: both coordinates of
the centre are quotients by `D`. -/
theorem compute_circumcircle_fp_of_ne (R : Rounding K) (sqrt : K → K) (a b c : Vec3 K)
    (hD : circumDet_fp R a b c ≠ 0) :
    (compute_circumcircle_fp R sqrt a b c).x =
      R.fdiv (R.fsub
        (R.fmul (R.fdiv (R.fadd (R.fmul (R.fsub a.x c.x) (R.fadd a.x c.x))
          (R.fmul (R.fsub a.y c.y) (R.fadd a.y c.y))) 2) (R.fsub b.y c.y))
        (R.fmul (R.fdiv (R.fadd (R.fmul (R.fsub b.x c.x) (R.fadd b.x c.x))
          (R.fmul (R.fsub b.y c.y) (R.fadd b.y c.y))) 2) (R.fsub a.y c.y)))
        (circumDet_fp R a b c) ∧
    (compute_circumcircle_fp R sqrt a b c).y =
      R.fdiv (R.fsub
        (R.fmul (R.fdiv (R.fadd (R.fmul (R.fsub b.x c.x) (R.fadd b.x c.x))
          (R.fmul (R.fsub b.y c.y) (R.fadd b.y c.y))) 2) (R.fsub a.x c.x))
        (R.fmul (R.fdiv (R.fadd (R.fmul (R.fsub a.x c.x) (R.fadd a.x c.x))
          (R.fmul (R.fsub a.y c.y) (R.fadd a.y c.y))) 2) (R.fsub b.x c.x)))
        (circumDet_fp R a b c) := by
  have hD' := hD
  unfold circumDet_fp at hD'
  simp only [compute_circumcircle_fp, hD', if_false, circumDet_fp, and_self]

/-- In exact arithmetic `isConvex` is the test `0 < D` on the vertices at
`(prev, c, next)`. -/
theorem isConvex_fp_exact_iff (vertices : List (Vec3 K)) (ring : List Nat) (c : Nat) :
    isConvex_fp exactRounding vertices ring c = true ↔
      0 < circumDet_fp exactRounding (ringVertex vertices ring (prevPos ring.length c))
        (ringVertex vertices ring c) (ringVertex vertices ring (nextPos ring.length c)) := by
  rw [isConvex_fp_exact, isConvex_eq_circumDet, decide_eq_true_eq]
  rfl

/-- C22 fails on the code: on the ring `(4097,4098), (4096,4097), (0,0), (0,5000)` the
second iteration of the loop has the cursor on position 1, where `isConvex`, computed in
`double`, returns true (the cross product is 1), while the determinant `D`, computed in
`float`, is 0: the product `4097 * 4097 = 16785409` rounds to `16785408 = 4096 * 4098`.
The call of `compute_circumcircle` made by `isEar` takes the branch `D == 0`. -/
theorem degenerate_branch_reached :
    loopIter_fp ieeeRounding machineExt sliverRing 1 (initState 4) =
      some ⟨[0, 1, 2, 3], [], 1, 0, none⟩ ∧
    isConvex_fp ieeeRounding sliverRing [0, 1, 2, 3] 1 = true ∧
    cross2D (ringVertex sliverRing [0, 1, 2, 3] 0) (ringVertex sliverRing [0, 1, 2, 3] 1)
      (ringVertex sliverRing [0, 1, 2, 3] 2) = 1 ∧
    ieeeRounding.fmul 4097 4097 = 16785408 ∧
    circumDet_fp ieeeRounding (ringVertex sliverRing [0, 1, 2, 3] 0)
      (ringVertex sliverRing [0, 1, 2, 3] 1) (ringVertex sliverRing [0, 1, 2, 3] 2) = 0 ∧
    compute_circumcircle_fp ieeeRounding machineExt.sqrt (ringVertex sliverRing [0, 1, 2, 3] 0)
      (ringVertex sliverRing [0, 1, 2, 3] 1) (ringVertex sliverRing [0, 1, 2, 3] 2) =
        ⟨2731, 11188907 / 4096, 0⟩ := by
  refine ⟨by decide!, by decide!, by decide!, by decide!, by decide!, by decide!⟩

/-- C22 (amended): the determinant `D` of `compute_circumcircle` and the value
`(B - A) x (C - A)` tested by `isConvex` are the same number in exact arithmetic.  The loop
body calls `isEar` only when `isConvex` returned true, and `isEar` calls
`compute_circumcircle` on the vertices at `(prev, cursor, next)`.  In exact arithmetic `D`
is then strictly positive and the branch `D == 0` is not taken.  The machine computes `D`
in `float` and the value of `isConvex` in `double`, so `D` can be 0 after `isConvex`
returned true, as at position 1 of the ring `(4097,4098), (4096,4097), (0,0), (0,5000)`;
the branch `D == 0` then returns the centroid and a zero radius, and nothing is divided by
`D`; the quotients by `D` are formed only in the branch `D != 0`. -/
theorem isEar_circumcircle_fp_branches (R : Rounding K) (ext : Externals K)
    (vertices : List (Vec3 K)) :
    (∀ p q r : Vec3 K, circumDet p q r = cross2D p q r) ∧
    (∀ s : LoopState, isConvex_fp R vertices s.activeVerts s.cursor = false →
      loopBody_fp R ext vertices s = some (advanceCursor s s.tradCursor)) ∧
    (∀ ring c t, isEar_fp R ext vertices ring c t =
      isEarScan_fp R ext vertices ring
        (compute_circumcircle_fp R ext.sqrt (ringVertex vertices ring (prevPos ring.length c))
          (ringVertex vertices ring c) (ringVertex vertices ring (nextPos ring.length c)))
        [ringVertex vertices ring (prevPos ring.length c), ringVertex vertices ring c,
          ringVertex vertices ring (nextPos ring.length c)]
        (prevPos ring.length c) t ring.length
        (nextPos ring.length (nextPos ring.length c)) true) ∧
    (∀ ring c, isConvex_fp exactRounding vertices ring c = true →
      0 < circumDet_fp exactRounding (ringVertex vertices ring (prevPos ring.length c))
        (ringVertex vertices ring c) (ringVertex vertices ring (nextPos ring.length c))) ∧
    (∀ p q r : Vec3 K, circumDet_fp R p q r = 0 →
      compute_circumcircle_fp R ext.sqrt p q r =
        ⟨R.single (R.double (R.fadd (R.fadd p.x q.x) r.x / 3)),
          R.single (R.double (R.fadd (R.fadd p.y q.y) r.y / 3)), 0⟩) ∧
    (∀ p q r : Vec3 K, circumDet_fp R p q r ≠ 0 →
      (compute_circumcircle_fp R ext.sqrt p q r).x =
        R.fdiv (R.fsub
          (R.fmul (R.fdiv (R.fadd (R.fmul (R.fsub p.x r.x) (R.fadd p.x r.x))
            (R.fmul (R.fsub p.y r.y) (R.fadd p.y r.y))) 2) (R.fsub q.y r.y))
          (R.fmul (R.fdiv (R.fadd (R.fmul (R.fsub q.x r.x) (R.fadd q.x r.x))
            (R.fmul (R.fsub q.y r.y) (R.fadd q.y r.y))) 2) (R.fsub p.y r.y)))
          (circumDet_fp R p q r) ∧
      (compute_circumcircle_fp R ext.sqrt p q r).y =
        R.fdiv (R.fsub
          (R.fmul (R.fdiv (R.fadd (R.fmul (R.fsub q.x r.x) (R.fadd q.x r.x))
            (R.fmul (R.fsub q.y r.y) (R.fadd q.y r.y))) 2) (R.fsub p.x r.x))
          (R.fmul (R.fdiv (R.fadd (R.fmul (R.fsub p.x r.x) (R.fadd p.x r.x))
            (R.fmul (R.fsub p.y r.y) (R.fadd p.y r.y))) 2) (R.fsub q.x r.x)))
          (circumDet_fp R p q r)) ∧
    (loopIter_fp ieeeRounding machineExt sliverRing 1 (initState 4) =
        some ⟨[0, 1, 2, 3], [], 1, 0, none⟩ ∧
      isConvex_fp ieeeRounding sliverRing [0, 1, 2, 3] 1 = true ∧
      circumDet_fp ieeeRounding (ringVertex sliverRing [0, 1, 2, 3] 0)
        (ringVertex sliverRing [0, 1, 2, 3] 1) (ringVertex sliverRing [0, 1, 2, 3] 2) = 0 ∧
      compute_circumcircle_fp ieeeRounding machineExt.sqrt
        (ringVertex sliverRing [0, 1, 2, 3] 0) (ringVertex sliverRing [0, 1, 2, 3] 1)
        (ringVertex sliverRing [0, 1, 2, 3] 2) = ⟨2731, 11188907 / 4096, 0⟩) := by
  refine ⟨circumDet_eq_cross, loopBody_fp_of_not_convex R ext vertices,
    isEar_fp_circumcircle R ext vertices,
    fun ring c h => (isConvex_fp_exact_iff vertices ring c).mp h,
    fun p q r h => compute_circumcircle_fp_of_eq R ext.sqrt p q r h,
    fun p q r h => compute_circumcircle_fp_of_ne R ext.sqrt p q r h, ?_⟩
  refine ⟨by decide!, by decide!, by decide!, by decide!⟩


/-! ## Ear selection in machine arithmetic -/

/-- Closed form of the scan of `isEar` in machine arithmetic. -/
theorem isEarScan_fp_eq (R : Rounding K) (ext : Externals K) (vertices : List (Vec3 K))
    (ring : List Nat) (cc : Vec3 K) (poly : List (Vec3 K)) (prev : Nat) (tradEar : Bool) :
    ∀ (m fuel nn : Nat) (circEar : Bool), m < fuel → nn < ring.length → m < ring.length →
      cyc ring.length (nn + m) = prev →
      isEarScan_fp R ext vertices ring cc poly prev tradEar fuel nn circEar =
        some (scanSpec (fun j => point_in_circle_fp R (ringVertex vertices ring j) cc)
          (fun j => ext.contains2D poly (ringVertex vertices ring j).x
            (ringVertex vertices ring j).y)
          tradEar (scanOrder ring.length m nn) circEar) := by
  intro m
  induction m with
  | zero =>
    intro fuel nn circEar hf hnn _ hend
    obtain ⟨f, rfl⟩ : ∃ f, fuel = f + 1 := ⟨fuel - 1, by omega⟩
    have hp : nn = prev := by
      rw [← hend]
      unfold cyc
      split <;> omega
    simp [isEarScan_fp, hp, scanSpec, scanOrder]
  | succ m ih =>
    intro fuel nn circEar hf hnn hm hend
    obtain ⟨f, rfl⟩ : ∃ f, fuel = f + 1 := ⟨fuel - 1, by omega⟩
    have hp : nn ≠ prev := by
      rw [← hend]
      unfold cyc
      split <;> omega
    have hnext : nextPos ring.length nn < ring.length := by
      unfold nextPos
      split <;> omega
    have hend' : cyc ring.length (nextPos ring.length nn + m) = prev := by
      rw [← hend, nextPos_eq_cyc hnn]
      unfold cyc
      split <;> split <;> split <;> omega
    have hstep := ih f (nextPos ring.length nn)
    rw [isEarScan_fp]
    simp only [hp, ne_eq, not_false_eq_true, if_true]
    have hnp : (if nn = ring.length - 1 then 0 else nn + 1) = nextPos ring.length nn := rfl
    rw [hnp]
    have hv : vertices.getD (ring.getD nn 0) default = ringVertex vertices ring nn := rfl
    simp only [hv, hstep _ (by omega) hnext (by omega) hend']
    cases tradEar <;> cases circEar <;>
      cases h1 : point_in_circle_fp R (ringVertex vertices ring nn) cc <;>
      cases h2 : ext.contains2D poly (ringVertex vertices ring nn).x
        (ringVertex vertices ring nn).y <;>
      simp [scanSpec, scanOrder, h1, h2]

/-- Closed form of `isEar` in machine arithmetic, at a ring position: as for `isEar`, with
the circle test of the machine. -/
theorem isEar_fp_eq (R : Rounding K) (ext : Externals K) (vertices : List (Vec3 K))
    (ring : List Nat) (c : Nat) (tradEar : Bool) (hlen : 3 ≤ ring.length)
    (hc : c < ring.length) :
    isEar_fp R ext vertices ring c tradEar =
      some (if tradEar then (circleFree_fp R ext vertices ring c, true)
        else if triangleFree ext vertices ring c then (circleFree_fp R ext vertices ring c, true)
        else (false, false)) := by
  have hn1 : nextPos ring.length c < ring.length := by
    unfold nextPos
    split <;> omega
  have hn2 : nextPos ring.length (nextPos ring.length c) < ring.length := by
    unfold nextPos
    split <;> split <;> omega
  have hend : cyc ring.length (nextPos ring.length (nextPos ring.length c) +
      (ring.length - 3)) = prevPos ring.length c := by
    unfold cyc nextPos prevPos
    split <;> split <;> split <;> split <;> omega
  have hscan := isEarScan_fp_eq R ext vertices ring
    (compute_circumcircle_fp R ext.sqrt (ringVertex vertices ring (prevPos ring.length c))
      (ringVertex vertices ring c) (ringVertex vertices ring (nextPos ring.length c)))
    [ringVertex vertices ring (prevPos ring.length c), ringVertex vertices ring c,
      ringVertex vertices ring (nextPos ring.length c)]
    (prevPos ring.length c) tradEar (ring.length - 3) ring.length
    (nextPos ring.length (nextPos ring.length c)) true (by omega) hn2 (by omega) hend
  have hany : ∀ f : Nat → Bool,
      (scanOrder ring.length (ring.length - 3)
        (nextPos ring.length (nextPos ring.length c))).any f =
      (otherPositions ring.length c).any f := by
    intro f
    rw [Bool.eq_iff_iff, List.any_eq_true, List.any_eq_true]
    constructor
    · rintro ⟨j, hj, h⟩
      exact ⟨j, (mem_scanOrder_isEar hlen hc j).mp hj, h⟩
    · rintro ⟨j, hj, h⟩
      exact ⟨j, (mem_scanOrder_isEar hlen hc j).mpr hj, h⟩
  have hall : ∀ f : Nat → Bool,
      (scanOrder ring.length (ring.length - 3)
        (nextPos ring.length (nextPos ring.length c))).all f =
      (otherPositions ring.length c).all f := by
    intro f
    rw [Bool.eq_iff_iff, List.all_eq_true, List.all_eq_true]
    constructor
    · intro h j hj
      exact h j ((mem_scanOrder_isEar hlen hc j).mpr hj)
    · intro h j hj
      exact h j ((mem_scanOrder_isEar hlen hc j).mp hj)
  rw [isEar_fp_circumcircle, hscan]
  unfold scanSpec
  rw [hany, hall]
  have htf : triangleFree ext vertices ring c =
      !(otherPositions ring.length c).any (fun j =>
        ext.contains2D [ringVertex vertices ring (prevPos ring.length c),
          ringVertex vertices ring c, ringVertex vertices ring (nextPos ring.length c)]
          (ringVertex vertices ring j).x (ringVertex vertices ring j).y) := by
    unfold triangleFree inEarTriangle
    rw [List.not_any_eq_all_not]
  have hcf : circleFree_fp R ext vertices ring c =
      (otherPositions ring.length c).all (fun j =>
        !point_in_circle_fp R (ringVertex vertices ring j)
          (compute_circumcircle_fp R ext.sqrt
            (ringVertex vertices ring (prevPos ring.length c))
            (ringVertex vertices ring c) (ringVertex vertices ring (nextPos ring.length c)))) :=
    rfl
  rw [htf, hcf]
  cases tradEar <;>
    cases (otherPositions ring.length c).any (fun j =>
        ext.contains2D [ringVertex vertices ring (prevPos ring.length c),
          ringVertex vertices ring c, ringVertex vertices ring (nextPos ring.length c)]
          (ringVertex vertices ring j).x (ringVertex vertices ring j).y) <;>
    simp

/-- Closed form of the loop body in machine arithmetic. -/
theorem loopBody_fp_eq (R : Rounding K) (ext : Externals K) (vertices : List (Vec3 K))
    (s : LoopState) (hlen : 3 ≤ s.activeVerts.length) (hc : s.cursor < s.activeVerts.length) :
    loopBody_fp R ext vertices s = some (
      if isConvex_fp R vertices s.activeVerts s.cursor then
        if s.tradCursor.isSome then
          if circleFree_fp R ext vertices s.activeVerts s.cursor then (clipEar s s.cursor, true)
          else advanceCursor s s.tradCursor
        else if triangleFree ext vertices s.activeVerts s.cursor then
          if circleFree_fp R ext vertices s.activeVerts s.cursor then (clipEar s s.cursor, true)
          else advanceCursor s (some s.cursor)
        else advanceCursor s s.tradCursor
      else advanceCursor s s.tradCursor) := by
  unfold loopBody_fp
  rw [isEar_fp_eq R ext vertices s.activeVerts s.cursor _ hlen hc]
  cases isConvex_fp R vertices s.activeVerts s.cursor <;>
    cases hs : s.tradCursor <;>
    cases triangleFree ext vertices s.activeVerts s.cursor <;>
    cases circleFree_fp R ext vertices s.activeVerts s.cursor <;>
    simp

/-- One more iteration after a run of `j` iterations, in machine arithmetic. -/
theorem loopIter_fp_succ_of (R : Rounding K) (ext : Externals K) (vertices : List (Vec3 K)) :
    ∀ (j : Nat) (s sj s' : LoopState), loopIter_fp R ext vertices j s = some sj →
      3 < sj.activeVerts.length → loopBody_fp R ext vertices sj = some (s', true) →
      loopIter_fp R ext vertices (j + 1) s = some s'
  | 0, s, sj, s', h, hlen, hb => by
    simp only [loopIter_fp, Option.some.injEq] at h
    subst h
    simp [loopIter_fp, hlen, hb]
  | j + 1, s, sj, s', h, hlen, hb => by
    rw [loopIter_fp] at h
    split at h
    · rename_i hl
      cases hb0 : loopBody_fp R ext vertices s with
      | none => rw [hb0] at h; simp at h
      | some r =>
        obtain ⟨s1, ok⟩ := r
        rw [hb0] at h
        cases ok with
        | true =>
          have ih := loopIter_fp_succ_of R ext vertices j s1 sj s' h hlen hb
          rw [loopIter_fp, if_pos hl, hb0]
          exact ih
        | false => simp at h
    · simp at h

theorem firstTradEar_fp_none (R : Rounding K) (ext : Externals K) (vertices : List (Vec3 K))
    (s : LoopState) :
    ∀ m, (∀ i, i < m → isTradEar_fp R ext vertices s.activeVerts (sweepPos s i) = false) →
      firstTradEar_fp R ext vertices s m = none
  | 0, _ => rfl
  | m + 1, h => by
    rw [firstTradEar_fp, firstTradEar_fp_none R ext vertices s m (fun i hi => h i (by omega)),
      h m (by omega)]
    simp

theorem firstTradEar_fp_some (R : Rounding K) (ext : Externals K) (vertices : List (Vec3 K))
    (s : LoopState) (i : Nat)
    (hfirst : ∀ i', i' < i →
      isTradEar_fp R ext vertices s.activeVerts (sweepPos s i') = false)
    (hi : isTradEar_fp R ext vertices s.activeVerts (sweepPos s i) = true) :
    ∀ m, i < m → firstTradEar_fp R ext vertices s m = some (sweepPos s i)
  | 0, h => by omega
  | m + 1, h => by
    rw [firstTradEar_fp]
    rcases Nat.lt_succ_iff_lt_or_eq.mp h with h1 | h1
    · rw [firstTradEar_fp_some R ext vertices s i hfirst hi m h1]
    · rw [← h1, firstTradEar_fp_none R ext vertices s i hfirst, hi]
      simp

theorem sweepState_fp_zero (R : Rounding K) (ext : Externals K) (vertices : List (Vec3 K))
    (s : LoopState) (h : SweepStart s) : sweepState_fp R ext vertices s 0 = s := by
  obtain ⟨h1, h2, h3⟩ := h
  cases s
  simp only [sweepState_fp, sweepPos, firstTradEar_fp, cyc] at *
  subst h1 h3
  simp only [Nat.add_zero, h2, if_true]

/-- The body of the loop, in machine arithmetic, at a position of the sweep that does not
pass the tests of a strict clip: the cursor advances, with the first traditional ear met so
far recorded. -/
theorem loopBody_fp_sweepState (R : Rounding K) (ext : Externals K)
    (vertices : List (Vec3 K)) (s : LoopState) (m : Nat) (hlen : 3 < s.activeVerts.length)
    (hcs : s.cursor_start < s.activeVerts.length) (hm : m < s.activeVerts.length)
    (hns : strictClip_fp R ext vertices s m = false) :
    loopBody_fp R ext vertices (sweepState_fp R ext vertices s m) =
      some (advanceCursor (sweepState_fp R ext vertices s m)
        (firstTradEar_fp R ext vertices s (m + 1))) := by
  have hpos : sweepPos s m < s.activeVerts.length := by
    unfold sweepPos cyc
    split <;> omega
  rw [loopBody_fp_eq R ext vertices _
    (by simpa [sweepState_fp] using (by omega : 3 ≤ s.activeVerts.length))
    (by simpa [sweepState_fp] using hpos)]
  have e1 : (sweepState_fp R ext vertices s m).activeVerts = s.activeVerts := rfl
  have e2 : (sweepState_fp R ext vertices s m).cursor = sweepPos s m := rfl
  have e3 : (sweepState_fp R ext vertices s m).tradCursor =
      firstTradEar_fp R ext vertices s m := rfl
  rw [e1, e2, e3]
  unfold strictClip_fp at hns
  have hft : firstTradEar_fp R ext vertices s (m + 1) =
      match firstTradEar_fp R ext vertices s m with
      | some t => some t
      | none =>
        if isTradEar_fp R ext vertices s.activeVerts (sweepPos s m) then some (sweepPos s m)
        else none := rfl
  rw [hft]
  unfold isTradEar_fp
  cases hconv : isConvex_fp R vertices s.activeVerts (sweepPos s m) <;>
    cases hcf : circleFree_fp R ext vertices s.activeVerts (sweepPos s m) <;>
    cases htf : triangleFree ext vertices s.activeVerts (sweepPos s m) <;>
    cases htc : firstTradEar_fp R ext vertices s m <;>
    simp_all

theorem advanceCursor_sweepState_fp (R : Rounding K) (ext : Externals K)
    (vertices : List (Vec3 K)) (s : LoopState) (m : Nat)
    (hcs : s.cursor_start < s.activeVerts.length) (hm : m + 1 < s.activeVerts.length) :
    advanceCursor (sweepState_fp R ext vertices s m)
        (firstTradEar_fp R ext vertices s (m + 1)) =
      (sweepState_fp R ext vertices s (m + 1), true) := by
  have hne : ¬ sweepPos s (m + 1) = s.cursor_start := by
    unfold sweepPos cyc
    split_ifs <;> omega
  have hnext : (if sweepPos s m + 1 ≥ s.activeVerts.length then 0 else sweepPos s m + 1) =
      sweepPos s (m + 1) := by
    unfold sweepPos cyc
    split_ifs <;> omega
  simp only [advanceCursor, sweepState_fp, hnext, hne, if_false]

/-- As long as no position passes the tests of a strict clip, a sweep only advances. -/
theorem loopIter_fp_sweepState (R : Rounding K) (ext : Externals K)
    (vertices : List (Vec3 K)) (s : LoopState) (hstart : SweepStart s)
    (hlen : 3 < s.activeVerts.length) :
    ∀ m, m < s.activeVerts.length →
      (∀ i, i < m → strictClip_fp R ext vertices s i = false) →
      loopIter_fp R ext vertices m s = some (sweepState_fp R ext vertices s m)
  | 0, _, _ => by
    rw [sweepState_fp_zero R ext vertices s hstart]
    rfl
  | m + 1, hm, hns => by
    have ih := loopIter_fp_sweepState R ext vertices s hstart hlen m (by omega)
      (fun i hi => hns i (by omega))
    have hb := loopBody_fp_sweepState R ext vertices s m hlen hstart.2.1 (by omega)
      (hns m (by omega))
    rw [advanceCursor_sweepState_fp R ext vertices s m hstart.2.1 hm] at hb
    exact loopIter_fp_succ_of R ext vertices m s _ _ ih hlen hb

theorem advanceCursor_sweepState_fp_last (R : Rounding K) (ext : Externals K)
    (vertices : List (Vec3 K)) (s : LoopState) (m : Nat)
    (hcs : s.cursor_start < s.activeVerts.length) (hm : m + 1 = s.activeVerts.length)
    (t : Nat) (ht : firstTradEar_fp R ext vertices s (m + 1) = some t) :
    advanceCursor (sweepState_fp R ext vertices s m)
        (firstTradEar_fp R ext vertices s (m + 1)) =
      (clipEar (sweepState_fp R ext vertices s m) t, true) := by
  have hback : (if sweepPos s m + 1 ≥ s.activeVerts.length then 0 else sweepPos s m + 1) =
      s.cursor_start := by
    unfold sweepPos cyc
    split_ifs <;> omega
  simp only [advanceCursor, sweepState_fp, hback, if_true, ht]

/-- The first position of a sweep that passes the tests of a strict clip is clipped. -/
theorem sweep_fp_clips_strict (R : Rounding K) (ext : Externals K) (vertices : List (Vec3 K))
    (s : LoopState) (hstart : SweepStart s) (hlen : 3 < s.activeVerts.length) (i : Nat)
    (hi : i < s.activeVerts.length)
    (hfirst : ∀ i', i' < i → strictClip_fp R ext vertices s i' = false)
    (hstrict : strictClip_fp R ext vertices s i = true) :
    loopIter_fp R ext vertices i s = some (sweepState_fp R ext vertices s i) ∧
    loopBody_fp R ext vertices (sweepState_fp R ext vertices s i) =
      some (clipEar (sweepState_fp R ext vertices s i) (sweepPos s i), true) := by
  refine ⟨loopIter_fp_sweepState R ext vertices s hstart hlen i hi hfirst, ?_⟩
  have hpos : sweepPos s i < s.activeVerts.length := by
    have := hstart.2.1
    unfold sweepPos cyc
    split <;> omega
  rw [loopBody_fp_eq R ext vertices _
    (by simpa [sweepState_fp] using (by omega : 3 ≤ s.activeVerts.length))
    (by simpa [sweepState_fp] using hpos)]
  have e1 : (sweepState_fp R ext vertices s i).activeVerts = s.activeVerts := rfl
  have e2 : (sweepState_fp R ext vertices s i).cursor = sweepPos s i := rfl
  have e3 : (sweepState_fp R ext vertices s i).tradCursor =
      firstTradEar_fp R ext vertices s i := rfl
  rw [e1, e2, e3]
  unfold strictClip_fp at hstrict
  cases hconv : isConvex_fp R vertices s.activeVerts (sweepPos s i) <;>
    cases hcf : circleFree_fp R ext vertices s.activeVerts (sweepPos s i) <;>
    cases htf : triangleFree ext vertices s.activeVerts (sweepPos s i) <;>
    cases htc : firstTradEar_fp R ext vertices s i <;>
    simp_all

/-- When no position passes the tests of a strict clip, the sweep goes once around and then
clips the first traditional ear it met. -/
theorem sweep_fp_clips_fallback (R : Rounding K) (ext : Externals K)
    (vertices : List (Vec3 K)) (s : LoopState) (hstart : SweepStart s)
    (hlen : 3 < s.activeVerts.length)
    (hns : ∀ i, i < s.activeVerts.length → strictClip_fp R ext vertices s i = false)
    (t : Nat) (ht : firstTradEar_fp R ext vertices s s.activeVerts.length = some t) :
    loopIter_fp R ext vertices (s.activeVerts.length - 1) s =
      some (sweepState_fp R ext vertices s (s.activeVerts.length - 1)) ∧
    loopBody_fp R ext vertices (sweepState_fp R ext vertices s (s.activeVerts.length - 1)) =
      some (clipEar (sweepState_fp R ext vertices s (s.activeVerts.length - 1)) t, true) := by
  obtain ⟨m, hm⟩ : ∃ m, s.activeVerts.length = m + 1 := ⟨s.activeVerts.length - 1, by omega⟩
  have e : s.activeVerts.length - 1 = m := by omega
  rw [e]
  refine ⟨loopIter_fp_sweepState R ext vertices s hstart hlen m (by omega)
    (fun i hi => hns i (by omega)), ?_⟩
  rw [loopBody_fp_sweepState R ext vertices s m hlen hstart.2.1 (by omega) (hns m (by omega))]
  rw [hm] at ht
  rw [advanceCursor_sweepState_fp_last R ext vertices s m hstart.2.1 hm.symm t ht]


/-- Without rounding the circle verdict of the machine is `circleFree`. -/
theorem circleFree_fp_exact (ext : Externals K) (vertices : List (Vec3 K)) (ring : List Nat)
    (c : Nat) : circleFree_fp exactRounding ext vertices ring c = circleFree ext vertices ring c :=
  rfl

/-- In exact arithmetic, with a `contains2D` that is false outside the closed triangle, the
tests of a strict clip amount to: convex, and no other ring vertex within the
circumcircle. -/
theorem strictClip_fp_exact (ext : Externals K) (hs : SqrtExact ext.sqrt)
    (ho : ContainsOnlyInside ext) (vertices : List (Vec3 K)) (s : LoopState) (i : Nat) :
    strictClip_fp exactRounding ext vertices s i =
      isStrictEar ext vertices s.activeVerts (sweepPos s i) := by
  unfold strictClip_fp isStrictEar
  rw [isConvex_fp_exact, circleFree_fp_exact]
  cases hconv : isConvex vertices s.activeVerts (sweepPos s i) with
  | false => simp
  | true =>
    cases hcf : circleFree ext vertices s.activeVerts (sweepPos s i) with
    | false => simp
    | true =>
      rw [triangleFree_of_circleFree ext hs ho vertices _ _ hconv hcf]
      simp

/-- C18 fails on the code.  The four corners of the trapezoid `(-2,-2), (3,-2), (2,1), (-1,1)`
lie on one circle, of centre `(1/2, -7/6)`: for every position the fourth corner is within
the closed circumcircle, no position is a strict ear, and the rule of the claim has the
sweep end with the clip of position 0, the first traditional ear.  The machine records
position 0 as traditional ear, advances, and in its third iteration clips position 2 as a
strict ear.  Likewise on the unit square, with all corners at squared distance `1/2` of
`(1/2, 1/2)`, the first iteration clips position 0 at once as a strict ear. -/
theorem strict_clip_on_circle :
    (∀ j, j < 4 → sqDist (ringVertex trapezoid [0, 1, 2, 3] j) ⟨1 / 2, -7 / 6, 0⟩ = 125 / 18) ∧
    isTradEar_fp ieeeRounding machineExt trapezoid [0, 1, 2, 3] 0 = true ∧
    loopIter_fp ieeeRounding machineExt trapezoid 2 (initState 4) =
      some ⟨[0, 1, 2, 3], [], 2, 0, some 0⟩ ∧
    loopBody_fp ieeeRounding machineExt trapezoid ⟨[0, 1, 2, 3], [], 2, 0, some 0⟩ =
      some (clipEar ⟨[0, 1, 2, 3], [], 2, 0, some 0⟩ 2, true) ∧
    clipEar ⟨[0, 1, 2, 3], [], 2, 0, some 0⟩ 2 = ⟨[0, 1, 3], [⟨1, 2, 3⟩], 2, 2, none⟩ ∧
    (∀ j, j < 4 → sqDist (ringVertex (unitSquare : List (Vec3 ℚ)) [0, 1, 2, 3] j)
      ⟨1 / 2, 1 / 2, 0⟩ = 1 / 2) ∧
    loopBody_fp ieeeRounding machineExt unitSquare (initState 4) =
      some (clipEar (initState 4) 0, true) := by
  refine ⟨by decide!, by decide!, by decide!, by decide!, by decide!, by decide!, by decide!⟩

/-- C18 (amended): ear selection in one sweep, in the arithmetic of the machine.  From a
state at the start of a sweep (the initial state and every state after a clip are such
states), going through the ring positions in order from `cursor_start`, the loop clips the
first position that passes the tests of a strict clip: `isConvex` returns true, the circle
test `r2 <= r * r` of the machine finds no other ring vertex within the circumcircle and,
as long as no traditional ear has been met in the sweep, `contains2D` finds none in the
triangle; it is clipped after pure advances up to it.  If no position of the ring passes,
the sweep goes once around and its last iteration clips the first position in sweep order
that is a traditional ear.  A clip erases the ring entry, leaves the cursor on the same
position (0 if that is past the end), sets `cursor_start` to it and clears the fallback
record.  In exact arithmetic, with a `contains2D` that is false outside the closed
triangle, the tests of a strict clip are: convex and no other ring vertex within the closed
circumcircle. -/
theorem ear_selection_order_fp (R : Rounding K) (ext : Externals K)
    (vertices : List (Vec3 K)) (s : LoopState) (hstart : SweepStart s)
    (hlen : 3 < s.activeVerts.length) :
    (∀ i, i < s.activeVerts.length → strictClip_fp R ext vertices s i = true →
      (∀ i', i' < i → strictClip_fp R ext vertices s i' = false) →
      ∃ si, loopIter_fp R ext vertices i s = some si ∧ si.activeVerts = s.activeVerts ∧
        si.tris = s.tris ∧ si.cursor = sweepPos s i ∧
        loopBody_fp R ext vertices si = some (clipEar si (sweepPos s i), true)) ∧
    ((∀ i, i < s.activeVerts.length → strictClip_fp R ext vertices s i = false) →
      ∀ i, i < s.activeVerts.length →
      isTradEar_fp R ext vertices s.activeVerts (sweepPos s i) = true →
      (∀ i', i' < i → isTradEar_fp R ext vertices s.activeVerts (sweepPos s i') = false) →
      ∃ sl, loopIter_fp R ext vertices (s.activeVerts.length - 1) s = some sl ∧
        sl.activeVerts = s.activeVerts ∧ sl.tris = s.tris ∧
        sl.cursor = sweepPos s (s.activeVerts.length - 1) ∧
        loopBody_fp R ext vertices sl = some (clipEar sl (sweepPos s i), true)) ∧
    (∀ (st : LoopState) (c : Nat), c < st.activeVerts.length → 1 < st.activeVerts.length →
      (clipEar st c).activeVerts = st.activeVerts.eraseIdx c ∧
      (clipEar st c).cursor = (if c + 1 = st.activeVerts.length then 0 else c) ∧
      (clipEar st c).cursor_start = (clipEar st c).cursor ∧
      (clipEar st c).tradCursor = none ∧ SweepStart (clipEar st c)) ∧
    (0 < vertices.length → SweepStart (initState vertices.length)) ∧
    (SqrtExact ext.sqrt → ContainsOnlyInside ext → ∀ i,
      strictClip_fp exactRounding ext vertices s i =
        (isConvex vertices s.activeVerts (sweepPos s i) &&
          circleFree ext vertices s.activeVerts (sweepPos s i))) := by
  refine ⟨?_, ?_, ?_, ?_, ?_⟩
  · intro i hi hstrict hfirst
    obtain ⟨h1, h2⟩ := sweep_fp_clips_strict R ext vertices s hstart hlen i hi hfirst hstrict
    exact ⟨_, h1, rfl, rfl, rfl, h2⟩
  · intro hns i hi hear hfirst
    have ht := firstTradEar_fp_some R ext vertices s i hfirst hear s.activeVerts.length hi
    obtain ⟨h1, h2⟩ := sweep_fp_clips_fallback R ext vertices s hstart hlen hns _ ht
    exact ⟨_, h1, rfl, rfl, rfl, h2⟩
  · intro st c hc h1
    obtain ⟨h2, h3⟩ := clipEar_sweepStart st c hc h1
    exact ⟨rfl, h2, rfl, rfl, h3⟩
  · intro hpos
    exact ⟨rfl, by simpa [initState] using hpos, rfl⟩
  · intro hs ho i
    exact strictClip_fp_exact ext hs ho vertices s i

theorem ear_selection_order_fp_witness :
    SweepStart (initState 4) ∧
    strictClip_fp ieeeRounding machineExt trapezoid (initState 4) 2 = true ∧
    (∀ i', i' < 2 → strictClip_fp ieeeRounding machineExt trapezoid (initState 4) i' = false) ∧
    ∃ si, loopIter_fp ieeeRounding machineExt trapezoid 2 (initState 4) = some si ∧
      si.activeVerts = (initState 4).activeVerts ∧ si.tris = (initState 4).tris ∧
      si.cursor = sweepPos (initState 4) 2 ∧
      loopBody_fp ieeeRounding machineExt trapezoid si =
        some (clipEar si (sweepPos (initState 4) 2), true) :=
  ⟨⟨rfl, by decide, rfl⟩, by decide!, by decide!,
    (ear_selection_order_fp ieeeRounding machineExt trapezoid (initState 4)
      ⟨rfl, by decide, rfl⟩ (by decide)).1 2 (by decide) (by decide!) (by decide!)⟩

end Tessellator
